import Mathlib

/-!
# manuSCRIPT: filename classification and chapter ordering

A shallow embedding of `src/src/fileParser.js` (`parseFilename`, `parseAndSortFiles`).

JavaScript strings are modelled as `String` at the interface and as `List Char` inside;
the regular expressions of the source are values of `Re`, run by a backtracking matcher
that follows the ECMAScript pattern semantics (greedy quantifiers, alternatives tried left
to right, leftmost match).  None of the patterns has the `u` flag, so `\d`, `\w`, `\b` are
ASCII-only and `\s` is the ECMAScript WhiteSpace/LineTerminator set.

What belongs to the host rather than to the repository is modelled from its documentation:
`path.basename` and `path.extname` are those of `path.posix`; a chapter number is a Number,
so `parseInt` rounds to the nearest double (`JSNumber`, `roundToDouble`);
`Array.prototype.sort` is a stable sort; the upper-case table used by case-insensitive
matching of custom separators is a parameter `up`. A thrown exception is `none`.
-/

namespace FileParser

/-! ## Character classes -/

/-- The class `\d`: ASCII decimal digits. -/
def isDigit (c : Char) : Bool := decide (48 ≤ c.toNat) && decide (c.toNat ≤ 57)

/-- The class `\s` (also the set removed by `String.prototype.trim`): ECMAScript WhiteSpace
and LineTerminator code points. -/
def isSpace (c : Char) : Bool :=
  let n := c.toNat
  decide (9 ≤ n) && decide (n ≤ 13) || n == 32 || n == 160 || n == 5760 ||
  decide (8192 ≤ n) && decide (n ≤ 8202) || n == 8232 || n == 8233 || n == 8239 ||
  n == 8287 || n == 12288 || n == 65279

/-- ASCII letters `[A-Za-z]`; with the `i` flag and no `u` flag this is what `[a-z]` matches. -/
def isLetter (c : Char) : Bool :=
  decide (65 ≤ c.toNat) && decide (c.toNat ≤ 90) || decide (97 ≤ c.toNat) && decide (c.toNat ≤ 122)

/-- The class `\w`: `[A-Za-z0-9_]`. -/
def isWordChar (c : Char) : Bool := isLetter c || isDigit c || c == '_'

/-- The class `[\s\-_:.]` of lines 42, 56 and 57. -/
def isSepChar (c : Char) : Bool :=
  isSpace c || c == '-' || c == '_' || c == ':' || c == '.'

/-- ASCII upper-casing. -/
def asciiUpper (c : Char) : Char :=
  if 97 ≤ c.toNat ∧ c.toNat ≤ 122 then Char.ofNat (c.toNat - 32) else c

/-- ECMAScript `Canonicalize` for a pattern with the `i` flag and without the `u` flag.
`up` is the host's single-code-unit upper-case mapping (the Unicode table is not part of the
repository); a character outside ASCII never canonicalizes to an ASCII one, and characters
outside the basic plane (surrogate pairs in the source) are left alone. -/
def canonicalize (up : Char → Char) (c : Char) : Char :=
  if c.toNat < 128 then asciiUpper c
  else if 65535 < c.toNat then c
  else if (up c).toNat < 128 then c else up c

/-! ## Regular expressions -/

/-- A position in the subject string: the characters before it (nearest first) and after it. -/
structure Pos where
  before : List Char
  after : List Char
deriving DecidableEq, Repr

/-- The fragment of ECMAScript pattern syntax used by the source. -/
inductive Re where
  | empty : Re
  | chr : (Char → Bool) → Re
  | seq : Re → Re → Re
  | alt : Re → Re → Re
  | star : Re → Re
  | bol : Re
  | eol : Re
  | wordB : Re
  | notAhead : Re → Re

/-- Greedy iteration: `step` is the body; an iteration that consumes nothing is rejected, as
in the ECMAScript RepeatMatcher. The fuel is the number of characters left. -/
def starEnds (step : Pos → List Pos) : Nat → Pos → List Pos
  | 0, x => [x]
  | n + 1, x =>
    ((step x).filter (fun y => y.after.length != x.after.length)).flatMap (starEnds step n) ++ [x]

/-- Whether the character next to a position (if any) is a word character. -/
def wordAt : List Char → Bool
  | [] => false
  | c :: _ => isWordChar c

/-- All the ways `r` can match starting at position `x`, as end positions, in the order the
backtracking matcher tries them; the head is the match the matcher returns. -/
def Re.ends : Re → Pos → List Pos
  | .empty, x => [x]
  | .chr p, x =>
    match x.after with
    | [] => []
    | c :: cs => if p c then [⟨c :: x.before, cs⟩] else []
  | .seq a b, x => (a.ends x).flatMap (fun y => b.ends y)
  | .alt a b, x => a.ends x ++ b.ends x
  | .star a, x => starEnds (fun y => a.ends y) x.after.length x
  | .bol, x => if x.before.isEmpty then [x] else []
  | .eol, x => if x.after.isEmpty then [x] else []
  | .wordB, x => if wordAt x.before != wordAt x.after then [x] else []
  | .notAhead a, x => if (a.ends x).isEmpty then [x] else []

/-- `a+` -/
def Re.plus (a : Re) : Re := .seq a (.star a)

/-- `a?` -/
def Re.opt (a : Re) : Re := .alt a .empty

/-- A literal under the `i` flag whose characters are ASCII letters: only the two ASCII cases
of each letter canonicalize to it. -/
def Re.word : List Char → Re
  | [] => .empty
  | c :: cs => .seq (.chr (fun d => asciiUpper d == asciiUpper c)) (Re.word cs)

/-- RegExpBuiltinExec without the `g` flag from a given position: the leftmost start at which
the pattern matches, with the end of the first match there. -/
def execFrom (r : Re) : List Char → List Char → Option (Pos × Pos)
  | b, [] => ((r.ends ⟨b, []⟩).head?).map (fun e => (⟨b, []⟩, e))
  | b, c :: cs =>
    match (r.ends ⟨b, c :: cs⟩).head? with
    | some e => some (⟨b, c :: cs⟩, e)
    | none => execFrom r (c :: b) cs

/-- The text between two positions `s` and `e` of one subject. -/
def between (s e : Pos) : List Char := s.after.take (s.after.length - e.after.length)

/-- `str.match(r)` for a pattern without the `g` flag: element 0 of the result, if any. -/
def matchFirst (r : Re) (s : List Char) : Option (List Char) :=
  (execFrom r [] s).map (fun se => between se.1 se.2)

/-- `str.replace(r, repl)` for a pattern without the `g` flag. -/
def replaceFirst (r : Re) (repl s : List Char) : List Char :=
  match execFrom r [] s with
  | none => s
  | some (st, e) => st.before.reverse ++ repl ++ e.after

/-- The loop of `str.replace(r, repl)` for a pattern with the `g` flag: after an empty match
the search resumes one character further. -/
def replaceAllFrom (r : Re) (repl : List Char) : Nat → List Char → List Char → List Char
  | 0, _, rest => rest
  | n + 1, b, rest =>
    match execFrom r b rest with
    | none => rest
    | some (st, e) =>
      let skipped := rest.take (rest.length - st.after.length)
      if e.after.length = st.after.length then
        match e.after with
        | [] => skipped ++ repl
        | c :: cs => skipped ++ repl ++ c :: replaceAllFrom r repl n (c :: e.before) cs
      else skipped ++ repl ++ replaceAllFrom r repl n e.before e.after

/-- `str.replace(r, repl)` for a pattern with the `g` flag. -/
def replaceAll (r : Re) (repl s : List Char) : List Char :=
  replaceAllFrom r repl (s.length + 1) [] s

/-! ## String helpers -/

/-- `String.prototype.trim`. -/
def trim (s : List Char) : List Char :=
  ((s.dropWhile isSpace).reverse.dropWhile isSpace).reverse

/-- Whether `p` is a prefix of `s`. -/
def startsWith : List Char → List Char → Bool
  | [], _ => true
  | _ :: _, [] => false
  | a :: p, b :: s => a == b && startsWith p s

/-- `str.replace(pat, repl)` for a string `pat`: the first occurrence only. -/
def replaceStr (pat repl : List Char) : List Char → List Char
  | [] => if pat.isEmpty then repl else []
  | c :: cs =>
    if startsWith pat (c :: cs) then repl ++ (c :: cs).drop pat.length
    else c :: replaceStr pat repl cs

/-- `str.split(',')`. -/
def splitComma : List Char → List (List Char)
  | [] => [[]]
  | c :: cs =>
    match splitComma cs with
    | [] => [[c]]
    | p :: ps => if c == ',' then [] :: p :: ps else (c :: p) :: ps

/-! ## Paths (Node `path.posix`) -/

/-- `path.basename(p)`: the last component of the path, trailing slashes ignored. -/
def basename (p : List Char) : List Char :=
  ((p.reverse.dropWhile (fun c => c == '/')).takeWhile (fun c => c != '/')).reverse

/-- The extension of a path component, as `path.extname` finds it: from the last dot to the
end; empty when there is no dot, when the last dot is the first character, and for `..`. -/
def extOf (comp : List Char) : List Char :=
  match comp.reverse.dropWhile (fun c => c != '.') with
  | [] => []
  | [_] => []
  | _ :: _ :: _ =>
    if comp = ['.', '.'] then []
    else '.' :: (comp.reverse.takeWhile (fun c => c != '.')).reverse

/-- `path.extname(p)`. -/
def extname (p : List Char) : List Char := extOf (basename p)

/-- `path.basename(p, path.extname(p))`: the last component without its extension. -/
def stem (p : List Char) : List Char :=
  (basename p).take ((basename p).length - (extname p).length)

/-! ## Numbers -/

/-- The Number values that `parseInt` returns on a run of decimal digits: a non-negative
integer that is a double, or `Infinity`. -/
inductive JSNumber where
  | finite (n : Nat)
  | infinity
deriving DecidableEq, Repr

/-- The number of binary digits of `n`; the fuel bounds the recursion. -/
def bitLength : Nat → Nat → Nat
  | 0, _ => 0
  | fuel + 1, n => if n = 0 then 0 else bitLength fuel (n / 2) + 1

/-- The double nearest to the integer `n` (ties to even); `Infinity` when the rounded value
needs more than 1024 binary digits, that is from `2^1024` on. -/
def roundToDouble (n : Nat) : JSNumber :=
  if n < 2 ^ 53 then .finite n
  else
    let e := bitLength n n - 53
    let q := n / 2 ^ e
    let r := n % 2 ^ e
    let q1 := if 2 ^ (e - 1) < r ∨ (2 ^ (e - 1) = r ∧ q % 2 = 1) then q + 1 else q
    if 1024 < bitLength q1 q1 + e then .infinity else .finite (q1 * 2 ^ e)

/-- The integer written by a list of decimal digits. -/
def digitsValue (ds : List Char) : Nat :=
  ds.foldl (fun acc c => 10 * acc + (c.toNat - 48)) 0

/-- `parseInt(ds)` for a non-empty run of decimal digits `ds`. -/
def parseInt (ds : List Char) : JSNumber := roundToDouble (digitsValue ds)

/-! ## The patterns of `parseFilename` -/

/-- `\d` -/
def reDigit : Re := .chr isDigit

/-- `\s` -/
def reSpace : Re := .chr isSpace

/-- `-` -/
def reHyphen : Re := .chr (fun c => c == '-')

/-- `/\d+/` (line 15). -/
def chapterPattern : Re := reDigit.plus

/-- `(AD|CE)` under the `i` flag. -/
def reADCE : Re := .alt (Re.word "AD".data) (Re.word "CE".data)

/-- `(BCE|BC)` under the `i` flag. -/
def reBCE : Re := .alt (Re.word "BCE".data) (Re.word "BC".data)

/-- `/\b(AD|CE)\s*(\d+)\b/i` -/
def datePattern1 : Re := .seq .wordB (.seq reADCE (.seq reSpace.star (.seq reDigit.plus .wordB)))

/-- `/\b(\d+)\s*(AD|CE)\b/i` -/
def datePattern2 : Re := .seq .wordB (.seq reDigit.plus (.seq reSpace.star (.seq reADCE .wordB)))

/-- `/\b(\d+)\s*(BCE|BC)\b/i` -/
def datePattern3 : Re := .seq .wordB (.seq reDigit.plus (.seq reSpace.star (.seq reBCE .wordB)))

/-- `/\b(BCE|BC)\s*(\d+)\b/i` -/
def datePattern4 : Re := .seq .wordB (.seq reBCE (.seq reSpace.star (.seq reDigit.plus .wordB)))

/-- `/\b(\d{3,4})\b(?!\s*chapter)/i` -/
def datePattern5 : Re :=
  .seq .wordB (.seq (.seq reDigit (.seq reDigit (.seq reDigit reDigit.opt)))
    (.seq .wordB (.notAhead (.seq reSpace.star (Re.word "chapter".data)))))

/-- The array `datePatterns` (lines 20-26), in its order. -/
def datePatterns : List Re :=
  [datePattern1, datePattern2, datePattern3, datePattern4, datePattern5]

/-- The loop of lines 28-35: the match of the first pattern that matches. -/
def findDate (s : List Char) : List Re → Option (List Char)
  | [] => none
  | r :: rs =>
    match matchFirst r s with
    | some m => some m
    | none => findDate s rs

/-- `/^(chapter\s*)?\d+[\s\-_:.]*/i` (line 42). -/
def chapterLeadPattern : Re :=
  .seq .bol (.seq (Re.opt (.seq (Re.word "chapter".data) reSpace.star))
    (.seq reDigit.plus (Re.star (.chr isSepChar))))

/-- `/\s*-+\s*[a-z]\s*-+\s*/gi` (line 53). -/
def dashLetterPattern : Re :=
  .seq reSpace.star (.seq reHyphen.plus (.seq reSpace.star (.seq (.chr isLetter)
    (.seq reSpace.star (.seq reHyphen.plus reSpace.star)))))

/-- `/\s*-+\s+HERE\s+-+\s*/gi` (line 54). -/
def herePattern : Re :=
  .seq reSpace.star (.seq reHyphen.plus (.seq reSpace.plus (.seq (Re.word "HERE".data)
    (.seq reSpace.plus (.seq reHyphen.plus reSpace.star)))))

/-- `/\s*-{2,}\s*/g` (line 55). -/
def dashRunPattern : Re :=
  .seq reSpace.star (.seq reHyphen (.seq reHyphen (.seq reHyphen.star reSpace.star)))

/-- `/^[\s\-_:.]+/` (line 56). -/
def leadingSepPattern : Re := .seq .bol (Re.plus (.chr isSepChar))

/-- `/[\s\-_:.]+$/` (line 57). -/
def trailingSepPattern : Re := .seq (Re.plus (.chr isSepChar)) .eol

/-- `/\s+/g` (line 58). -/
def spacesPattern : Re := reSpace.plus

/-- Lines 52-59: the built-in separator removal. -/
def removeBuiltinSeparators (title : List Char) : List Char :=
  trim (replaceAll spacesPattern [' ']
    (replaceFirst trailingSepPattern []
      (replaceFirst leadingSepPattern []
        (replaceAll dashRunPattern [' ']
          (replaceAll herePattern [' ']
            (replaceAll dashLetterPattern [' '] title))))))

/-! ## Custom separators (lines 61-70) -/

/-- The characters of the class `[.*+?^${}()|[\]\\]` of line 66; they are all the syntax
characters of an ECMAScript pattern. -/
def isSyntaxChar (c : Char) : Bool :=
  ".*+?^$\x7b\x7d()|[]\\".data.contains c

/-- Line 66: `separator.replace(/[.*+?^${}()|[\]\\]/g, '\\$&')`. -/
def escapeRegExp : List Char → List Char
  | [] => []
  | c :: cs => if isSyntaxChar c then '\\' :: c :: escapeRegExp cs else c :: escapeRegExp cs

/-- An atom of a compiled pattern source, with whether a `*` follows it. -/
structure Item where
  atom : Re
  starred : Bool

/-- Reads a pattern source made of `\s`, escaped syntax characters and plain characters, each
optionally followed by `*`. Any other construct is outside this fragment and gives `none`
(in the source: a different matcher or a `SyntaxError`). The fuel is the source length. -/
def parseItems (up : Char → Char) : Nat → List Char → Option (List Item)
  | 0, src => if src.isEmpty then some [] else none
  | n + 1, src =>
    match src with
    | [] => some []
    | c :: rest =>
      if c == '\\' then
        match rest with
        | [] => none
        | d :: rest2 =>
          if d == 's' then
            match rest2 with
            | [] => some [⟨reSpace, false⟩]
            | e :: rest3 =>
              if e == '*' then (parseItems up n rest3).map (fun l => ⟨reSpace, true⟩ :: l)
              else (parseItems up n rest2).map (fun l => ⟨reSpace, false⟩ :: l)
          else if isSyntaxChar d then
            match rest2 with
            | [] => some [⟨.chr (fun x => x == d), false⟩]
            | e :: rest3 =>
              if e == '*' then
                (parseItems up n rest3).map (fun l => ⟨.chr (fun x => x == d), true⟩ :: l)
              else (parseItems up n rest2).map (fun l => ⟨.chr (fun x => x == d), false⟩ :: l)
          else none
      else if isSyntaxChar c then none
      else
        match rest with
        | [] => some [⟨.chr (fun x => canonicalize up x == canonicalize up c), false⟩]
        | e :: rest3 =>
          if e == '*' then
            (parseItems up n rest3).map
              (fun l => ⟨.chr (fun x => canonicalize up x == canonicalize up c), true⟩ :: l)
          else
            (parseItems up n rest).map
              (fun l => ⟨.chr (fun x => canonicalize up x == canonicalize up c), false⟩ :: l)

/-- The sequence of the items. -/
def itemsRe : List Item → Re
  | [] => .empty
  | i :: is => .seq (if i.starred then i.atom.star else i.atom) (itemsRe is)

/-- `new RegExp(src, 'gi')` on the fragment read by `parseItems`. -/
def compileRegExp (up : Char → Char) (src : List Char) : Option Re :=
  (parseItems up src.length src).map itemsRe

/-- Lines 66-68 for one separator: escape it, build the pattern `\s*sep\s*`, replace every
match by one space and trim. `none` stands for the constructor throwing. -/
def removeCustomSeparator (up : Char → Char) (title separator : List Char) :
    Option (List Char) :=
  (compileRegExp up ("\\s*".data ++ escapeRegExp separator ++ "\\s*".data)).map
    (fun r => trim (replaceAll r [' '] title))

/-- Line 63: split on commas, trim each token, drop the empty ones. -/
def customSeparators (ignoreSeparators : List Char) : List (List Char) :=
  ((splitComma ignoreSeparators).map trim).filter (fun s => !s.isEmpty)

/-- The `forEach` of lines 64-69. -/
def removeCustomSeparators (up : Char → Char) : List Char → List (List Char) →
    Option (List Char)
  | title, [] => some title
  | title, sep :: seps =>
    (removeCustomSeparator up title sep).bind (fun t => removeCustomSeparators up t seps)

/-! ## `parseFilename` -/

/-- The record returned by `parseFilename` (lines 77-84). -/
structure FileRecord where
  filepath : String
  filename : String
  chapterNumber : Option JSNumber
  dateString : Option String
  title : String
  isValid : Bool
deriving DecidableEq, Repr

/-- Lines 37-48: the text the title is built from, once the leading chapter number (when a
chapter number was found) and the first occurrence of the date string are removed. -/
def residualTitle (filename : List Char) (chapterNumber : Option JSNumber)
    (dateString : Option (List Char)) : List Char :=
  let title := if chapterNumber.isSome then replaceFirst chapterLeadPattern [] filename
    else filename
  match dateString with
  | some d => if d.isEmpty then title else replaceStr d [] title
  | none => title

/-- Lines 61-70: the custom separator filtering, skipped when the configuration is blank. -/
def applyCustomSeparators (up : Char → Char) (title ignoreSeparators : List Char) :
    Option (List Char) :=
  if (trim ignoreSeparators).isEmpty then some title
  else removeCustomSeparators up title (customSeparators ignoreSeparators)

/-- `parseFilename(filepath, ignoreSeparators)` (lines 11-85). `up` is the upper-case mapping
of the host, used by case-insensitive matching of custom separators; `none` stands for an
exception. -/
def parseFilename (up : Char → Char) (filepath : String) (ignoreSeparators : String) :
    Option FileRecord :=
  let filename := stem filepath.data
  let chapterNumber := (matchFirst chapterPattern filename).map parseInt
  let dateString := findDate filename datePatterns
  let title := removeBuiltinSeparators (residualTitle filename chapterNumber dateString)
  (applyCustomSeparators up title ignoreSeparators.data).map (fun title =>
    { filepath := filepath
      filename := String.mk (basename filepath.data)
      chapterNumber := chapterNumber
      dateString := dateString.map String.mk
      title := String.mk (if title.isEmpty then filename else title)
      isValid := chapterNumber.isSome })

/-! ## `parseAndSortFiles` -/

/-- The sign of `x - y` on the Number values of `parseInt`; `none` is NaN
(`Infinity - Infinity`). Subtraction of doubles rounds, but keeps the sign. -/
def JSNumber.subSign : JSNumber → JSNumber → Option Int
  | .finite m, .finite n => some (if m < n then -1 else if n < m then 1 else 0)
  | .finite _, .infinity => some (-1)
  | .infinity, .finite _ => some 1
  | .infinity, .infinity => none

/-- The comparator of lines 94-99 (its sign; `none` is NaN). -/
def compareFn (a b : FileRecord) : Option Int :=
  match a.chapterNumber, b.chapterNumber with
  | none, none => some 0
  | none, some _ => some 1
  | some _, none => some (-1)
  | some x, some y => x.subSign y

/-- ECMAScript `SortCompare`: a NaN from the comparator counts as `+0`. -/
def sortCompare (a b : FileRecord) : Int := (compareFn a b).getD 0

/-- Inserts `a` before the first element that does not have to precede it. -/
def orderedInsert (cmp : α → α → Int) (a : α) : List α → List α
  | [] => [a]
  | b :: l => if cmp a b ≤ 0 then a :: b :: l else b :: orderedInsert cmp a l

/-- `Array.prototype.sort(comparefn)`: ECMAScript requires the sort to be stable, and
for a consistent comparator the result does not depend on the algorithm; this is the stable
insertion sort. -/
def arraySort (cmp : α → α → Int) : List α → List α
  | [] => []
  | a :: l => orderedInsert cmp a (arraySort cmp l)

/-- The text of a warning message, with the interpolated values kept as data:
`noMatch n` is `${n} file(s) don't match expected naming pattern`, and
`duplicates vs` is `Duplicate chapter numbers found: ${vs.join(', ')}`. -/
inductive Message where
  | noMatch (count : Nat)
  | duplicates (values : List JSNumber)
deriving DecidableEq, Repr

/-- An element of `warnings` (lines 106-110 and 123-126); `files` is absent from the
duplicate warning. -/
structure Warning where
  type : String
  message : Message
  files : Option (List String)
deriving DecidableEq, Repr

/-- The value of `chapterRange` when it is not null. -/
structure ChapterRange where
  min : JSNumber
  max : JSNumber
deriving DecidableEq, Repr

/-- The object returned by `parseAndSortFiles` (lines 141-146). -/
structure BatchResult where
  files : List FileRecord
  warnings : List Warning
  chapterRange : Option ChapterRange
  hasDates : Bool
deriving DecidableEq, Repr

/-- Line 91: `filepaths.map(fp => parseFilename(fp, ignoreSeparators))`. -/
def parseAll (up : Char → Char) (ignoreSeparators : String) : List String →
    Option (List FileRecord)
  | [] => some []
  | fp :: fps =>
    (parseFilename up fp ignoreSeparators).bind (fun r =>
      (parseAll up ignoreSeparators fps).map (fun rs => r :: rs))

/-- Lines 103-111: the warning about invalid filenames, if any. -/
def invalidWarning (parsed : List FileRecord) : List Warning :=
  let invalidFiles := parsed.filter (fun p => !p.isValid)
  if 0 < invalidFiles.length then
    [{ type := "invalid_filename"
       message := .noMatch invalidFiles.length
       files := some (invalidFiles.map (fun f => f.filename)) }]
  else []

/-- `arr.indexOf(x)`, for an `x` that may be absent (then the length of `arr`). -/
def indexOf (x : JSNumber) : List JSNumber → Nat
  | [] => 0
  | y :: ys => if y = x then 0 else indexOf x ys + 1

/-- Line 118: `arr.filter((num, index) => all.indexOf(num) !== index)`, where `arr` is the
part of `all` that starts at `index`. -/
def duplicatesFrom (all : List JSNumber) : Nat → List JSNumber → List JSNumber
  | _, [] => []
  | index, num :: rest =>
    if indexOf num all ≠ index then num :: duplicatesFrom all (index + 1) rest
    else duplicatesFrom all (index + 1) rest

/-- `[...new Set(xs)]`: the distinct values in order of first occurrence. -/
def setOf : List JSNumber → List JSNumber
  | [] => []
  | x :: xs => x :: (setOf xs).filter (fun y => y ≠ x)

/-- Lines 114-127: the warning about duplicate chapter numbers, if any. -/
def duplicateWarning (parsed : List FileRecord) : List Warning :=
  let chapterNumbers := parsed.filterMap (fun p => p.chapterNumber)
  let duplicates := duplicatesFrom chapterNumbers 0 chapterNumbers
  if 0 < duplicates.length then
    [{ type := "duplicate_chapters"
       message := .duplicates (setOf duplicates)
       files := none }]
  else []

/-- `Math.min` on two Number values of `parseInt`. -/
def JSNumber.min : JSNumber → JSNumber → JSNumber
  | .finite m, .finite n => .finite (Nat.min m n)
  | .finite m, .infinity => .finite m
  | .infinity, y => y

/-- `Math.max` on two Number values of `parseInt`. -/
def JSNumber.max : JSNumber → JSNumber → JSNumber
  | .finite m, .finite n => .finite (Nat.max m n)
  | _, _ => .infinity

/-- Lines 130-136: `chapterRange`. -/
def chapterRangeOf (parsed : List FileRecord) : Option ChapterRange :=
  match parsed.filterMap (fun p => p.chapterNumber) with
  | [] => none
  | v :: vs => some { min := vs.foldl JSNumber.min v, max := vs.foldl JSNumber.max v }

/-- `parseAndSortFiles(filepaths, ignoreSeparators)` (lines 90-147); `none` stands for an
exception thrown by `parseFilename`. -/
def parseAndSortFiles (up : Char → Char) (filepaths : List String)
    (ignoreSeparators : String) : Option BatchResult :=
  (parseAll up ignoreSeparators filepaths).map (fun records =>
    let parsed := arraySort sortCompare records
    { files := parsed
      warnings := invalidWarning parsed ++ duplicateWarning parsed
      chapterRange := chapterRangeOf parsed
      hasDates := parsed.any (fun p => p.dateString.isSome) })

/-! ## Closed forms used by the proofs

`parseFilename` never throws; these are the values it returns, written without `Option`. -/

/-- The items that a separator compiles to: one literal per character, none starred. -/
def literalItems (up : Char → Char) : List Char → List Item
  | [] => []
  | c :: cs =>
    (if isSyntaxChar c then ⟨.chr (fun x => x == c), false⟩
     else ⟨.chr (fun x => canonicalize up x == canonicalize up c), false⟩) :: literalItems up cs

/-- The matcher built for a custom separator: `\s*`, the literal characters, `\s*`. -/
def customPattern (up : Char → Char) (separator : List Char) : Re :=
  itemsRe (⟨reSpace, true⟩ :: (literalItems up separator ++ [⟨reSpace, true⟩]))

/-- The title after the `forEach` of lines 64-69. -/
def cleanCustom (up : Char → Char) : List Char → List (List Char) → List Char
  | title, [] => title
  | title, sep :: seps =>
    cleanCustom up (trim (replaceAll (customPattern up sep) [' '] title)) seps

/-- The title after lines 61-70. -/
def customTitle (up : Char → Char) (title ignoreSeparators : List Char) : List Char :=
  if (trim ignoreSeparators).isEmpty then title
  else cleanCustom up title (customSeparators ignoreSeparators)

/-- The chapter number of a stem (lines 15-16). -/
def chapterOf (filename : List Char) : Option JSNumber :=
  (matchFirst chapterPattern filename).map parseInt

/-- The title of a record before the fallback of lines 72-75. -/
def cleanedTitle (up : Char → Char) (filename ignoreSeparators : List Char) : List Char :=
  customTitle up
    (removeBuiltinSeparators
      (residualTitle filename (chapterOf filename) (findDate filename datePatterns)))
    ignoreSeparators

/-- The record that `parseFilename` returns. -/
def parsedRecord (up : Char → Char) (filepath ignoreSeparators : String) : FileRecord :=
  { filepath := filepath
    filename := String.mk (basename filepath.data)
    chapterNumber := chapterOf (stem filepath.data)
    dateString := (findDate (stem filepath.data) datePatterns).map String.mk
    title := String.mk
      (if (cleanedTitle up (stem filepath.data) ignoreSeparators.data).isEmpty
       then stem filepath.data
       else cleanedTitle up (stem filepath.data) ignoreSeparators.data)
    isValid := (chapterOf (stem filepath.data)).isSome }

/-- The end positions of `p*` for a character class `p`, longest first: what the greedy
iteration of a single-character class amounts to. -/
def backoff (p : Char → Bool) : List Char → List Char → List Pos
  | b, [] => [⟨b, []⟩]
  | b, c :: cs => if p c then backoff p (c :: b) cs ++ [⟨b, c :: cs⟩] else [⟨b, c :: cs⟩]

/-- A position reached from `x` by consuming the text `m`. -/
def Advances (x y : Pos) : Prop :=
  ∃ m, x.after = m ++ y.after ∧ y.before = m.reverse ++ x.before

/-- The pattern fails wherever the next character is in the class `p`. -/
def RejectsHead (f : Pos → List Pos) (p : Char → Bool) : Prop :=
  ∀ b c s, p c = true → f ⟨b, c :: s⟩ = []

/-- The pattern fails between two characters of the class `p`. -/
def RejectsBetween (f : Pos → List Pos) (p : Char → Bool) : Prop :=
  ∀ b c d s, p c = true → p d = true → f ⟨c :: b, d :: s⟩ = []

/-- The pattern fails at the end of the subject and before a character outside `p`. -/
def Starts (f : Pos → List Pos) (p : Char → Bool) : Prop :=
  (∀ b, f ⟨b, []⟩ = []) ∧ ∀ b c s, p c = false → f ⟨b, c :: s⟩ = []

/-- The order of the Number values of `parseInt`. -/
def JSNumber.le : JSNumber → JSNumber → Prop
  | .finite m, .finite n => m ≤ n
  | _, .infinity => True
  | .infinity, .finite _ => False

instance : LE JSNumber := ⟨JSNumber.le⟩

/-- The first maximal run of decimal digits of a string, if it has a digit. -/
def firstDigitRun : List Char → Option (List Char)
  | [] => none
  | c :: cs => if isDigit c then some (c :: cs.takeWhile isDigit) else firstDigitRun cs

/-! ## Literal occurrences -/

/-- Whether the text starts with the token, compared character by character under the
case folding of the `i` flag. -/
def matchesCI (up : Char → Char) : List Char → List Char → Bool
  | [], _ => true
  | _ :: _, [] => false
  | a :: s, b :: t => (canonicalize up b == canonicalize up a) && matchesCI up s t

/-- Whether the token occurs in the text as literal text, case-insensitively. -/
def occursCI (up : Char → Char) (s : List Char) : List Char → Bool
  | [] => matchesCI up s []
  | c :: cs => matchesCI up s (c :: cs) || occursCI up s cs

/-! ## Whitespace shape -/

/-- No two consecutive whitespace characters. -/
def noSpaceRun : List Char → Bool
  | [] => true
  | c :: s =>
    (match s with
     | [] => true
     | d :: _ => !(isSpace c && isSpace d)) && noSpaceRun s

/-! ## Normalization -/

/-- Lines 52-70 as one step: the built-in separator removal followed by the custom
separator filtering. `none` stands for an exception. -/
def normalize (up : Char → Char) (title ignoreSeparators : List Char) : Option (List Char) :=
  applyCustomSeparators up (removeBuiltinSeparators title) ignoreSeparators

/-- Every whitespace character is a space that is not followed by a whitespace character. -/
def singleSpaced : List Char → Bool
  | [] => true
  | c :: s =>
    (!isSpace c ||
      (c == ' ' &&
        (match s with
         | [] => true
         | d :: _ => !isSpace d))) && singleSpaced s

/-! ## A leading chapter number -/

/-- Whether the text starts with the word, compared without regard to the case of ASCII
letters. -/
def startsWithCI : List Char → List Char → Bool
  | [], _ => true
  | _ :: _, [] => false
  | a :: w, b :: t => (asciiUpper b == asciiUpper a) && startsWithCI w t

/-- Whether the text starts with an optional case-insensitive `chapter`, optional whitespace
and then a digit. -/
def leadsWithChapter (s : List Char) : Bool :=
  s.head?.any isDigit ||
    (startsWithCI "chapter".data s &&
      ((s.drop "chapter".data.length).dropWhile isSpace).head?.any isDigit)

/-! ## The application settings -/

/-- The default custom-separator configuration of the application
(`src/renderer/app.js`, line 55). -/
def defaultIgnoreSeparators : String := "-d-, --, -- HERE --, --c--"

/-! ## Era words -/

/-- An era word: `AD`, `CE`, `BCE` or `BC`, in any case of its ASCII letters. -/
def isEraWord (w : List Char) : Bool :=
  ["AD".data, "CE".data, "BCE".data, "BC".data].contains (w.map asciiUpper)

/-! ## `parseFilename` is total -/

theorem escapeRegExp_append_head (sep tail : List Char) (e : Char) (rest : List Char)
    (htail : ∀ t ts, tail = t :: ts → t ≠ '*')
    (h : escapeRegExp sep ++ tail = e :: rest) : e ≠ '*' := by
  cases sep with
  | nil => exact htail e rest (by simpa [escapeRegExp] using h)
  | cons c cs =>
    by_cases hc : isSyntaxChar c = true
    · simp [escapeRegExp, hc] at h
      rw [← h.1]; decide
    · simp [escapeRegExp, hc] at h
      intro he
      rw [← h.1] at he
      rw [he] at hc
      exact hc (by decide)

theorem parseItems_escape (up : Char → Char) (sep : List Char) :
    ∀ n, (escapeRegExp sep).length + 3 ≤ n →
      parseItems up n (escapeRegExp sep ++ ['\\', 's', '*']) =
        some (literalItems up sep ++ [⟨reSpace, true⟩]) := by
  induction sep with
  | nil =>
    intro n hn
    obtain ⟨k, rfl⟩ : ∃ k, n = k + 1 := ⟨n - 1, by simp [escapeRegExp] at hn; omega⟩
    cases k <;> simp [escapeRegExp, parseItems, literalItems]
  | cons c cs ih =>
    intro n hn
    obtain ⟨k, rfl⟩ : ∃ k, n = k + 1 := ⟨n - 1, by omega⟩
    have hne : ∃ e rest, escapeRegExp cs ++ ['\\', 's', '*'] = e :: rest := by
      cases h : escapeRegExp cs ++ ['\\', 's', '*'] with
      | nil => simp at h
      | cons e rest => exact ⟨e, rest, rfl⟩
    obtain ⟨e, rest, hrest⟩ := hne
    have he : e ≠ '*' :=
      escapeRegExp_append_head cs _ e rest (by intro t ts h; simp at h; rw [← h.1]; decide) hrest
    by_cases hc : isSyntaxChar c = true
    · have hs : c ≠ 's' := by intro h; rw [h] at hc; exact absurd hc (by decide)
      have hk : (escapeRegExp cs).length + 3 ≤ k := by
        simp [escapeRegExp, hc] at hn; omega
      have := ih k hk
      rw [hrest] at this
      simp [escapeRegExp, hc, parseItems, literalItems, hs, hrest, he, this]
    · have hb : c ≠ '\\' := by intro h; rw [h] at hc; exact hc (by decide)
      have hk : (escapeRegExp cs).length + 3 ≤ k := by
        simp [escapeRegExp, hc] at hn; omega
      have := ih k hk
      rw [hrest] at this
      simp [escapeRegExp, hc, parseItems, literalItems, hb, hrest, he, this]

theorem parseItems_space_star (up : Char → Char) (n : Nat) (rest : List Char) :
    parseItems up (n + 1) ('\\' :: 's' :: '*' :: rest) =
      (parseItems up n rest).map (fun l => ⟨reSpace, true⟩ :: l) := by
  rw [parseItems]
  simp

theorem compileRegExp_custom (up : Char → Char) (sep : List Char) :
    compileRegExp up ("\\s*".data ++ escapeRegExp sep ++ "\\s*".data) =
      some (customPattern up sep) := by
  show (parseItems up _ (['\\', 's', '*'] ++ escapeRegExp sep ++ ['\\', 's', '*'])).map itemsRe = _
  simp only [List.length_append, List.length_cons, List.length_nil, List.cons_append,
    List.nil_append]
  rw [parseItems_space_star, parseItems_escape up sep _ (by omega)]
  rfl

theorem removeCustomSeparators_eq (up : Char → Char) (seps : List (List Char)) :
    ∀ title, removeCustomSeparators up title seps = some (cleanCustom up title seps) := by
  induction seps with
  | nil => intro title; rfl
  | cons sep seps ih =>
    intro title
    rw [removeCustomSeparators, removeCustomSeparator, compileRegExp_custom]
    simp [ih, cleanCustom]

theorem applyCustomSeparators_eq (up : Char → Char) (title cfg : List Char) :
    applyCustomSeparators up title cfg = some (customTitle up title cfg) := by
  unfold applyCustomSeparators customTitle
  split <;> simp [removeCustomSeparators_eq]

theorem parseFilename_eq (up : Char → Char) (fp cfg : String) :
    parseFilename up fp cfg = some (parsedRecord up fp cfg) := by
  simp [parseFilename, applyCustomSeparators_eq, parsedRecord, cleanedTitle, chapterOf]

theorem parseAll_eq (up : Char → Char) (cfg : String) (fps : List String) :
    parseAll up cfg fps = some (fps.map (fun fp => parsedRecord up fp cfg)) := by
  induction fps with
  | nil => rfl
  | cons fp fps ih => simp [parseAll, parseFilename_eq, ih]

/-! ## The sort -/
section Sorting
variable {α : Type} (cmp : α → α → Int)

theorem orderedInsert_perm (a : α) (l : List α) : (orderedInsert cmp a l).Perm (a :: l) := by
  induction l with
  | nil => exact List.Perm.refl _
  | cons b l ih =>
    unfold orderedInsert
    split
    · exact List.Perm.refl _
    · exact (List.Perm.cons b ih).trans (List.Perm.swap a b l)

theorem arraySort_perm (l : List α) : (arraySort cmp l).Perm l := by
  induction l with
  | nil => exact List.Perm.refl _
  | cons a l ih => exact (orderedInsert_perm cmp a _).trans (List.Perm.cons a ih)

theorem orderedInsert_pairwise (htot : ∀ a b, cmp a b ≤ 0 ∨ cmp b a ≤ 0)
    (htrans : ∀ a b c, cmp a b ≤ 0 → cmp b c ≤ 0 → cmp a c ≤ 0) (a : α) (l : List α)
    (hl : l.Pairwise (fun x y => cmp x y ≤ 0)) :
    (orderedInsert cmp a l).Pairwise (fun x y => cmp x y ≤ 0) := by
  induction l with
  | nil => simp [orderedInsert]
  | cons b l ih =>
    rw [List.pairwise_cons] at hl
    unfold orderedInsert
    split
    · next h =>
      refine List.Pairwise.cons ?_ (List.Pairwise.cons hl.1 hl.2)
      intro y hy
      rcases List.mem_cons.1 hy with rfl | hy
      · exact h
      · exact htrans _ _ _ h (hl.1 y hy)
    · next h =>
      refine List.Pairwise.cons ?_ (ih hl.2)
      intro y hy
      rcases List.mem_cons.1 ((orderedInsert_perm cmp a l).subset hy) with rfl | hy
      · rcases htot y b with h' | h'
        · exact absurd h' h
        · exact h'
      · exact hl.1 y hy

theorem arraySort_pairwise (htot : ∀ a b, cmp a b ≤ 0 ∨ cmp b a ≤ 0)
    (htrans : ∀ a b c, cmp a b ≤ 0 → cmp b c ≤ 0 → cmp a c ≤ 0) (l : List α) :
    (arraySort cmp l).Pairwise (fun x y => cmp x y ≤ 0) := by
  induction l with
  | nil => exact List.Pairwise.nil
  | cons a l ih => exact orderedInsert_pairwise cmp htot htrans a _ ih

theorem orderedInsert_filter {κ : Type} [DecidableEq κ] (key : α → κ)
    (hkey : ∀ a b, ¬ cmp a b ≤ 0 → key a ≠ key b) (k : κ) (a : α) (l : List α) :
    (orderedInsert cmp a l).filter (fun x => key x = k) =
      (a :: l).filter (fun x => key x = k) := by
  induction l with
  | nil => rfl
  | cons b l ih =>
    unfold orderedInsert
    split
    · rfl
    · next h =>
      have hne := hkey a b h
      rw [List.filter_cons, ih]
      by_cases hb : key b = k
      · have ha : key a ≠ k := fun h' => hne (h'.trans hb.symm)
        simp [List.filter_cons, hb, ha]
      · simp [List.filter_cons, hb]

theorem arraySort_filter {κ : Type} [DecidableEq κ] (key : α → κ)
    (hkey : ∀ a b, ¬ cmp a b ≤ 0 → key a ≠ key b) (k : κ) (l : List α) :
    (arraySort cmp l).filter (fun x => key x = k) = l.filter (fun x => key x = k) := by
  induction l with
  | nil => rfl
  | cons a l ih =>
    show (orderedInsert cmp a (arraySort cmp l)).filter _ = _
    rw [orderedInsert_filter cmp key hkey, List.filter_cons, ih, List.filter_cons]

theorem arraySort_pair_sublist {κ : Type} [DecidableEq κ] (key : α → κ)
    (hkey : ∀ a b, ¬ cmp a b ≤ 0 → key a ≠ key b) (l : List α) (a b : α)
    (hk : key a = key b) (h : [a, b].Sublist l) : [a, b].Sublist (arraySort cmp l) := by
  have h1 : ([a, b].filter (fun x => decide (key x = key b))).Sublist
      (l.filter (fun x => decide (key x = key b))) := h.filter _
  rw [← arraySort_filter cmp key hkey (key b) l] at h1
  have h2 : [a, b].filter (fun x => decide (key x = key b)) = [a, b] := by simp [hk]
  rw [h2] at h1
  exact h1.trans (List.filter_sublist _)

theorem orderedInsert_map {β : Type} (f : β → α) (a : β) (l : List β) :
    (orderedInsert (fun x y => cmp (f x) (f y)) a l).map f = orderedInsert cmp (f a) (l.map f) := by
  induction l with
  | nil => rfl
  | cons b l ih =>
    unfold orderedInsert
    simp only [List.map_cons]
    split
    · rfl
    · simp [ih]

theorem arraySort_map {β : Type} (f : β → α) (l : List β) :
    (arraySort (fun x y => cmp (f x) (f y)) l).map f = arraySort cmp (l.map f) := by
  induction l with
  | nil => rfl
  | cons a l ih =>
    show (orderedInsert _ a (arraySort _ l)).map f = orderedInsert cmp (f a) (arraySort cmp (l.map f))
    rw [orderedInsert_map, ih]

theorem pair_sublist_of_lt (l : List α) : ∀ (i j : Nat) (hij : i < j) (hj : j < l.length),
    [l[i], l[j]].Sublist l := by
  induction l with
  | nil => intro i j _ hj; simp at hj
  | cons x xs ih =>
    intro i j hij hj
    cases j with
    | zero => omega
    | succ j =>
      cases i with
      | zero =>
        simp only [List.getElem_cons_zero, List.getElem_cons_succ]
        exact List.Sublist.cons₂ x (List.singleton_sublist.2 (List.getElem_mem _))
      | succ i =>
        simp only [List.getElem_cons_succ]
        exact List.Sublist.cons x (ih i j (by omega) (by simpa using hj))

end Sorting

/-! ## The comparator -/

theorem parseAndSortFiles_eq (up : Char → Char) (fps : List String) (cfg : String) :
    parseAndSortFiles up fps cfg =
      some
        { files := arraySort sortCompare (fps.map (fun fp => parsedRecord up fp cfg))
          warnings :=
            invalidWarning (arraySort sortCompare (fps.map (fun fp => parsedRecord up fp cfg))) ++
            duplicateWarning (arraySort sortCompare (fps.map (fun fp => parsedRecord up fp cfg)))
          chapterRange :=
            chapterRangeOf (arraySort sortCompare (fps.map (fun fp => parsedRecord up fp cfg)))
          hasDates :=
            (arraySort sortCompare (fps.map (fun fp => parsedRecord up fp cfg))).any
              (fun p => p.dateString.isSome) } := by
  simp [parseAndSortFiles, parseAll_eq]

theorem JSNumber.le_def (x y : JSNumber) : x ≤ y ↔ JSNumber.le x y := Iff.rfl

theorem sortCompare_le_iff (a b : FileRecord) :
    sortCompare a b ≤ 0 ↔
      (a.chapterNumber = none → b.chapterNumber = none) ∧
      (∀ x y, a.chapterNumber = some x → b.chapterNumber = some y → x ≤ y) := by
  unfold sortCompare compareFn
  cases ha : a.chapterNumber with
  | none =>
    cases hb : b.chapterNumber with
    | none => simp
    | some y => simp
  | some x =>
    cases hb : b.chapterNumber with
    | none => simp
    | some y =>
      cases x <;> cases y <;>
        simp [JSNumber.subSign, JSNumber.le_def, JSNumber.le]
      next m n =>
        split
        · omega
        · split <;> omega

theorem sortCompare_total (a b : FileRecord) : sortCompare a b ≤ 0 ∨ sortCompare b a ≤ 0 := by
  unfold sortCompare compareFn
  cases a.chapterNumber with
  | none => cases b.chapterNumber <;> simp
  | some x =>
    cases b.chapterNumber with
    | none => simp
    | some y =>
      cases x <;> cases y <;> simp [JSNumber.subSign]
      next m n =>
        by_cases h1 : m < n
        · simp [h1]
        · by_cases h2 : n < m
          · simp [h1, h2]
          · simp [h1, h2]

theorem JSNumber.le_trans {x y z : JSNumber} (h1 : x ≤ y) (h2 : y ≤ z) : x ≤ z := by
  cases x <;> cases y <;> cases z <;> simp_all [JSNumber.le_def, JSNumber.le]
  omega

theorem sortCompare_trans (a b c : FileRecord) (h1 : sortCompare a b ≤ 0)
    (h2 : sortCompare b c ≤ 0) : sortCompare a c ≤ 0 := by
  rw [sortCompare_le_iff] at *
  refine ⟨fun h => h2.1 (h1.1 h), ?_⟩
  intro x z hx hz
  cases hb : b.chapterNumber with
  | none => rw [h2.1 hb] at hz; cases hz
  | some y => exact JSNumber.le_trans (h1.2 x y hx hb) (h2.2 y z hb hz)

theorem sortCompare_key (a b : FileRecord) (h : ¬ sortCompare a b ≤ 0) :
    a.chapterNumber ≠ b.chapterNumber := by
  intro he
  apply h
  unfold sortCompare compareFn
  rw [he]
  cases b.chapterNumber with
  | none => simp
  | some y => cases y <;> simp [JSNumber.subSign]

/-! ## Claims about the batch -/

/-- C1: `parseAndSortFiles` returns, and its `files` is a permutation of the records that
`parseFilename` gives for the input paths, one per path; so the lengths agree and no record
is dropped. -/
theorem files_perm (up : Char → Char) (filepaths : List String) (ignoreSeparators : String) :
    ∃ result, parseAndSortFiles up filepaths ignoreSeparators = some result ∧
      (result.files.map some).Perm
        (filepaths.map (fun fp => parseFilename up fp ignoreSeparators)) ∧
      result.files.length = filepaths.length := by
  refine ⟨_, parseAndSortFiles_eq up filepaths ignoreSeparators, ?_, ?_⟩
  · have h := (arraySort_perm sortCompare
      (filepaths.map (fun fp => parsedRecord up fp ignoreSeparators))).map some
    simpa [parseFilename_eq, Function.comp_def] using h
  · simpa using (arraySort_perm sortCompare
      (filepaths.map (fun fp => parsedRecord up fp ignoreSeparators))).length_eq

/-- C2: the returned `files` is ordered by chapter number: for positions `i < j`, a record
without chapter number is followed only by such records, and two chapter numbers are in
non-decreasing order. -/
theorem files_ordered (up : Char → Char) (filepaths : List String) (ignoreSeparators : String) :
    ∃ result, parseAndSortFiles up filepaths ignoreSeparators = some result ∧
      ∀ (i j : Nat) (_ : i < j) (hj : j < result.files.length),
        (result.files[i].chapterNumber = none → result.files[j].chapterNumber = none) ∧
        (∀ x y, result.files[i].chapterNumber = some x →
          result.files[j].chapterNumber = some y → x ≤ y) := by
  refine ⟨_, parseAndSortFiles_eq up filepaths ignoreSeparators, ?_⟩
  intro i j hij hj
  have h := arraySort_pairwise sortCompare sortCompare_total sortCompare_trans
    (filepaths.map (fun fp => parsedRecord up fp ignoreSeparators))
  rw [List.pairwise_iff_getElem] at h
  exact (sortCompare_le_iff _ _).1 (h i j (Nat.lt_trans hij hj) hj hij)

/-- C3: the sort is stable. `order` lists, for each output position, the input index whose
record stands there; for input indices `i < j` with equal chapter number (equal numbers or
both null), `i` stands before `j` in `order`. -/
theorem sort_stable (up : Char → Char) (filepaths : List String) (ignoreSeparators : String) :
    ∃ (result : BatchResult) (records : List FileRecord) (order : List Nat),
      parseAndSortFiles up filepaths ignoreSeparators = some result ∧
      filepaths.map (fun fp => parseFilename up fp ignoreSeparators) = records.map some ∧
      order.Perm (List.range filepaths.length) ∧
      result.files.map some = order.map (fun i => records[i]?) ∧
      ∀ (i j : Nat) (_ : i < j) (hj : j < records.length),
        records[i].chapterNumber = records[j].chapterNumber → [i, j].Sublist order := by
  let records := filepaths.map (fun fp => parsedRecord up fp ignoreSeparators)
  let tagged := arraySort (fun x y : Nat × FileRecord => sortCompare x.2 y.2) records.enum
  have hperm : tagged.Perm records.enum := arraySort_perm _ _
  have hsnd : tagged.map Prod.snd = arraySort sortCompare records := by
    rw [arraySort_map sortCompare Prod.snd, List.enum_map_snd]
  refine ⟨_, records, tagged.map Prod.fst, parseAndSortFiles_eq up filepaths ignoreSeparators,
    ?_, ?_, ?_, ?_⟩
  · simp [records, parseFilename_eq, Function.comp_def]
  · have := hperm.map Prod.fst
    simpa [records] using this
  · show (arraySort sortCompare records).map some = _
    rw [← hsnd, List.map_map, List.map_map]
    apply List.map_congr_left
    intro p hp
    have := List.mem_enum_iff_getElem?.1 (hperm.subset hp)
    simp [this]
  · intro i j hij hj hk
    have hj2 : j < records.enum.length := by simpa using hj
    have hs : [records.enum[i], records.enum[j]].Sublist records.enum :=
      pair_sublist_of_lt _ i j hij hj2
    have := arraySort_pair_sublist (fun x y : Nat × FileRecord => sortCompare x.2 y.2)
      (fun p : Nat × FileRecord => p.2.chapterNumber)
      (fun a b h => sortCompare_key a.2 b.2 h) records.enum _ _
      (by simpa [List.getElem_enum] using hk) hs
    have := this.map Prod.fst
    simpa [List.getElem_enum] using this

theorem invalidWarning_filter (parsed : List FileRecord) :
    (invalidWarning parsed).filter (fun w => w.type = "invalid_filename") =
      invalidWarning parsed := by
  simp only [invalidWarning]
  split <;> simp

theorem duplicateWarning_filter (parsed : List FileRecord) :
    (duplicateWarning parsed).filter (fun w => w.type = "invalid_filename") = [] := by
  simp only [duplicateWarning]
  split
  · rw [List.filter_cons]
    simp only [List.filter_nil]
    rfl
  · rfl

theorem invalidWarning_eq (parsed : List FileRecord) :
    invalidWarning parsed =
      if parsed.any (fun r => !r.isValid) then
        [{ type := "invalid_filename"
           message := .noMatch (parsed.filter (fun r => !r.isValid)).length
           files := some ((parsed.filter (fun r => !r.isValid)).map (fun r => r.filename)) }]
      else [] := by
  simp only [invalidWarning]
  by_cases h : parsed.any (fun r => !r.isValid) = true
  · have : 0 < (parsed.filter (fun r => !r.isValid)).length := by
      rw [List.length_pos]
      intro hnil
      rw [List.filter_eq_nil_iff] at hnil
      rw [List.any_eq_true] at h
      obtain ⟨x, hx, hv⟩ := h
      exact hnil x hx hv
    simp only [h, this, if_true]
  · have : ¬ 0 < (parsed.filter (fun r => !r.isValid)).length := by
      intro hpos
      apply h
      obtain ⟨x, hx⟩ := List.exists_mem_of_length_pos hpos
      rw [List.mem_filter] at hx
      exact List.any_eq_true.2 ⟨x, hx.1, hx.2⟩
    simp only [h, this, if_false]
    rfl

theorem notes_record (up : Char → Char) (cfg : String) :
    (parsedRecord up "notes.txt" cfg).filename = "notes.txt" ∧
    (parsedRecord up "notes.txt" cfg).chapterNumber = none ∧
    (parsedRecord up "notes.txt" cfg).isValid = false := by
  refine ⟨?_, ?_, ?_⟩
  · show String.mk (basename "notes.txt".data) = "notes.txt"
    decide
  · show chapterOf (stem "notes.txt".data) = none
    decide
  · show (chapterOf (stem "notes.txt".data)).isSome = false
    decide

/-- C10: the `invalid_filename` warnings of a batch are exactly one warning when some record
is invalid and none otherwise; that warning lists the `filename` (basename with extension) of
the invalid records in output order and its message carries their count. A batch containing
`notes.txt` has a record for it with no chapter number, `isValid = false`, and an
`invalid_filename` warning that lists `notes.txt`. -/
theorem invalid_filename_warning (up : Char → Char) (filepaths : List String)
    (ignoreSeparators : String) :
    ∃ result, parseAndSortFiles up filepaths ignoreSeparators = some result ∧
      result.warnings.filter (fun w => w.type = "invalid_filename") =
        (if result.files.any (fun r => !r.isValid) then
          [{ type := "invalid_filename"
             message := .noMatch (result.files.filter (fun r => !r.isValid)).length
             files :=
               some ((result.files.filter (fun r => !r.isValid)).map (fun r => r.filename)) }]
         else []) ∧
      (∀ r ∈ result.files, r.filename = String.mk (basename r.filepath.data)) ∧
      ("notes.txt" ∈ filepaths →
        ∃ r ∈ result.files, r.filename = "notes.txt" ∧ r.chapterNumber = none ∧
          r.isValid = false ∧
          ∃ w ∈ result.warnings, w.type = "invalid_filename" ∧
            ∃ names, w.files = some names ∧ "notes.txt" ∈ names) := by
  refine ⟨_, parseAndSortFiles_eq up filepaths ignoreSeparators, ?_, ?_, ?_⟩
  · simp only [List.filter_append, invalidWarning_filter, duplicateWarning_filter,
      List.append_nil]
    exact invalidWarning_eq _
  · intro r hr
    have hr2 := (arraySort_perm sortCompare _).subset hr
    rw [List.mem_map] at hr2
    obtain ⟨fp, _, rfl⟩ := hr2
    rfl
  · intro hmem
    have hin : parsedRecord up "notes.txt" ignoreSeparators ∈
        arraySort sortCompare (filepaths.map (fun fp => parsedRecord up fp ignoreSeparators)) :=
      (arraySort_perm sortCompare _).symm.subset (List.mem_map.2 ⟨_, hmem, rfl⟩)
    obtain ⟨h1, h2, h3⟩ := notes_record up ignoreSeparators
    refine ⟨_, hin, h1, h2, h3, ?_⟩
    have hany : (arraySort sortCompare
        (filepaths.map (fun fp => parsedRecord up fp ignoreSeparators))).any
          (fun r => !r.isValid) = true :=
      List.any_eq_true.2 ⟨_, hin, by simp [h3]⟩
    refine ⟨{ type := "invalid_filename"
              message := .noMatch ((arraySort sortCompare (filepaths.map
                (fun fp => parsedRecord up fp ignoreSeparators))).filter
                  (fun r => !r.isValid)).length
              files := some (((arraySort sortCompare (filepaths.map
                (fun fp => parsedRecord up fp ignoreSeparators))).filter
                  (fun r => !r.isValid)).map (fun r => r.filename)) },
      List.mem_append_left _ ?_, rfl, _, rfl, ?_⟩
    · rw [invalidWarning_eq, if_pos hany]
      exact List.mem_singleton_self _
    · exact List.mem_map.2 ⟨_, List.mem_filter.2 ⟨hin, by simp [h3]⟩, h1⟩

/-! ## The matcher on character classes -/


theorem ends_chr_cons (p : Char → Bool) (b : List Char) (c : Char) (cs : List Char) :
    (Re.chr p).ends ⟨b, c :: cs⟩ = if p c then [⟨c :: b, cs⟩] else [] := rfl

theorem ends_chr_nil (p : Char → Bool) (b : List Char) : (Re.chr p).ends ⟨b, []⟩ = [] := rfl

theorem ends_seq (a r : Re) (x : Pos) : (Re.seq a r).ends x = (a.ends x).flatMap r.ends := rfl

theorem ends_alt (a r : Re) (x : Pos) : (Re.alt a r).ends x = a.ends x ++ r.ends x := rfl

theorem starEnds_chr (p : Char → Bool) (s : List Char) :
    ∀ b, starEnds (Re.chr p).ends s.length ⟨b, s⟩ = backoff p b s := by
  induction s with
  | nil => intro b; rfl
  | cons c cs ih =>
    intro b
    show ((((Re.chr p).ends ⟨b, c :: cs⟩).filter _).flatMap _) ++ _ = _
    rw [ends_chr_cons]
    by_cases hp : p c = true
    · simp [hp, backoff, ih]
    · simp [hp, backoff]

theorem ends_star_chr (p : Char → Bool) (b s : List Char) :
    (Re.star (Re.chr p)).ends ⟨b, s⟩ = backoff p b s := starEnds_chr p s b

theorem ends_plus_chr_cons (p : Char → Bool) (b : List Char) (c : Char) (cs : List Char) :
    (Re.plus (Re.chr p)).ends ⟨b, c :: cs⟩ = if p c then backoff p (c :: b) cs else [] := by
  show ((Re.chr p).ends ⟨b, c :: cs⟩).flatMap (Re.star (Re.chr p)).ends = _
  rw [ends_chr_cons]
  by_cases hp : p c = true
  · simp [hp, ends_star_chr]
  · simp [hp]

theorem ends_plus_chr_nil (p : Char → Bool) (b : List Char) :
    (Re.plus (Re.chr p)).ends ⟨b, []⟩ = [] := rfl

/-- The longest end comes first. -/
theorem backoff_eq_cons (p : Char → Bool) (s : List Char) :
    ∀ b, ∃ tl, backoff p b s = ⟨(s.takeWhile p).reverse ++ b, s.dropWhile p⟩ :: tl := by
  induction s with
  | nil => intro b; exact ⟨[], rfl⟩
  | cons c cs ih =>
    intro b
    by_cases hp : p c = true
    · obtain ⟨tl, h⟩ := ih (c :: b)
      refine ⟨tl ++ [⟨b, c :: cs⟩], ?_⟩
      simp [backoff, hp, h, List.takeWhile_cons, List.dropWhile_cons]
    · exact ⟨[], by simp [backoff, hp, List.takeWhile_cons, List.dropWhile_cons]⟩

theorem backoff_head (p : Char → Bool) (b s : List Char) :
    (backoff p b s).head? = some ⟨(s.takeWhile p).reverse ++ b, s.dropWhile p⟩ := by
  obtain ⟨tl, h⟩ := backoff_eq_cons p s b
  rw [h]; rfl

/-! ## The chapter number -/

theorem length_takeWhile_add (p : Char → Bool) (s : List Char) :
    (s.takeWhile p).length + (s.dropWhile p).length = s.length := by
  induction s with
  | nil => rfl
  | cons c cs ih =>
    by_cases hp : p c = true
    · simp only [List.takeWhile_cons, List.dropWhile_cons, hp, if_true, List.length_cons]
      omega
    · simp [List.takeWhile_cons, List.dropWhile_cons, hp]

theorem take_length_takeWhile (p : Char → Bool) (s : List Char) :
    s.take (s.takeWhile p).length = s.takeWhile p := by
  induction s with
  | nil => rfl
  | cons c cs ih =>
    by_cases hp : p c = true
    · simp [List.takeWhile_cons, hp, ih]
    · simp [List.takeWhile_cons, hp]

theorem execFrom_chapterPattern (s : List Char) : ∀ b,
    (execFrom chapterPattern b s).map (fun se => between se.1 se.2) = firstDigitRun s := by
  induction s with
  | nil => intro b; rfl
  | cons c cs ih =>
    intro b
    unfold execFrom
    show (match ((Re.plus (Re.chr isDigit)).ends ⟨b, c :: cs⟩).head? with
      | some e => some ((⟨b, c :: cs⟩ : Pos), e)
      | none => execFrom chapterPattern (c :: b) cs).map _ = _
    rw [ends_plus_chr_cons]
    by_cases hd : isDigit c = true
    · simp only [hd, if_true, backoff_head, firstDigitRun]
      simp only [Option.map, between]
      congr 1
      have hl := length_takeWhile_add isDigit cs
      have : (c :: cs).length - (cs.dropWhile isDigit).length =
          (cs.takeWhile isDigit).length + 1 := by
        simp only [List.length_cons]; omega
      rw [this, List.take_succ_cons, take_length_takeWhile]
    · simp only [hd, firstDigitRun]
      exact ih (c :: b)

theorem matchFirst_chapterPattern (s : List Char) :
    matchFirst chapterPattern s = firstDigitRun s := execFrom_chapterPattern s []

theorem firstDigitRun_none (s : List Char) (h : ∀ c ∈ s, isDigit c = false) :
    firstDigitRun s = none := by
  induction s with
  | nil => rfl
  | cons c cs ih =>
    simp only [firstDigitRun, h c (List.mem_cons_self _ _)]
    exact ih (fun d hd => h d (List.mem_cons_of_mem _ hd))

theorem firstDigitRun_append (pre ds post : List Char) (hpre : ∀ c ∈ pre, isDigit c = false)
    (hne : ds ≠ []) (hds : ∀ c ∈ ds, isDigit c = true)
    (hpost : ∀ c ∈ post.head?, isDigit c = false) :
    firstDigitRun (pre ++ ds ++ post) = some ds := by
  induction pre with
  | nil =>
    cases ds with
    | nil => exact absurd rfl hne
    | cons d ds =>
      simp only [List.nil_append, List.cons_append, firstDigitRun,
        hds d (List.mem_cons_self _ _), if_true]
      congr 2
      show List.takeWhile isDigit (ds ++ post) = ds
      rw [List.takeWhile_append_of_pos (fun c hc => hds c (List.mem_cons_of_mem _ hc))]
      cases post with
      | nil => simp
      | cons e es =>
        have : isDigit e = false := hpost e (by simp)
        simp [List.takeWhile_cons, this]
  | cons c cs ih =>
    simp only [List.cons_append, firstDigitRun, hpre c (List.mem_cons_self _ _)]
    exact ih (fun d hd => hpre d (List.mem_cons_of_mem _ hd))

/-! ## What a search finds -/

theorem Advances.refl (x : Pos) : Advances x x := ⟨[], rfl, rfl⟩

theorem Advances.trans {x y z : Pos} (h1 : Advances x y) (h2 : Advances y z) : Advances x z := by
  obtain ⟨m, hm1, hm2⟩ := h1
  obtain ⟨n, hn1, hn2⟩ := h2
  exact ⟨m ++ n, by rw [hm1, hn1, List.append_assoc], by rw [hn2, hm2]; simp⟩

theorem starEnds_advances (step : Pos → List Pos)
    (hstep : ∀ x y, y ∈ step x → Advances x y) :
    ∀ n x y, y ∈ starEnds step n x → Advances x y := by
  intro n
  induction n with
  | zero =>
    intro x y hy
    simp only [starEnds, List.mem_singleton] at hy
    rw [hy]; exact Advances.refl x
  | succ n ih =>
    intro x y hy
    simp only [starEnds, List.mem_append, List.mem_flatMap, List.mem_filter,
      List.mem_singleton] at hy
    rcases hy with ⟨z, ⟨hz, _⟩, hy⟩ | hy
    · exact (hstep x z hz).trans (ih z y hy)
    · rw [hy]; exact Advances.refl x

theorem ends_advances (r : Re) : ∀ x y, y ∈ r.ends x → Advances x y := by
  induction r with
  | empty =>
    intro x y hy
    simp only [Re.ends, List.mem_singleton] at hy
    rw [hy]; exact Advances.refl x
  | chr p =>
    intro x y hy
    obtain ⟨b, s⟩ := x
    cases s with
    | nil => simp [Re.ends] at hy
    | cons c cs =>
      rw [ends_chr_cons] at hy
      split at hy
      · simp only [List.mem_singleton] at hy
        rw [hy]; exact ⟨[c], rfl, rfl⟩
      · simp at hy
  | seq a r iha ihr =>
    intro x y hy
    simp only [Re.ends, List.mem_flatMap] at hy
    obtain ⟨z, hz, hy⟩ := hy
    exact (iha x z hz).trans (ihr z y hy)
  | alt a r iha ihr =>
    intro x y hy
    simp only [Re.ends, List.mem_append] at hy
    rcases hy with hy | hy
    · exact iha x y hy
    · exact ihr x y hy
  | star a iha =>
    intro x y hy
    exact starEnds_advances (fun y => a.ends y) iha _ x y hy
  | bol =>
    intro x y hy
    simp only [Re.ends] at hy
    split at hy
    · simp only [List.mem_singleton] at hy; rw [hy]; exact Advances.refl x
    · simp at hy
  | eol =>
    intro x y hy
    simp only [Re.ends] at hy
    split at hy
    · simp only [List.mem_singleton] at hy; rw [hy]; exact Advances.refl x
    · simp at hy
  | wordB =>
    intro x y hy
    simp only [Re.ends] at hy
    split at hy
    · simp only [List.mem_singleton] at hy; rw [hy]; exact Advances.refl x
    · simp at hy
  | notAhead a _ =>
    intro x y hy
    simp only [Re.ends] at hy
    split at hy
    · simp only [List.mem_singleton] at hy; rw [hy]; exact Advances.refl x
    · simp at hy

theorem between_of_advances {x y : Pos} {m : List Char} (h1 : x.after = m ++ y.after) :
    between x y = m := by
  unfold between
  rw [h1]
  simp

/-- What `execFrom` finds: the leftmost start at which the pattern matches, and there the
first end in the matcher's order. -/
theorem execFrom_some (r : Re) (s : List Char) : ∀ (b : List Char) (st e : Pos),
    execFrom r b s = some (st, e) →
    ∃ pre post, s = pre ++ post ∧ st = ⟨pre.reverse ++ b, post⟩ ∧
      (r.ends st).head? = some e ∧
      ∀ pre2 post2, s = pre2 ++ post2 → pre2.length < pre.length →
        r.ends ⟨pre2.reverse ++ b, post2⟩ = [] := by
  induction s with
  | nil =>
    intro b st e h
    simp only [execFrom, Option.map_eq_some'] at h
    obtain ⟨e2, he, heq⟩ := h
    simp only [Prod.mk.injEq] at heq
    refine ⟨[], [], rfl, heq.1.symm, ?_, ?_⟩
    · rw [← heq.1, ← heq.2]; exact he
    · intro pre2 post2 _ hlt; simp at hlt
  | cons c cs ih =>
    intro b st e h
    unfold execFrom at h
    cases hh : (r.ends ⟨b, c :: cs⟩).head? with
    | some e2 =>
      rw [hh] at h
      simp only [Option.some.injEq, Prod.mk.injEq] at h
      refine ⟨[], c :: cs, rfl, h.1.symm, ?_, ?_⟩
      · rw [← h.1, ← h.2]; exact hh
      · intro pre2 post2 _ hlt; simp at hlt
    | none =>
      rw [hh] at h
      obtain ⟨pre, post, hs, hst, he, hmin⟩ := ih (c :: b) st e h
      refine ⟨c :: pre, post, by rw [hs]; rfl, by rw [hst]; simp, he, ?_⟩
      intro pre2 post2 hs2 hlt
      cases pre2 with
      | nil =>
        simp only [List.nil_append] at hs2
        rw [← hs2]
        simpa using hh
      | cons d pre2 =>
        simp only [List.cons_append, List.cons.injEq] at hs2
        have := hmin pre2 post2 hs2.2 (by simpa using hlt)
        rw [← hs2.1]
        simpa using this

theorem execFrom_none (r : Re) (s : List Char) : ∀ (b : List Char),
    execFrom r b s = none →
    ∀ pre post, s = pre ++ post → r.ends ⟨pre.reverse ++ b, post⟩ = [] := by
  induction s with
  | nil =>
    intro b h pre post hs
    simp only [execFrom, Option.map_eq_none', List.head?_eq_none_iff] at h
    have := List.append_eq_nil.1 hs.symm
    rw [this.1, this.2]; exact h
  | cons c cs ih =>
    intro b h pre post hs
    unfold execFrom at h
    cases hh : (r.ends ⟨b, c :: cs⟩).head? with
    | some e2 => rw [hh] at h; cases h
    | none =>
      rw [hh] at h
      cases pre with
      | nil =>
        simp only [List.nil_append] at hs
        rw [← hs]
        simpa using hh
      | cons d pre =>
        simp only [List.cons_append, List.cons.injEq] at hs
        have := ih (c :: b) h pre post hs.2
        rw [← hs.1]
        simpa using this

/-- `str.match(r)[0]` is a leftmost match of `r`. -/
theorem matchFirst_some (r : Re) (s m : List Char) (h : matchFirst r s = some m) :
    ∃ pre post, s = pre ++ m ++ post ∧
      (r.ends ⟨pre.reverse, m ++ post⟩).head? = some ⟨m.reverse ++ pre.reverse, post⟩ ∧
      ∀ pre2 post2, s = pre2 ++ post2 → pre2.length < pre.length →
        r.ends ⟨pre2.reverse, post2⟩ = [] := by
  unfold matchFirst at h
  simp only [Option.map_eq_some'] at h
  obtain ⟨⟨st, e⟩, hex, hm⟩ := h
  obtain ⟨pre, post, hs, hst, he, hmin⟩ := execFrom_some r s [] st e hex
  obtain ⟨m2, hm1, hm2⟩ := ends_advances r st e (List.mem_of_mem_head? he)
  have hb : between st e = m2 := between_of_advances hm1
  simp only at hm
  rw [hb] at hm
  subst hm
  rw [hst] at hm1 hm2 he
  simp only [List.append_nil] at hm1 hm2 he
  refine ⟨pre, e.after, by rw [hs, hm1, List.append_assoc], ?_, ?_⟩
  · rw [← hm1, he]
    congr 1
    cases e
    simp only at hm2
    rw [hm2]
  · intro pre2 post2 hs2 hlt
    simpa using hmin pre2 post2 hs2 hlt

theorem matchFirst_none (r : Re) (s : List Char) (h : matchFirst r s = none) :
    ∀ pre post, s = pre ++ post → r.ends ⟨pre.reverse, post⟩ = [] := by
  unfold matchFirst at h
  simp only [Option.map_eq_none'] at h
  intro pre post hs
  simpa using execFrom_none r s [] h pre post hs

/-! ## Without custom separators -/

theorem customTitle_nil (up : Char → Char) (title : List Char) :
    customTitle up title [] = title := rfl

/-- Without custom separators the record does not depend on the case mapping. -/
theorem parsedRecord_noconfig (up : Char → Char) (fp : String) :
    parsedRecord up fp "" = parsedRecord (fun c => c) fp "" := rfl

theorem parseFilename_noconfig (up : Char → Char) (fp : String) :
    parseFilename up fp "" = some (parsedRecord (fun c => c) fp "") := by
  rw [parseFilename_eq, parsedRecord_noconfig]

theorem findDate_eraFirst (s : List Char) (m : List Char)
    (h : findDate s [datePattern1, datePattern2, datePattern3, datePattern4] = some m) :
    findDate s datePatterns = some m := by
  simp only [findDate, datePatterns] at h ⊢
  cases h1 : matchFirst datePattern1 s with
  | some m1 => simpa [h1] using h
  | none =>
    simp only [h1] at h ⊢
    cases h2 : matchFirst datePattern2 s with
    | some m2 => simpa [h2] using h
    | none =>
      simp only [h2] at h ⊢
      cases h3 : matchFirst datePattern3 s with
      | some m3 => simpa [h3] using h
      | none =>
        simp only [h3] at h ⊢
        cases h4 : matchFirst datePattern4 s with
        | some m4 => simpa [h4] using h
        | none => simp [h4] at h

theorem findDate_none (s : List Char) : ∀ (ps : List Re),
    (∀ p ∈ ps, matchFirst p s = none) → findDate s ps = none := by
  intro ps
  induction ps with
  | nil => intro _; rfl
  | cons p ps ih =>
    intro h
    simp only [findDate, h p (List.mem_cons_self _ _)]
    exact ih (fun q hq => h q (List.mem_cons_of_mem _ hq))

/-! ## Runs -/

theorem takeWhile_run (p : Char → Bool) (ys rest : List Char) (hys : ∀ c ∈ ys, p c = true)
    (hrest : ∀ c ∈ rest.head?, p c = false) : (ys ++ rest).takeWhile p = ys := by
  rw [List.takeWhile_append_of_pos hys]
  cases rest with
  | nil => simp
  | cons e es => simp [List.takeWhile_cons, hrest e (by simp)]

theorem dropWhile_run (p : Char → Bool) (ys rest : List Char) (hys : ∀ c ∈ ys, p c = true)
    (hrest : ∀ c ∈ rest.head?, p c = false) : (ys ++ rest).dropWhile p = rest := by
  rw [List.dropWhile_append_of_pos hys]
  cases rest with
  | nil => simp
  | cons e es => simp [List.dropWhile_cons, hrest e (by simp)]

theorem backoff_flatMap_rejects (p : Char → Bool) (f : Pos → List Pos)
    (hf : RejectsHead f p) (s : List Char) : ∀ b,
    (backoff p b s).flatMap f = f ⟨(s.takeWhile p).reverse ++ b, s.dropWhile p⟩ := by
  induction s with
  | nil => intro b; simp [backoff]
  | cons c cs ih =>
    intro b
    by_cases hp : p c = true
    · simp [backoff, hp, ih, hf b c cs hp, List.takeWhile_cons, List.dropWhile_cons]
    · simp [backoff, hp, List.takeWhile_cons, List.dropWhile_cons]

theorem backoff_flatMap_between (p : Char → Bool) (f : Pos → List Pos)
    (hf : RejectsBetween f p) (s : List Char) : ∀ b c, p c = true →
    (backoff p (c :: b) s).flatMap f =
      f ⟨(s.takeWhile p).reverse ++ c :: b, s.dropWhile p⟩ := by
  induction s with
  | nil => intro b c _; simp [backoff]
  | cons d ds ih =>
    intro b c hc
    by_cases hp : p d = true
    · simp [backoff, hp, ih (c :: b) d hp, hf b c d ds hc hp, List.takeWhile_cons,
        List.dropWhile_cons]
    · simp [backoff, hp, List.takeWhile_cons, List.dropWhile_cons]

theorem head?_flatMap_of_head {l : List Pos} {f : Pos → List Pos} {a e : Pos}
    (hl : l.head? = some a) (hf : (f a).head? = some e) : (l.flatMap f).head? = some e := by
  cases l with
  | nil => cases hl
  | cons x xs =>
    simp only [List.head?_cons, Option.some.injEq] at hl
    subst hl
    simp [List.flatMap_cons, List.head?_append, hf]

/-! ## Searching -/

theorem execFrom_of_head (r : Re) (b s : List Char) (e : Pos)
    (h : (r.ends ⟨b, s⟩).head? = some e) : execFrom r b s = some (⟨b, s⟩, e) := by
  cases s with
  | nil => simp [execFrom, h]
  | cons c cs => simp [execFrom, h]

theorem execFrom_cons_of_nil (r : Re) (b : List Char) (c : Char) (cs : List Char)
    (h : r.ends ⟨b, c :: cs⟩ = []) : execFrom r b (c :: cs) = execFrom r (c :: b) cs := by
  rw [execFrom, h]; rfl

theorem execFrom_skip (r : Re) (ys rest : List Char) : ∀ b,
    (∀ pre2 c post2, ys = pre2 ++ c :: post2 →
      r.ends ⟨pre2.reverse ++ b, c :: post2 ++ rest⟩ = []) →
    execFrom r b (ys ++ rest) = execFrom r (ys.reverse ++ b) rest := by
  induction ys with
  | nil => intro b _; rfl
  | cons y ys ih =>
    intro b h
    have h0 : r.ends ⟨b, y :: (ys ++ rest)⟩ = [] := by
      simpa using h [] y ys rfl
    rw [List.cons_append, execFrom_cons_of_nil r b y _ h0, ih (y :: b)]
    · simp
    · intro pre2 c post2 hys
      have := h (y :: pre2) c post2 (by rw [hys]; rfl)
      simpa using this

theorem execFrom_none_of_nil (r : Re) (s : List Char) : ∀ b,
    (∀ pre post, s = pre ++ post → r.ends ⟨pre.reverse ++ b, post⟩ = []) →
    execFrom r b s = none := by
  induction s with
  | nil =>
    intro b h
    have := h [] [] rfl
    simp only [List.reverse_nil, List.nil_append] at this
    simp [execFrom, this]
  | cons c cs ih =>
    intro b h
    have h0 := h [] (c :: cs) rfl
    simp only [List.reverse_nil, List.nil_append] at h0
    rw [execFrom_cons_of_nil r b c cs h0]
    apply ih
    intro pre post hs
    have := h (c :: pre) post (by rw [hs]; rfl)
    simpa using this

theorem execFrom_none_of_starts (r : Re) (p : Char → Bool) (hr : Starts r.ends p)
    (s : List Char) (hs : ∀ c ∈ s, p c = false) (b : List Char) : execFrom r b s = none := by
  apply execFrom_none_of_nil
  intro pre post hsp
  cases post with
  | nil => exact hr.1 _
  | cons c cs => exact hr.2 _ c cs (hs c (by rw [hsp]; simp))

theorem replaceAllFrom_of_none (r : Re) (repl : List Char) (n : Nat) (b s : List Char)
    (h : execFrom r b s = none) : replaceAllFrom r repl n b s = s := by
  cases n with
  | zero => rfl
  | succ n => simp [replaceAllFrom, h]

theorem replaceAll_of_none (r : Re) (repl s : List Char) (h : execFrom r [] s = none) :
    replaceAll r repl s = s := replaceAllFrom_of_none r repl _ [] s h

theorem replaceFirst_of_none (r : Re) (repl s : List Char) (h : execFrom r [] s = none) :
    replaceFirst r repl s = s := by
  simp [replaceFirst, h]

/-! ## Facts about the character classes -/

theorem isDigit_iff (c : Char) : isDigit c = true ↔ 48 ≤ c.toNat ∧ c.toNat ≤ 57 := by
  simp [isDigit]

theorem isLetter_iff (c : Char) :
    isLetter c = true ↔ (65 ≤ c.toNat ∧ c.toNat ≤ 90) ∨ (97 ≤ c.toNat ∧ c.toNat ≤ 122) := by
  simp [isLetter]

theorem digit_not_space {c : Char} (h : isDigit c = true) : isSpace c = false := by
  rw [isDigit_iff] at h
  simp [isSpace]
  omega

theorem digit_not_letter {c : Char} (h : isDigit c = true) : isLetter c = false := by
  rw [isDigit_iff] at h
  simp [isLetter]
  omega

theorem digit_word {c : Char} (h : isDigit c = true) : isWordChar c = true := by
  simp [isWordChar, h]

theorem digit_not_sep {c : Char} (h : isDigit c = true) : isSepChar c = false := by
  have hs := digit_not_space h
  rw [isDigit_iff] at h
  simp only [isSepChar, hs, Bool.false_or, Bool.or_eq_false_iff, beq_eq_false_iff_ne, ne_eq]
  refine ⟨⟨⟨?_, ?_⟩, ?_⟩, ?_⟩ <;> (rintro rfl; simp at h)

theorem digit_upper {c : Char} (h : isDigit c = true) : asciiUpper c = c := by
  rw [isDigit_iff] at h
  simp [asciiUpper]
  omega

theorem letter_not_digit {c : Char} (h : isLetter c = true) : isDigit c = false := by
  cases hd : isDigit c with
  | false => rfl
  | true => rw [digit_not_letter hd] at h; cases h

theorem letter_not_space {c : Char} (h : isLetter c = true) : isSpace c = false := by
  rw [isLetter_iff] at h
  simp [isSpace]
  omega

theorem letter_word {c : Char} (h : isLetter c = true) : isWordChar c = true := by
  simp [isWordChar, h]

theorem letter_not_sep {c : Char} (h : isLetter c = true) : isSepChar c = false := by
  have hs := letter_not_space h
  rw [isLetter_iff] at h
  simp only [isSepChar, hs, Bool.false_or, Bool.or_eq_false_iff, beq_eq_false_iff_ne, ne_eq]
  refine ⟨⟨⟨?_, ?_⟩, ?_⟩, ?_⟩ <;> (rintro rfl; simp at h)

theorem letter_not_hyphen {c : Char} (h : isLetter c = true) : (c == '-') = false := by
  rw [isLetter_iff] at h
  simp only [beq_eq_false_iff_ne, ne_eq]
  rintro rfl
  simp at h

theorem digit_ne_of_letter {c x : Char} (h : isDigit c = true) (hx : isLetter x = true) :
    (c == x) = false := by
  simp only [beq_eq_false_iff_ne, ne_eq]
  rintro rfl
  rw [digit_not_letter h] at hx; cases hx

/-! ## Patterns that cannot start here -/

theorem starts_chr (p : Char → Bool) : Starts (Re.chr p).ends p :=
  ⟨fun _ => rfl, fun b c s h => by simp [ends_chr_cons, h]⟩

theorem starts_seq {a : Re} {p : Char → Bool} (r : Re) (h : Starts a.ends p) :
    Starts (Re.seq a r).ends p :=
  ⟨fun b => by simp [ends_seq, h.1 b], fun b c s hc => by simp [ends_seq, h.2 b c s hc]⟩

theorem starts_plus (p : Char → Bool) : Starts (Re.plus (Re.chr p)).ends p :=
  starts_seq _ (starts_chr p)

theorem starts_star_seq {r : Re} {p : Char → Bool} (q : Char → Bool) (h : Starts r.ends p) :
    Starts (Re.seq (Re.star (Re.chr q)) r).ends (fun c => q c || p c) := by
  constructor
  · intro b
    simp [ends_seq, ends_star_chr, backoff, h.1 b]
  · intro b c s hc
    simp only [Bool.or_eq_false_iff] at hc
    simp [ends_seq, ends_star_chr, backoff, hc.1, h.2 b c s hc.2]

theorem starts_guard {g r : Re} {p : Char → Bool} (hg : ∀ x, g.ends x = [x] ∨ g.ends x = [])
    (h : Starts r.ends p) : Starts (Re.seq g r).ends p := by
  constructor
  · intro b
    rcases hg ⟨b, []⟩ with h1 | h1 <;> simp [ends_seq, h1, h.1 b]
  · intro b c s hc
    rcases hg ⟨b, c :: s⟩ with h1 | h1 <;> simp [ends_seq, h1, h.2 b c s hc]

theorem wordB_guard (x : Pos) : Re.wordB.ends x = [x] ∨ Re.wordB.ends x = [] := by
  simp only [Re.ends]
  split <;> simp

theorem bol_guard (x : Pos) : Re.bol.ends x = [x] ∨ Re.bol.ends x = [] := by
  simp only [Re.ends]
  split <;> simp

theorem starts_mono {f : Pos → List Pos} {p q : Char → Bool} (h : Starts f p)
    (hpq : ∀ c, q c = false → p c = false) : Starts f q :=
  ⟨h.1, fun b c s hc => h.2 b c s (hpq c hc)⟩

/-! ## Trimming -/

theorem trim_eq_self (s : List Char) (h1 : ∀ c ∈ s.head?, isSpace c = false)
    (h2 : ∀ c ∈ s.getLast?, isSpace c = false) : trim s = s := by
  unfold trim
  have e1 : s.dropWhile isSpace = s := by
    cases s with
    | nil => rfl
    | cons c cs => simp [List.dropWhile_cons, h1 c (by simp)]
  rw [e1]
  have e2 : s.reverse.dropWhile isSpace = s.reverse := by
    cases hr : s.reverse with
    | nil => rfl
    | cons c cs =>
      have : s.getLast? = some c := by
        rw [← List.head?_reverse, hr]; rfl
      simp [List.dropWhile_cons, h2 c (by simp [this])]
  rw [e2, List.reverse_reverse]

theorem trim_letters (s : List Char) (h : ∀ c ∈ s, isLetter c = true) : trim s = s := by
  apply trim_eq_self
  · intro c hc
    exact letter_not_space (h c (List.mem_of_mem_head? hc))
  · intro c hc
    exact letter_not_space (h c (List.mem_of_mem_getLast? hc))

/-! ## The built-in patterns on a title of letters -/

theorem starts_dashLetter :
    Starts dashLetterPattern.ends (fun c => isSpace c || c == '-') :=
  starts_star_seq isSpace (starts_seq _ (starts_plus _))

theorem starts_here : Starts herePattern.ends (fun c => isSpace c || c == '-') :=
  starts_star_seq isSpace (starts_seq _ (starts_plus _))

theorem starts_dashRun : Starts dashRunPattern.ends (fun c => isSpace c || c == '-') :=
  starts_star_seq isSpace (starts_seq _ (starts_chr _))

theorem starts_leadingSep : Starts leadingSepPattern.ends isSepChar :=
  starts_guard bol_guard (starts_plus _)

theorem starts_trailingSep : Starts trailingSepPattern.ends isSepChar :=
  starts_seq _ (starts_plus _)

theorem starts_spaces : Starts spacesPattern.ends isSpace := starts_plus _

/-- Lines 56-59 leave a title of letters as it is. -/
theorem stripEnds_letters (t : List Char) (ht : ∀ c ∈ t, isLetter c = true) :
    trim (replaceAll spacesPattern [' '] (replaceFirst trailingSepPattern []
      (replaceFirst leadingSepPattern [] t))) = t := by
  rw [replaceFirst_of_none _ _ _ (execFrom_none_of_starts _ _ starts_leadingSep t
      (fun c hc => letter_not_sep (ht c hc)) []),
    replaceFirst_of_none _ _ _ (execFrom_none_of_starts _ _ starts_trailingSep t
      (fun c hc => letter_not_sep (ht c hc)) []),
    replaceAll_of_none _ _ _ (execFrom_none_of_starts _ _ starts_spaces t
      (fun c hc => letter_not_space (ht c hc)) []),
    trim_letters t ht]

/-- Lines 52-59 leave a title of letters as it is. -/
theorem removeBuiltinSeparators_letters (t : List Char) (ht : ∀ c ∈ t, isLetter c = true) :
    removeBuiltinSeparators t = t := by
  have hd : ∀ c ∈ t, (isSpace c || c == '-') = false := fun c hc => by
    simp [letter_not_space (ht c hc), letter_not_hyphen (ht c hc)]
  unfold removeBuiltinSeparators
  rw [replaceAll_of_none _ _ _ (execFrom_none_of_starts _ _ starts_dashLetter t hd []),
    replaceAll_of_none _ _ _ (execFrom_none_of_starts _ _ starts_here t hd []),
    replaceAll_of_none _ _ _ (execFrom_none_of_starts _ _ starts_dashRun t hd []),
    stripEnds_letters t ht]

/-! ## Paths without directories -/

theorem basename_plain (s : List Char) (hs : ∀ c ∈ s, c ≠ '/') : basename s = s := by
  unfold basename
  have h1 : s.reverse.dropWhile (fun c => c == '/') = s.reverse := by
    cases hr : s.reverse with
    | nil => rfl
    | cons c cs =>
      have : c ≠ '/' := hs c (List.mem_reverse.1 (by rw [hr]; simp))
      simp [List.dropWhile_cons, this]
  rw [h1]
  have h2 : s.reverse.takeWhile (fun c => c != '/') = s.reverse := by
    rw [List.takeWhile_eq_self_iff]
    intro c hc
    simpa using hs c (List.mem_reverse.1 hc)
  rw [h2, List.reverse_reverse]

theorem extOf_plain (s e : List Char) (hs : s ≠ []) (hsd : ∀ c ∈ s, c ≠ '.')
    (he : ∀ c ∈ e, c ≠ '.') : extOf (s ++ '.' :: e) = '.' :: e := by
  unfold extOf
  have hrev : (s ++ '.' :: e).reverse = e.reverse ++ '.' :: s.reverse := by simp
  have hp : ∀ c ∈ e.reverse, (fun c => c != '.') c = true := fun c hc => by
    simpa using he c (List.mem_reverse.1 hc)
  have h1 : (s ++ '.' :: e).reverse.dropWhile (fun c => c != '.') = '.' :: s.reverse := by
    rw [hrev, List.dropWhile_append_of_pos hp]
    simp [List.dropWhile_cons]
  have h2 : (s ++ '.' :: e).reverse.takeWhile (fun c => c != '.') = e.reverse := by
    rw [hrev, List.takeWhile_append_of_pos hp]
    simp [List.takeWhile_cons]
  rw [h1, h2]
  cases hr : s.reverse with
  | nil => simp at hr; exact absurd hr hs
  | cons x xs =>
    simp only [List.reverse_reverse]
    rw [if_neg]
    intro hc
    cases s with
    | nil => exact hs rfl
    | cons a as =>
      simp only [List.cons_append, List.cons.injEq] at hc
      exact hsd a (List.mem_cons_self _ _) hc.1

theorem stem_plain (s e : List Char) (hs : s ≠ []) (hss : ∀ c ∈ s, c ≠ '/' ∧ c ≠ '.')
    (he : ∀ c ∈ e, c ≠ '/' ∧ c ≠ '.') :
    basename (s ++ '.' :: e) = s ++ '.' :: e ∧ stem (s ++ '.' :: e) = s := by
  have hb : basename (s ++ '.' :: e) = s ++ '.' :: e := by
    apply basename_plain
    intro c hc
    simp only [List.mem_append, List.mem_cons] at hc
    rcases hc with hc | rfl | hc
    · exact (hss c hc).1
    · decide
    · exact (he c hc).1
  refine ⟨hb, ?_⟩
  unfold stem extname
  rw [hb, extOf_plain s e hs (fun c hc => (hss c hc).2) (fun c hc => (he c hc).2)]
  simp

theorem ends_wordB (x : Pos) :
    Re.wordB.ends x = if wordAt x.before != wordAt x.after then [x] else [] := rfl

theorem ends_bol (x : Pos) : Re.bol.ends x = if x.before.isEmpty then [x] else [] := rfl

theorem ends_eol (x : Pos) : Re.eol.ends x = if x.after.isEmpty then [x] else [] := rfl

theorem ends_empty (x : Pos) : Re.empty.ends x = [x] := rfl

theorem ends_notAhead (a : Re) (x : Pos) :
    (Re.notAhead a).ends x = if (a.ends x).isEmpty then [x] else [] := rfl

/-- A greedy `p+` followed by a pattern that fails between two characters of `p` takes the
whole run. -/
theorem ends_plus_seq (p : Char → Bool) (r : Re) (hr : RejectsBetween r.ends p)
    (b : List Char) (c : Char) (cs : List Char) :
    (Re.seq (Re.plus (Re.chr p)) r).ends ⟨b, c :: cs⟩ =
      if p c then r.ends ⟨(cs.takeWhile p).reverse ++ c :: b, cs.dropWhile p⟩ else [] := by
  rw [ends_seq, ends_plus_chr_cons]
  by_cases hp : p c = true
  · simp only [hp, if_true]
    exact backoff_flatMap_between p r.ends hr cs b c hp
  · simp [hp]

/-- A greedy `p*` followed by a pattern that fails before a character of `p` takes the whole
run. -/
theorem ends_star_seq (p : Char → Bool) (r : Re) (hr : RejectsHead r.ends p)
    (b s : List Char) :
    (Re.seq (Re.star (Re.chr p)) r).ends ⟨b, s⟩ =
      r.ends ⟨(s.takeWhile p).reverse ++ b, s.dropWhile p⟩ := by
  rw [ends_seq, ends_star_chr]
  exact backoff_flatMap_rejects p r.ends hr s b

theorem wordAt_reverse_append (pre : List Char) (w : Char) (b : List Char)
    (hpre : ∀ c ∈ pre, isWordChar c = true) (hw : isWordChar w = true) :
    wordAt (pre.reverse ++ w :: b) = true := by
  cases hr : pre.reverse with
  | nil => simpa [wordAt] using hw
  | cons x xs =>
    have : x ∈ pre := List.mem_reverse.1 (by rw [hr]; simp)
    simpa [wordAt] using hpre x this

/-- A pattern that begins with `\b` and then consumes a character cannot match inside a run
of word characters, nor at its end. -/
theorem execFrom_wordB_interior (R : Re) (hend : ∀ b, R.ends ⟨b, []⟩ = []) (s : List Char)
    (hs : ∀ c ∈ s, isWordChar c = true) (w : Char) (hw : isWordChar w = true) (b : List Char) :
    execFrom (Re.seq Re.wordB R) (w :: b) s = none := by
  apply execFrom_none_of_nil
  intro pre post hsp
  rw [ends_seq, ends_wordB]
  cases post with
  | nil => split <;> simp [hend]
  | cons c cs =>
    have h1 : wordAt (pre.reverse ++ w :: b) = true :=
      wordAt_reverse_append pre w b (fun c hc => hs c (by rw [hsp]; simp [hc])) hw
    have h2 : wordAt (c :: cs) = true := hs c (by rw [hsp]; simp)
    simp only [h1, h2, bne_self_eq_false, Bool.false_eq_true, if_false, List.flatMap_nil]

theorem matchFirst_wordB_wordchars (R : Re) (hend : ∀ b, R.ends ⟨b, []⟩ = []) (c0 : Char)
    (s : List Char) (hs : ∀ c ∈ c0 :: s, isWordChar c = true)
    (h0 : R.ends ⟨[], c0 :: s⟩ = []) : matchFirst (Re.seq Re.wordB R) (c0 :: s) = none := by
  unfold matchFirst
  have h1 : (Re.seq Re.wordB R).ends ⟨[], c0 :: s⟩ = [] := by
    rw [ends_seq, ends_wordB]
    split <;> simp [h0]
  rw [execFrom_cons_of_nil _ _ _ _ h1,
    execFrom_wordB_interior R hend s (fun c hc => hs c (List.mem_cons_of_mem _ hc)) c0
      (hs c0 (List.mem_cons_self _ _)) []]
  rfl

/-! ## The date patterns after a run of digits -/

theorem toNat_ofNat_small (n : Nat) (h : n < 55296) : (Char.ofNat n).toNat = n := by
  unfold Char.ofNat
  have hv : n.isValidChar := Or.inl h
  simp only [hv, dite_true, Char.ofNatAux, Char.toNat]
  show (UInt32.ofNat' n _).toNat = n
  simp [UInt32.ofNat', UInt32.toNat]

theorem asciiUpper_letter {x : Char} (h : isLetter x = true) :
    65 ≤ (asciiUpper x).toNat ∧ (asciiUpper x).toNat ≤ 90 := by
  simp only [isLetter, Bool.or_eq_true, Bool.and_eq_true, decide_eq_true_eq] at h
  unfold asciiUpper
  split
  · rw [toNat_ofNat_small _ (by omega)]; omega
  · omega

/-- A digit is no letter of a case-insensitive literal. -/
theorem digit_ci {c x : Char} (h : isDigit c = true) (hx : isLetter x = true) :
    (asciiUpper c == asciiUpper x) = false := by
  rw [digit_upper h]
  have h1 := asciiUpper_letter hx
  rw [isDigit_iff] at h
  simp only [beq_eq_false_iff_ne, ne_eq]
  intro he
  rw [← he] at h1
  omega

theorem ends_word_nil (x : Pos) : (Re.word []).ends x = [x] := rfl

theorem ends_word_cons (x : Char) (xs b : List Char) (c : Char) (cs : List Char) :
    (Re.word (x :: xs)).ends ⟨b, c :: cs⟩ =
      if asciiUpper c == asciiUpper x then (Re.word xs).ends ⟨c :: b, cs⟩ else [] := by
  show ((Re.chr _).ends _).flatMap _ = _
  rw [ends_chr_cons]
  split <;> simp

theorem ends_word_end (x : Char) (xs b : List Char) :
    (Re.word (x :: xs)).ends ⟨b, []⟩ = [] := rfl

theorem rejects_era_suffix (era : Re) (hera : RejectsHead era.ends isDigit) :
    RejectsBetween (Re.seq reSpace.star (Re.seq era Re.wordB)).ends isDigit := by
  intro b c d s _ hd
  rw [show reSpace = Re.chr isSpace from rfl, ends_seq, ends_star_chr]
  simp [backoff, digit_not_space hd, ends_seq, hera _ d s hd]

theorem rejects_ADCE : RejectsHead reADCE.ends isDigit := by
  intro b c s hc
  have hA := digit_ci hc (x := 'A') (by decide)
  have hC := digit_ci hc (x := 'C') (by decide)
  simp [reADCE, ends_alt, ends_word_cons, hA, hC]

theorem rejects_BCE : RejectsHead reBCE.ends isDigit := by
  intro b c s hc
  have hB := digit_ci hc (x := 'B') (by decide)
  simp [reBCE, ends_alt, ends_word_cons, hB]

theorem rejects_wordB_digits : RejectsBetween Re.wordB.ends isDigit := by
  intro b c d s hc hd
  simp [ends_wordB, wordAt, digit_word hc, digit_word hd]

/-! ## `<digits>_<letters>` -/

theorem underscore_wordchars (d : Char) (ds t : List Char) (hd : isDigit d = true)
    (hds : ∀ c ∈ ds, isDigit c = true) (ht : ∀ c ∈ t, isLetter c = true) :
    ∀ c ∈ d :: (ds ++ '_' :: t), isWordChar c = true := by
  intro c hc
  simp only [List.mem_cons, List.mem_append] at hc
  rcases hc with rfl | hc | rfl | hc
  · exact digit_word hd
  · exact digit_word (hds c hc)
  · decide
  · exact letter_word (ht c hc)

theorem underscore_run (ds t : List Char) (hds : ∀ c ∈ ds, isDigit c = true) :
    (ds ++ '_' :: t).takeWhile isDigit = ds ∧
    (ds ++ '_' :: t).dropWhile isDigit = '_' :: t :=
  ⟨takeWhile_run isDigit ds _ hds (by simp; decide),
   dropWhile_run isDigit ds _ hds (by simp; decide)⟩

theorem underscore_date1 (d : Char) (ds t : List Char) (hd : isDigit d = true)
    (hds : ∀ c ∈ ds, isDigit c = true) (ht : ∀ c ∈ t, isLetter c = true) :
    matchFirst datePattern1 (d :: (ds ++ '_' :: t)) = none := by
  refine matchFirst_wordB_wordchars _ ?_ _ _ (underscore_wordchars d ds t hd hds ht) ?_
  · intro b; simp [ends_seq, reADCE, ends_alt, ends_word_end]
  · rw [ends_seq, rejects_ADCE _ _ _ hd]; rfl

theorem underscore_date4 (d : Char) (ds t : List Char) (hd : isDigit d = true)
    (hds : ∀ c ∈ ds, isDigit c = true) (ht : ∀ c ∈ t, isLetter c = true) :
    matchFirst datePattern4 (d :: (ds ++ '_' :: t)) = none := by
  refine matchFirst_wordB_wordchars _ ?_ _ _ (underscore_wordchars d ds t hd hds ht) ?_
  · intro b; simp [ends_seq, reBCE, ends_alt, ends_word_end]
  · rw [ends_seq, rejects_BCE _ _ _ hd]; rfl

theorem underscore_date2 (d : Char) (ds t : List Char) (hd : isDigit d = true)
    (hds : ∀ c ∈ ds, isDigit c = true) (ht : ∀ c ∈ t, isLetter c = true) :
    matchFirst datePattern2 (d :: (ds ++ '_' :: t)) = none := by
  refine matchFirst_wordB_wordchars _ ?_ _ _ (underscore_wordchars d ds t hd hds ht) ?_
  · intro b; simp [ends_seq, reDigit, ends_plus_chr_nil]
  · rw [show reDigit = Re.chr isDigit from rfl,
      ends_plus_seq isDigit _ (rejects_era_suffix reADCE rejects_ADCE), if_pos hd,
      (underscore_run ds t hds).1, (underscore_run ds t hds).2]
    simp [ends_seq, reSpace, ends_star_chr, backoff, isSpace, reADCE, ends_alt, ends_word_cons,
      asciiUpper]

theorem underscore_date3 (d : Char) (ds t : List Char) (hd : isDigit d = true)
    (hds : ∀ c ∈ ds, isDigit c = true) (ht : ∀ c ∈ t, isLetter c = true) :
    matchFirst datePattern3 (d :: (ds ++ '_' :: t)) = none := by
  refine matchFirst_wordB_wordchars _ ?_ _ _ (underscore_wordchars d ds t hd hds ht) ?_
  · intro b; simp [ends_seq, reDigit, ends_plus_chr_nil]
  · rw [show reDigit = Re.chr isDigit from rfl,
      ends_plus_seq isDigit _ (rejects_era_suffix reBCE rejects_BCE), if_pos hd,
      (underscore_run ds t hds).1, (underscore_run ds t hds).2]
    simp [ends_seq, reSpace, ends_star_chr, backoff, isSpace, reBCE, ends_alt, ends_word_cons,
      asciiUpper]

theorem wordAt_cons (c : Char) (cs : List Char) : wordAt (c :: cs) = isWordChar c := rfl

theorem wordAt_nil : wordAt [] = false := rfl

theorem wordAt_digits_append (rest : List Char) (c : Char) (cs : List Char)
    (hrest : ∀ x ∈ rest, isDigit x = true) (hc : isWordChar c = true) :
    wordAt (rest ++ c :: cs) = true := by
  cases rest with
  | nil => exact hc
  | cons r rs => exact digit_word (hrest r (List.mem_cons_self _ _))

theorem underscore_date5 (d : Char) (ds t : List Char) (hd : isDigit d = true)
    (hds : ∀ c ∈ ds, isDigit c = true) (ht : ∀ c ∈ t, isLetter c = true) :
    matchFirst datePattern5 (d :: (ds ++ '_' :: t)) = none := by
  refine matchFirst_wordB_wordchars _ ?_ _ _ (underscore_wordchars d ds t hd hds ht) ?_
  · intro b; simp [ends_seq, reDigit, ends_chr_nil]
  · have hu : isDigit '_' = false := by decide
    have hw : isWordChar '_' = true := by decide
    cases ds with
    | nil => simp [ends_seq, reDigit, ends_chr_cons, hd, hu]
    | cons d2 ds =>
      have h2 := hds d2 (List.mem_cons_self _ _)
      cases ds with
      | nil => simp [ends_seq, reDigit, ends_chr_cons, hd, h2, hu]
      | cons d3 ds =>
        have h3 := hds d3 (by simp)
        cases ds with
        | nil =>
          simp [ends_seq, reDigit, ends_chr_cons, hd, h2, h3, hu, Re.opt, ends_alt, ends_empty,
            ends_wordB, wordAt_cons, digit_word h3, hw]
        | cons d4 ds =>
          have h4 := hds d4 (by simp)
          have h5 : wordAt (ds ++ '_' :: t) = true :=
            wordAt_digits_append ds '_' t (fun x hx => hds x (by simp [hx])) hw
          simp [ends_seq, reDigit, ends_chr_cons, hd, h2, h3, h4, Re.opt, ends_alt, ends_empty,
            ends_wordB, wordAt_cons, digit_word h3, digit_word h4, h5]

theorem underscore_findDate (d : Char) (ds t : List Char) (hd : isDigit d = true)
    (hds : ∀ c ∈ ds, isDigit c = true) (ht : ∀ c ∈ t, isLetter c = true) :
    findDate (d :: (ds ++ '_' :: t)) datePatterns = none := by
  simp only [datePatterns, findDate, underscore_date1 d ds t hd hds ht,
    underscore_date2 d ds t hd hds ht, underscore_date3 d ds t hd hds ht,
    underscore_date4 d ds t hd hds ht, underscore_date5 d ds t hd hds ht]

/-- The chapter removal of line 42 on a stem that starts with a run of digits: the run and
the separator characters after it go. -/
theorem chapterLead_digits (d : Char) (ds rest : List Char) (hd : isDigit d = true)
    (hds : ∀ c ∈ ds, isDigit c = true) (hrest : ∀ c ∈ rest.head?, isDigit c = false) :
    replaceFirst chapterLeadPattern [] (d :: (ds ++ rest)) = rest.dropWhile isSepChar := by
  have hc := digit_ci hd (x := 'c') (by decide)
  have hhead : (chapterLeadPattern.ends ⟨[], d :: (ds ++ rest)⟩).head? =
      some ⟨(rest.takeWhile isSepChar).reverse ++ (ds.reverse ++ [d]),
        rest.dropWhile isSepChar⟩ := by
    unfold chapterLeadPattern
    rw [ends_seq, ends_bol]
    simp only [List.isEmpty_nil, if_true, List.flatMap_cons, List.flatMap_nil, List.append_nil]
    rw [ends_seq]
    have hopt : (Re.opt ((Re.word "chapter".data).seq reSpace.star)).ends
        ⟨[], d :: (ds ++ rest)⟩ = [⟨[], d :: (ds ++ rest)⟩] := by
      simp [Re.opt, ends_alt, ends_seq, ends_word_cons, hc, ends_empty]
    rw [hopt]
    simp only [List.flatMap_cons, List.flatMap_nil, List.append_nil]
    rw [ends_seq, show reDigit = Re.chr isDigit from rfl, ends_plus_chr_cons, if_pos hd]
    apply head?_flatMap_of_head (backoff_head _ _ _)
    rw [ends_star_chr, backoff_head, takeWhile_run isDigit ds rest hds hrest,
      dropWhile_run isDigit ds rest hds hrest]
  unfold replaceFirst
  rw [execFrom_of_head _ _ _ _ hhead]
  simp

theorem roundToDouble_small (n : Nat) (h : n < 2 ^ 53) : roundToDouble n = .finite n := by
  unfold roundToDouble
  rw [if_pos h]

theorem digit_plain {c : Char} (h : isDigit c = true) : c ≠ '/' ∧ c ≠ '.' := by
  rw [isDigit_iff] at h
  constructor <;> (rintro rfl; simp at h)

theorem letter_plain {c : Char} (h : isLetter c = true) : c ≠ '/' ∧ c ≠ '.' := by
  rw [isLetter_iff] at h
  constructor <;> (rintro rfl; simp at h)

theorem chapterOf_leading (ds rest : List Char) (hne : ds ≠ [])
    (hds : ∀ c ∈ ds, isDigit c = true) (hrest : ∀ c ∈ rest.head?, isDigit c = false) :
    chapterOf (ds ++ rest) = some (parseInt ds) := by
  unfold chapterOf
  rw [matchFirst_chapterPattern]
  have := firstDigitRun_append [] ds rest (by simp) hne hds hrest
  simp only [List.nil_append] at this
  rw [this]; rfl

/-- The record of `<digits>_<letters>.txt`, at the level of character lists. -/
theorem underscore_record (up : Char → Char) (d : Char) (ds t : List Char)
    (hd : isDigit d = true) (hds : ∀ c ∈ ds, isDigit c = true) (htne : t ≠ [])
    (ht : ∀ c ∈ t, isLetter c = true) :
    chapterOf (d :: (ds ++ '_' :: t)) = some (parseInt (d :: ds)) ∧
    findDate (d :: (ds ++ '_' :: t)) datePatterns = none ∧
    cleanedTitle up (d :: (ds ++ '_' :: t)) [] = t := by
  have hch : chapterOf (d :: (ds ++ '_' :: t)) = some (parseInt (d :: ds)) :=
    chapterOf_leading (d :: ds) ('_' :: t) (by simp)
      (fun c hc => by
        rcases List.mem_cons.1 hc with rfl | hc
        · exact hd
        · exact hds c hc)
      (by simp; decide)
  have hdate := underscore_findDate d ds t hd hds ht
  refine ⟨hch, hdate, ?_⟩
  unfold cleanedTitle
  rw [customTitle_nil, hch, hdate]
  simp only [residualTitle, Option.isSome_some, if_true]
  rw [chapterLead_digits d ds ('_' :: t) hd hds (by simp; decide)]
  have : ('_' :: t).dropWhile isSepChar = t := by
    cases t with
    | nil => exact absurd rfl htne
    | cons l ls =>
      have hl := letter_not_sep (ht l (List.mem_cons_self _ _))
      have hu : isSepChar '_' = true := by decide
      simp [List.dropWhile_cons, hu, hl]
  rw [this]
  exact removeBuiltinSeparators_letters t ht

/-- The fields of `parsedRecord` once the stem, the basename and the three extractions are
known. -/
theorem parsedRecord_of (up : Char → Char) (fp cfg : String) (st : List Char)
    (ch : Option JSNumber) (date : Option (List Char)) (title : List Char)
    (hbase : basename fp.data = fp.data) (hstem : stem fp.data = st)
    (hch : chapterOf st = ch) (hdate : findDate st datePatterns = date)
    (htitle : cleanedTitle up st cfg.data = title) (hne : title ≠ []) :
    parsedRecord up fp cfg =
      { filepath := fp
        filename := fp
        chapterNumber := ch
        dateString := date.map String.mk
        title := String.mk title
        isValid := ch.isSome } := by
  unfold parsedRecord
  rw [hbase, hstem, hch, hdate, htitle]
  have : title.isEmpty = false := by
    cases title with
    | nil => exact absurd rfl hne
    | cons _ _ => rfl
  simp [this]

/-- C7 (amended): for every non-empty string `c` of decimal digits whose integer value is
below `2^53` and every non-empty string `t` of ASCII letters, `parseFilename(c + '_' + t +
'.txt')` with no custom separators returns chapterNumber = the integer value of `c`,
dateString = null, title = `t` and isValid = true. -/
theorem underscore_format (up : Char → Char) (c t : String)
    (hc : c.data ≠ []) (hcd : ∀ ch ∈ c.data, isDigit ch = true)
    (ht : t.data ≠ []) (htl : ∀ ch ∈ t.data, isLetter ch = true)
    (hv : digitsValue c.data < 2 ^ 53) :
    parseFilename up (c ++ "_" ++ t ++ ".txt") "" =
      some
        { filepath := c ++ "_" ++ t ++ ".txt"
          filename := c ++ "_" ++ t ++ ".txt"
          chapterNumber := some (.finite (digitsValue c.data))
          dateString := none
          title := t
          isValid := true } := by
  obtain ⟨cd⟩ := c
  obtain ⟨td⟩ := t
  simp only at hc hcd ht htl hv
  cases cd with
  | nil => exact absurd rfl hc
  | cons d ds =>
    have hd := hcd d (List.mem_cons_self _ _)
    have hds : ∀ x ∈ ds, isDigit x = true := fun x hx => hcd x (List.mem_cons_of_mem _ hx)
    have hdata : (String.mk (d :: ds) ++ "_" ++ String.mk td ++ ".txt").data =
        (d :: (ds ++ '_' :: td)) ++ '.' :: "txt".data := by
      simp [String.data_append]
    obtain ⟨h1, h2, h3⟩ := underscore_record up d ds td hd hds ht htl
    have hplain := stem_plain (d :: (ds ++ '_' :: td)) "txt".data (by simp)
      (by
        intro x hx
        simp only [List.mem_cons, List.mem_append] at hx
        rcases hx with rfl | hx | rfl | hx
        · exact digit_plain hd
        · exact digit_plain (hds x hx)
        · decide
        · exact letter_plain (htl x hx))
      (by decide)
    rw [parseFilename_eq,
      parsedRecord_of up _ "" (d :: (ds ++ '_' :: td)) _ _ td
        (by rw [hdata]; exact hplain.1) (by rw [hdata]; exact hplain.2) h1 h2 h3 ht]
    simp [parseInt, roundToDouble_small _ hv]

theorem underscore_format_witness :
    parseFilename (fun c => c) "1_title.txt" "" =
      some
        { filepath := "1_title.txt"
          filename := "1_title.txt"
          chapterNumber := some (.finite 1)
          dateString := none
          title := "title"
          isValid := true } :=
  underscore_format (fun c => c) "1" "title" (by decide) (by decide) (by decide) (by decide)
    (by decide)

/-! ## Skipping a run in a search -/

theorem execFrom_skip_starts (r : Re) (p : Char → Bool) (hr : Starts r.ends p)
    (ys rest b : List Char) (hys : ∀ c ∈ ys, p c = false) :
    execFrom r b (ys ++ rest) = execFrom r (ys.reverse ++ b) rest := by
  apply execFrom_skip
  intro pre2 c post2 hsplit
  exact hr.2 _ c _ (hys c (by rw [hsplit]; simp))

/-- A pattern that begins with `\b` cannot match inside a run of word characters. -/
theorem execFrom_skip_wordB (R : Re) (ys rest b : List Char) (w : Char)
    (hw : isWordChar w = true) (hys : ∀ c ∈ ys, isWordChar c = true) :
    execFrom (Re.seq Re.wordB R) (w :: b) (ys ++ rest) =
      execFrom (Re.seq Re.wordB R) (ys.reverse ++ w :: b) rest := by
  apply execFrom_skip
  intro pre2 c post2 hsplit
  have h1 : wordAt (pre2.reverse ++ w :: b) = true :=
    wordAt_reverse_append pre2 w b (fun x hx => hys x (by rw [hsplit]; simp [hx])) hw
  have h2 : wordAt (c :: post2 ++ rest) = true := hys c (by rw [hsplit]; simp)
  rw [ends_seq, ends_wordB]
  simp only [h1, h2, bne_self_eq_false, Bool.false_eq_true, if_false, List.flatMap_nil]

theorem rejects_digits_wordB : RejectsHead (Re.seq reDigit.plus Re.wordB).ends isSpace := by
  intro b c s hc
  have : isDigit c = false := by
    cases h : isDigit c with
    | false => rfl
    | true => rw [digit_not_space h] at hc; cases hc
  simp [ends_seq, reDigit, ends_plus_chr_cons, this]

/-- `\s*(\d+)\b` before one space, a run of digits and a character that is neither a digit
nor a word character: the only end is after the run. -/
theorem ends_spaces_digits (b : List Char) (y0 : Char) (ys : List Char) (z : Char)
    (rest : List Char) (hy0 : isDigit y0 = true) (hys : ∀ c ∈ ys, isDigit c = true)
    (hz : isDigit z = false) (hzw : isWordChar z = false) :
    (Re.seq reSpace.star (Re.seq reDigit.plus Re.wordB)).ends
        ⟨b, ' ' :: (y0 :: (ys ++ z :: rest))⟩ =
      [⟨ys.reverse ++ y0 :: ' ' :: b, z :: rest⟩] := by
  have hsp : isSpace ' ' = true := by decide
  rw [show reSpace = Re.chr isSpace from rfl, ends_star_seq isSpace _ rejects_digits_wordB]
  simp only [List.takeWhile_cons, List.dropWhile_cons, hsp, digit_not_space hy0, if_true,
    Bool.false_eq_true, if_false]
  rw [show reDigit = Re.chr isDigit from rfl, ends_plus_seq isDigit _ rejects_wordB_digits,
    if_pos hy0, takeWhile_run isDigit ys _ hys (by simpa using hz),
    dropWhile_run isDigit ys _ hys (by simpa using hz), ends_wordB]
  have h1 : wordAt (ys.reverse ++ y0 :: ([' '].reverse ++ b)) = true :=
    wordAt_reverse_append ys y0 _ (fun c hc => digit_word (hys c hc)) (digit_word hy0)
  simp only [h1, wordAt_cons, hzw]
  simp

/-! ## The residue ` - <letters>` -/

theorem advances_mem {x y : Pos} (h : Advances x y) : ∀ c ∈ y.after, c ∈ x.after := by
  obtain ⟨m, hm, _⟩ := h
  intro c hc
  rw [hm]
  exact List.mem_append_right _ hc

/-- A pattern whose continuation needs a character of `p` fails where no such character is
left. -/
theorem ends_seq_nil_of_starts (a r : Re) (p : Char → Bool) (hr : Starts r.ends p) (x : Pos)
    (hx : ∀ c ∈ x.after, p c = false) : (Re.seq a r).ends x = [] := by
  rw [ends_seq, List.flatMap_eq_nil_iff]
  intro y hy
  have hadv := advances_mem (ends_advances a x y hy)
  obtain ⟨yb, ya⟩ := y
  cases ya with
  | nil => exact hr.1 _
  | cons c cs => exact hr.2 _ c cs (hx c (hadv c (List.mem_cons_self _ _)))

theorem starts_nil (f : Pos → List Pos) (p : Char → Bool) (hf : Starts f p) (b s : List Char)
    (hs : ∀ c ∈ s, p c = false) : f ⟨b, s⟩ = [] := by
  cases s with
  | nil => exact hf.1 b
  | cons c cs => exact hf.2 b c cs (hs c (List.mem_cons_self _ _))

theorem leadingSep_strip (c : Char) (s : List Char) (hc : isSepChar c = true) :
    replaceFirst leadingSepPattern [] (c :: s) = s.dropWhile isSepChar := by
  have hhead : (leadingSepPattern.ends ⟨[], c :: s⟩).head? =
      some ⟨(s.takeWhile isSepChar).reverse ++ [c], s.dropWhile isSepChar⟩ := by
    unfold leadingSepPattern
    rw [ends_seq, ends_bol]
    simp only [List.isEmpty_nil, if_true, List.flatMap_cons, List.flatMap_nil, List.append_nil]
    rw [ends_plus_chr_cons, if_pos hc, backoff_head]
  unfold replaceFirst
  rw [execFrom_of_head _ _ _ _ hhead]
  simp

/-- Lines 52-59 on ` - ` followed by letters: what is left is the letters. -/
theorem removeBuiltinSeparators_dash (l : Char) (ls : List Char) (hl : isLetter l = true)
    (hls : ∀ c ∈ ls, isLetter c = true) :
    removeBuiltinSeparators (' ' :: '-' :: ' ' :: l :: ls) = l :: ls := by
  have hT : ∀ c ∈ l :: ls, isLetter c = true := by
    intro c hc
    rcases List.mem_cons.1 hc with rfl | hc
    · exact hl
    · exact hls c hc
  have hsd : ∀ c ∈ l :: ls, (isSpace c || c == '-') = false := fun c hc => by
    simp [letter_not_space (hT c hc), letter_not_hyphen (hT c hc)]
  have hsd2 : ∀ c ∈ ls, (isSpace c || c == '-') = false :=
    fun c hc => hsd c (List.mem_cons_of_mem _ hc)
  have h1 : isSpace l = false := letter_not_space hl
  have h2 : (l == '-') = false := letter_not_hyphen hl
  have hsp : isSpace ' ' = true := by decide
  have hsh : isSpace '-' = false := by decide
  have hl1 : isLetter ' ' = false := by decide
  have hl2 : isLetter '-' = false := by decide
  -- the dash-letter-dash pattern
  have htail : ∀ b, (Re.seq reSpace.star (Re.seq reHyphen.plus reSpace.star)).ends ⟨b, ls⟩ = [] :=
    fun b => starts_nil _ _ (starts_star_seq isSpace (starts_seq _ (starts_plus _))) b ls hsd2
  have hA : execFrom dashLetterPattern [] (' ' :: '-' :: ' ' :: l :: ls) = none := by
    unfold dashLetterPattern
    generalize (Re.seq reSpace.star (Re.seq reHyphen.plus reSpace.star)) = tl at htail
    rw [execFrom_cons_of_nil, execFrom_cons_of_nil, execFrom_cons_of_nil]
    · exact execFrom_none_of_starts _ _
        (starts_star_seq isSpace (starts_seq _ (starts_plus _))) _ hsd _
    all_goals
      simp [reSpace, reHyphen, ends_seq, ends_star_chr, ends_plus_chr_cons, ends_chr_cons,
        backoff, hsp, hsh, hl1, hl2, h1, h2, hl, htail]
  -- the HERE pattern
  have hword : ∀ b s, (∀ c ∈ s, isLetter c = true) →
      (Re.seq (Re.word "HERE".data)
        (Re.seq reSpace.plus (Re.seq reHyphen.plus reSpace.star))).ends ⟨b, s⟩ = [] :=
    fun b s hs => ends_seq_nil_of_starts _ _ isSpace (starts_seq _ (starts_plus _)) ⟨b, s⟩
      (fun c hc => letter_not_space (hs c hc))
  have hB : execFrom herePattern [] (' ' :: '-' :: ' ' :: l :: ls) = none := by
    unfold herePattern
    have hw := fun b => hword b (l :: ls) hT
    generalize (Re.seq (Re.word "HERE".data)
        (Re.seq reSpace.plus (Re.seq reHyphen.plus reSpace.star))) = tl at hw
    rw [execFrom_cons_of_nil, execFrom_cons_of_nil, execFrom_cons_of_nil]
    · exact execFrom_none_of_starts _ _
        (starts_star_seq isSpace (starts_seq _ (starts_plus _))) _ hsd _
    all_goals
      simp [reSpace, reHyphen, ends_seq, ends_star_chr, ends_plus_chr_cons, ends_chr_cons,
        backoff, hsp, hsh, h1, h2, hw]
  -- the run of dashes
  have hC : execFrom dashRunPattern [] (' ' :: '-' :: ' ' :: l :: ls) = none := by
    unfold dashRunPattern
    rw [execFrom_cons_of_nil, execFrom_cons_of_nil, execFrom_cons_of_nil]
    · exact execFrom_none_of_starts _ _
        (starts_star_seq isSpace (starts_seq _ (starts_chr _))) _ hsd _
    all_goals
      simp [reSpace, reHyphen, ends_seq, ends_star_chr, ends_chr_cons, backoff, hsp, hsh, h1, h2]
  unfold removeBuiltinSeparators
  rw [replaceAll_of_none _ _ _ hA, replaceAll_of_none _ _ _ hB, replaceAll_of_none _ _ _ hC,
    leadingSep_strip _ _ (by decide)]
  have hs1 : isSepChar '-' = true := by decide
  have hs2 : isSepChar ' ' = true := by decide
  simp only [List.dropWhile_cons, hs1, hs2, if_true, letter_not_sep hl, Bool.false_eq_true,
    if_false]
  have hfin := stripEnds_letters (l :: ls) hT
  rwa [replaceFirst_of_none leadingSepPattern _ _ (execFrom_none_of_starts _ _
    starts_leadingSep _ (fun c hc => letter_not_sep (hT c hc)) [])] at hfin

/-! ## `Chapter <digits> - AD <digits> - <letters>` -/

theorem startsWith_append (p s : List Char) : startsWith p (p ++ s) = true := by
  induction p with
  | nil => rfl
  | cons a p ih => simp [startsWith, ih]

theorem replaceStr_here (a : Char) (p repl s : List Char) :
    replaceStr (a :: p) repl (a :: (p ++ s)) = repl ++ s := by
  have h : startsWith (a :: p) (a :: (p ++ s)) = true := startsWith_append (a :: p) s
  rw [replaceStr, if_pos h]
  simp

theorem starts_word (x : Char) (xs : List Char) :
    Starts (Re.word (x :: xs)).ends (fun c => asciiUpper c == asciiUpper x) :=
  starts_seq _ (starts_chr _)

theorem starts_alt {a r : Re} {p q : Char → Bool} (ha : Starts a.ends p)
    (hr : Starts r.ends q) : Starts (Re.alt a r).ends (fun c => p c || q c) := by
  constructor
  · intro b; simp [ends_alt, ha.1 b, hr.1 b]
  · intro b c s hc
    simp only [Bool.or_eq_false_iff] at hc
    simp [ends_alt, ha.2 b c s hc.1, hr.2 b c s hc.2]

/-- The first date pattern needs an `A` or a `C` (in either case) to start. -/
theorem starts_date1 : Starts datePattern1.ends
    (fun c => asciiUpper c == asciiUpper 'A' || asciiUpper c == asciiUpper 'C') :=
  starts_guard wordB_guard (starts_seq _ (starts_alt (starts_word _ _) (starts_word _ _)))

/-- The fourth date pattern needs a `B` (in either case) to start. -/
theorem starts_date4 : Starts datePattern4.ends
    (fun c => asciiUpper c == asciiUpper 'B' || asciiUpper c == asciiUpper 'B') :=
  starts_guard wordB_guard (starts_seq _ (starts_alt (starts_word _ _) (starts_word _ _)))

/-- The second and third date patterns need a digit to start. -/
theorem starts_date2 : Starts datePattern2.ends isDigit :=
  starts_guard wordB_guard (starts_seq _ (starts_plus _))

theorem starts_date3 : Starts datePattern3.ends isDigit :=
  starts_guard wordB_guard (starts_seq _ (starts_plus _))

theorem mem_cons_digits {d : Char} {ds : List Char} (hd : isDigit d = true)
    (hds : ∀ c ∈ ds, isDigit c = true) : ∀ c ∈ d :: ds, isDigit c = true := by
  intro c hc
  rcases List.mem_cons.1 hc with rfl | hc
  · exact hd
  · exact hds c hc

/-- The era-prefixed match `AD <digits>` in `Chapter <digits> - AD <digits> - ...`. -/
theorem chapterAD_date (c0 : Char) (cs : List Char) (y0 : Char) (ys rest : List Char)
    (hc0 : isDigit c0 = true) (hcs : ∀ c ∈ cs, isDigit c = true)
    (hy0 : isDigit y0 = true) (hys : ∀ c ∈ ys, isDigit c = true) :
    matchFirst datePattern1
        ('C' :: 'h' :: 'a' :: 'p' :: 't' :: 'e' :: 'r' :: ' ' ::
          (c0 :: (cs ++ ' ' :: '-' :: ' ' :: 'A' :: 'D' :: ' ' ::
            (y0 :: (ys ++ ' ' :: '-' :: ' ' :: rest))))) =
      some ('A' :: 'D' :: ' ' :: y0 :: ys) := by
  have hskip := execFrom_skip_starts datePattern1 _ starts_date1 (c0 :: cs)
    (' ' :: '-' :: ' ' :: 'A' :: 'D' :: ' ' :: (y0 :: (ys ++ ' ' :: '-' :: ' ' :: rest)))
    [' ', 'r', 'e', 't', 'p', 'a', 'h', 'C']
    (fun c hc => by
      have hd := mem_cons_digits hc0 hcs c hc
      simp only [digit_ci hd (x := 'A') (by decide), digit_ci hd (x := 'C') (by decide),
        Bool.or_self])
  rw [List.cons_append] at hskip
  have hX := ends_spaces_digits
    ('D' :: 'A' :: ' ' :: '-' :: ' ' :: ((c0 :: cs).reverse ++
      [' ', 'r', 'e', 't', 'p', 'a', 'h', 'C'])) y0 ys ' ' ('-' :: ' ' :: rest) hy0 hys
    (by decide) (by decide)
  generalize ((c0 :: cs).reverse ++ [' ', 'r', 'e', 't', 'p', 'a', 'h', 'C']) = B at hskip hX
  unfold matchFirst
  rw [execFrom_cons_of_nil, execFrom_cons_of_nil, execFrom_cons_of_nil, execFrom_cons_of_nil,
    execFrom_cons_of_nil, execFrom_cons_of_nil, execFrom_cons_of_nil, execFrom_cons_of_nil,
    hskip, execFrom_cons_of_nil, execFrom_cons_of_nil, execFrom_cons_of_nil,
    execFrom_of_head _ _ _ ⟨ys.reverse ++ y0 :: ' ' :: 'D' :: 'A' :: ' ' :: '-' :: ' ' :: B,
      ' ' :: '-' :: ' ' :: rest⟩]
  · simp only [Option.map_some']
    congr 1
    exact between_of_advances (m := 'A' :: 'D' :: ' ' :: y0 :: ys) (by simp)
  · unfold datePattern1
    generalize (Re.seq reSpace.star (Re.seq reDigit.plus Re.wordB)) = X at hX
    simp [ends_seq, ends_wordB, wordAt_cons, isWordChar, isLetter, isDigit, reADCE, ends_alt,
      ends_word_cons, ends_word_nil, asciiUpper, hX]
  all_goals
    simp [datePattern1, ends_seq, ends_wordB, wordAt_cons, wordAt_nil, isWordChar, isLetter,
      isDigit, reADCE, ends_alt, ends_word_cons, asciiUpper]

/-- The chapter removal of line 42 on `Chapter <digits>...`: the word, the run of digits and
the separator characters after it go. -/
theorem chapterLead_chapter (d : Char) (ds rest : List Char) (hd : isDigit d = true)
    (hds : ∀ c ∈ ds, isDigit c = true) (hrest : ∀ c ∈ rest.head?, isDigit c = false) :
    replaceFirst chapterLeadPattern []
        ('C' :: 'h' :: 'a' :: 'p' :: 't' :: 'e' :: 'r' :: ' ' :: (d :: (ds ++ rest))) =
      rest.dropWhile isSepChar := by
  have hsp : isSpace ' ' = true := by decide
  have hhead : (chapterLeadPattern.ends
      ⟨[], 'C' :: 'h' :: 'a' :: 'p' :: 't' :: 'e' :: 'r' :: ' ' :: (d :: (ds ++ rest))⟩).head? =
      some ⟨(rest.takeWhile isSepChar).reverse ++
        (ds.reverse ++ [d, ' ', 'r', 'e', 't', 'p', 'a', 'h', 'C']),
        rest.dropWhile isSepChar⟩ := by
    unfold chapterLeadPattern
    rw [ends_seq, ends_bol]
    simp only [List.isEmpty_nil, if_true, List.flatMap_cons, List.flatMap_nil, List.append_nil]
    rw [ends_seq]
    have hopt : ((Re.opt ((Re.word "chapter".data).seq reSpace.star)).ends
        ⟨[], 'C' :: 'h' :: 'a' :: 'p' :: 't' :: 'e' :: 'r' :: ' ' :: (d :: (ds ++ rest))⟩).head? =
        some ⟨[' ', 'r', 'e', 't', 'p', 'a', 'h', 'C'], d :: (ds ++ rest)⟩ := by
      simp [Re.opt, ends_alt, ends_seq, ends_word_cons, ends_word_nil, asciiUpper, reSpace,
        ends_star_chr, backoff, hsp, digit_not_space hd]
    apply head?_flatMap_of_head hopt
    rw [ends_seq, show reDigit = Re.chr isDigit from rfl, ends_plus_chr_cons, if_pos hd]
    apply head?_flatMap_of_head (backoff_head _ _ _)
    rw [ends_star_chr, backoff_head, takeWhile_run isDigit ds rest hds hrest,
      dropWhile_run isDigit ds rest hds hrest]
  unfold replaceFirst
  rw [execFrom_of_head _ _ _ _ hhead]
  simp

/-- The record of `Chapter <digits> - AD <digits> - <letters>`, at the level of character
lists. -/
theorem chapterAD_record (up : Char → Char) (c0 : Char) (cs : List Char) (y0 : Char)
    (ys : List Char) (l : Char) (ls : List Char)
    (hc0 : isDigit c0 = true) (hcs : ∀ c ∈ cs, isDigit c = true)
    (hy0 : isDigit y0 = true) (hys : ∀ c ∈ ys, isDigit c = true)
    (hl : isLetter l = true) (hls : ∀ c ∈ ls, isLetter c = true) :
    chapterOf ('C' :: 'h' :: 'a' :: 'p' :: 't' :: 'e' :: 'r' :: ' ' ::
        (c0 :: (cs ++ ' ' :: '-' :: ' ' :: 'A' :: 'D' :: ' ' ::
          (y0 :: (ys ++ ' ' :: '-' :: ' ' :: l :: ls))))) = some (parseInt (c0 :: cs)) ∧
    findDate ('C' :: 'h' :: 'a' :: 'p' :: 't' :: 'e' :: 'r' :: ' ' ::
        (c0 :: (cs ++ ' ' :: '-' :: ' ' :: 'A' :: 'D' :: ' ' ::
          (y0 :: (ys ++ ' ' :: '-' :: ' ' :: l :: ls))))) datePatterns =
      some ('A' :: 'D' :: ' ' :: y0 :: ys) ∧
    cleanedTitle up ('C' :: 'h' :: 'a' :: 'p' :: 't' :: 'e' :: 'r' :: ' ' ::
        (c0 :: (cs ++ ' ' :: '-' :: ' ' :: 'A' :: 'D' :: ' ' ::
          (y0 :: (ys ++ ' ' :: '-' :: ' ' :: l :: ls))))) [] = l :: ls := by
  have hch : chapterOf ('C' :: 'h' :: 'a' :: 'p' :: 't' :: 'e' :: 'r' :: ' ' ::
        (c0 :: (cs ++ ' ' :: '-' :: ' ' :: 'A' :: 'D' :: ' ' ::
          (y0 :: (ys ++ ' ' :: '-' :: ' ' :: l :: ls))))) = some (parseInt (c0 :: cs)) := by
    unfold chapterOf
    rw [matchFirst_chapterPattern]
    have := firstDigitRun_append "Chapter ".data (c0 :: cs)
      (' ' :: '-' :: ' ' :: 'A' :: 'D' :: ' ' :: (y0 :: (ys ++ ' ' :: '-' :: ' ' :: l :: ls)))
      (by decide) (by simp) (mem_cons_digits hc0 hcs) (by simp; decide)
    simp only [List.append_assoc, List.cons_append, List.nil_append] at this
    rw [this]; rfl
  have hdate : findDate ('C' :: 'h' :: 'a' :: 'p' :: 't' :: 'e' :: 'r' :: ' ' ::
        (c0 :: (cs ++ ' ' :: '-' :: ' ' :: 'A' :: 'D' :: ' ' ::
          (y0 :: (ys ++ ' ' :: '-' :: ' ' :: l :: ls))))) datePatterns =
      some ('A' :: 'D' :: ' ' :: y0 :: ys) := by
    simp only [datePatterns, findDate, chapterAD_date c0 cs y0 ys (l :: ls) hc0 hcs hy0 hys]
  refine ⟨hch, hdate, ?_⟩
  unfold cleanedTitle
  rw [customTitle_nil, hch, hdate]
  simp only [residualTitle, Option.isSome_some, if_true]
  rw [chapterLead_chapter c0 cs _ hc0 hcs (by simp; decide)]
  have hs1 : isSepChar '-' = true := by decide
  have hs2 : isSepChar ' ' = true := by decide
  have hs3 : isSepChar 'A' = false := by decide
  simp only [List.dropWhile_cons, hs1, hs2, hs3, if_true, Bool.false_eq_true, if_false,
    List.isEmpty_cons]
  rw [show 'A' :: 'D' :: ' ' :: y0 :: (ys ++ ' ' :: '-' :: ' ' :: l :: ls) =
    'A' :: (('D' :: ' ' :: y0 :: ys) ++ ' ' :: '-' :: ' ' :: l :: ls) from by simp,
    replaceStr_here, List.nil_append]
  exact removeBuiltinSeparators_dash l ls hl hls

/-! ## `<digits> - BCE <digits> - <letters>` -/

/-- A character that matches a letter of a case-insensitive literal is a letter. -/
theorem ci_letter {c x : Char} (hx : isLetter x = true)
    (h : (asciiUpper c == asciiUpper x) = true) : isLetter c = true := by
  have h1 := asciiUpper_letter hx
  rw [beq_iff_eq] at h
  rw [← h] at h1
  rw [isLetter_iff]
  unfold asciiUpper at h1
  split at h1
  · next hlow => exact Or.inr hlow
  · exact Or.inl h1

theorem starts_ADCE_letter : Starts reADCE.ends isLetter :=
  starts_mono (starts_alt (starts_word _ _) (starts_word _ _)) (fun c hc => by
    cases hA : (asciiUpper c == asciiUpper 'A') with
    | true => rw [ci_letter (by decide) hA] at hc; cases hc
    | false =>
      cases hC : (asciiUpper c == asciiUpper 'C') with
      | true => rw [ci_letter (by decide) hC] at hc; cases hc
      | false => rfl)

theorem starts_BCE_letter : Starts reBCE.ends isLetter :=
  starts_mono (starts_alt (starts_word _ _) (starts_word _ _)) (fun c hc => by
    cases hB : (asciiUpper c == asciiUpper 'B') with
    | true => rw [ci_letter (by decide) hB] at hc; cases hc
    | false => rfl)

/-- The era-suffixed patterns `\b(\d+)\s*(era)\b` fail at a run of digits followed by
` -`. -/
theorem date_suffix_run_fail (era : Re) (hera : Starts era.ends isLetter) (b : List Char)
    (d : Char) (ds rest : List Char) (hd : isDigit d = true)
    (hds : ∀ c ∈ ds, isDigit c = true) :
    (Re.seq Re.wordB (Re.seq reDigit.plus (Re.seq reSpace.star (Re.seq era Re.wordB)))).ends
      ⟨b, d :: (ds ++ ' ' :: '-' :: rest)⟩ = [] := by
  have hrej : RejectsHead era.ends isDigit :=
    fun b c s hc => hera.2 b c s (digit_not_letter hc)
  have hsp : isSpace ' ' = true := by decide
  have hsh : isSpace '-' = false := by decide
  have h1 : ∀ b s, era.ends ⟨b, ' ' :: s⟩ = [] := fun b s => hera.2 b _ s (by decide)
  have h2 : ∀ b s, era.ends ⟨b, '-' :: s⟩ = [] := fun b s => hera.2 b _ s (by decide)
  rw [ends_seq]
  apply List.flatMap_eq_nil_iff.2
  intro x hx
  rcases wordB_guard ⟨b, d :: (ds ++ ' ' :: '-' :: rest)⟩ with hg | hg
  · rw [hg] at hx
    rw [List.mem_singleton.1 hx, show reDigit = Re.chr isDigit from rfl,
      ends_plus_seq isDigit _ (rejects_era_suffix era hrej), if_pos hd,
      takeWhile_run isDigit ds _ hds (by simp; decide),
      dropWhile_run isDigit ds _ hds (by simp; decide)]
    simp [reSpace, ends_seq, ends_star_chr, backoff, hsp, hsh, h1, h2]
  · rw [hg] at hx; cases hx

/-- The era-suffixed patterns do not match `<digits> - BCE <digits> - <letters>`. -/
theorem bce_suffix_none (era : Re) (hera : Starts era.ends isLetter) (c0 : Char)
    (cs : List Char) (y0 : Char) (ys T : List Char)
    (hc0 : isDigit c0 = true) (hcs : ∀ c ∈ cs, isDigit c = true)
    (hy0 : isDigit y0 = true) (hys : ∀ c ∈ ys, isDigit c = true)
    (hT : ∀ c ∈ T, isLetter c = true) :
    matchFirst (Re.seq Re.wordB (Re.seq reDigit.plus (Re.seq reSpace.star (Re.seq era Re.wordB))))
      (c0 :: (cs ++ ' ' :: '-' :: ' ' :: 'B' :: 'C' :: 'E' :: ' ' ::
        (y0 :: (ys ++ ' ' :: '-' :: ' ' :: T)))) = none := by
  have hst : Starts (Re.seq Re.wordB (Re.seq reDigit.plus
      (Re.seq reSpace.star (Re.seq era Re.wordB)))).ends isDigit :=
    starts_guard wordB_guard (starts_seq _ (starts_plus _))
  have hsk := execFrom_skip_starts _ _ hst [' ', '-', ' ', 'B', 'C', 'E', ' ']
    (y0 :: (ys ++ ' ' :: '-' :: ' ' :: T)) (cs.reverse ++ [c0]) (by decide)
  simp only [List.cons_append, List.nil_append] at hsk
  unfold matchFirst
  rw [execFrom_cons_of_nil _ _ _ _ (date_suffix_run_fail era hera _ c0 cs _ hc0 hcs),
    execFrom_skip_wordB _ cs _ _ c0 (digit_word hc0) (fun c hc => digit_word (hcs c hc)),
    hsk,
    execFrom_cons_of_nil _ _ _ _ (date_suffix_run_fail era hera _ y0 ys _ hy0 hys),
    execFrom_skip_wordB _ ys _ _ y0 (digit_word hy0) (fun c hc => digit_word (hys c hc)),
    execFrom_none_of_starts _ _ hst]
  · rfl
  · intro c hc
    simp only [List.mem_cons] at hc
    rcases hc with rfl | rfl | rfl | hc
    · decide
    · decide
    · decide
    · exact letter_not_digit (hT c hc)

/-- The first date pattern needs digits after the era: it does not match in letters. -/
theorem date1_none_letters (T : List Char) (hT : ∀ c ∈ T, isLetter c = true) (b : List Char) :
    execFrom datePattern1 b T = none := by
  apply execFrom_none_of_nil
  intro pre post hsp
  have hpost : ∀ c ∈ post, (isSpace c || isDigit c) = false := fun c hc => by
    have hl := hT c (by rw [hsp]; exact List.mem_append_right _ hc)
    simp [letter_not_space hl, letter_not_digit hl]
  have hR : (Re.seq reADCE (Re.seq reSpace.star (Re.seq reDigit.plus Re.wordB))).ends
      ⟨pre.reverse ++ b, post⟩ = [] :=
    ends_seq_nil_of_starts _ _ _ (starts_star_seq isSpace (starts_seq _ (starts_plus _))) _ hpost
  unfold datePattern1
  rw [ends_seq]
  rcases wordB_guard ⟨pre.reverse ++ b, post⟩ with hg | hg <;> simp [hg, hR]

/-- The era-prefixed AD/CE pattern does not match `<digits> - BCE <digits> - <letters>`: the
`CE` of `BCE` does not follow a word boundary. -/
theorem bce_date1_none (c0 : Char) (cs : List Char) (y0 : Char) (ys T : List Char)
    (hc0 : isDigit c0 = true) (hcs : ∀ c ∈ cs, isDigit c = true)
    (hy0 : isDigit y0 = true) (hys : ∀ c ∈ ys, isDigit c = true)
    (hT : ∀ c ∈ T, isLetter c = true) :
    matchFirst datePattern1
      (c0 :: (cs ++ ' ' :: '-' :: ' ' :: 'B' :: 'C' :: 'E' :: ' ' ::
        (y0 :: (ys ++ ' ' :: '-' :: ' ' :: T)))) = none := by
  have hcls : ∀ c, isDigit c = true →
      (asciiUpper c == asciiUpper 'A' || asciiUpper c == asciiUpper 'C') = false :=
    fun c hd => by
      simp only [digit_ci hd (x := 'A') (by decide), digit_ci hd (x := 'C') (by decide),
        Bool.or_self]
  have h1 := execFrom_skip_starts datePattern1 _ starts_date1 (c0 :: cs)
    (' ' :: '-' :: ' ' :: 'B' :: 'C' :: 'E' :: ' ' :: (y0 :: (ys ++ ' ' :: '-' :: ' ' :: T))) []
    (fun c hc => hcls c (mem_cons_digits hc0 hcs c hc))
  rw [List.cons_append] at h1
  generalize ((c0 :: cs).reverse ++ []) = B at h1
  have h2 := execFrom_skip_starts datePattern1 _ starts_date1 [' ', '-', ' ', 'B']
    ('C' :: 'E' :: ' ' :: (y0 :: (ys ++ ' ' :: '-' :: ' ' :: T))) B (by decide)
  simp only [List.cons_append, List.nil_append, List.reverse_cons, List.reverse_nil,
    List.append_assoc] at h2
  have h3 : datePattern1.ends ⟨'B' :: ' ' :: '-' :: ' ' :: B,
      'C' :: 'E' :: ' ' :: (y0 :: (ys ++ ' ' :: '-' :: ' ' :: T))⟩ = [] := by
    simp [datePattern1, ends_seq, ends_wordB, wordAt_cons, isWordChar, isLetter]
  have h4 := execFrom_skip_starts datePattern1 _ starts_date1 ['E', ' ']
    (y0 :: (ys ++ ' ' :: '-' :: ' ' :: T)) ('C' :: 'B' :: ' ' :: '-' :: ' ' :: B) (by decide)
  simp only [List.cons_append, List.nil_append, List.reverse_cons, List.reverse_nil,
    List.append_assoc] at h4
  have h5 := execFrom_skip_starts datePattern1 _ starts_date1 (y0 :: ys)
    (' ' :: '-' :: ' ' :: T) (' ' :: 'E' :: 'C' :: 'B' :: ' ' :: '-' :: ' ' :: B)
    (fun c hc => hcls c (mem_cons_digits hy0 hys c hc))
  rw [List.cons_append] at h5
  have h6 := execFrom_skip_starts datePattern1 _ starts_date1 [' ', '-', ' '] T
    ((y0 :: ys).reverse ++ ' ' :: 'E' :: 'C' :: 'B' :: ' ' :: '-' :: ' ' :: B) (by decide)
  simp only [List.cons_append, List.nil_append] at h6
  unfold matchFirst
  rw [h1, h2, execFrom_cons_of_nil _ _ _ _ h3, h4, h5, h6, date1_none_letters T hT]
  rfl

/-- The match `BCE <digits>` of the fourth date pattern in
`<digits> - BCE <digits> - ...`. -/
theorem bce_date4 (c0 : Char) (cs : List Char) (y0 : Char) (ys rest : List Char)
    (hc0 : isDigit c0 = true) (hcs : ∀ c ∈ cs, isDigit c = true)
    (hy0 : isDigit y0 = true) (hys : ∀ c ∈ ys, isDigit c = true) :
    matchFirst datePattern4
        (c0 :: (cs ++ ' ' :: '-' :: ' ' :: 'B' :: 'C' :: 'E' :: ' ' ::
          (y0 :: (ys ++ ' ' :: '-' :: ' ' :: rest)))) =
      some ('B' :: 'C' :: 'E' :: ' ' :: y0 :: ys) := by
  have h1 := execFrom_skip_starts datePattern4 _ starts_date4 (c0 :: cs)
    (' ' :: '-' :: ' ' :: 'B' :: 'C' :: 'E' :: ' ' :: (y0 :: (ys ++ ' ' :: '-' :: ' ' :: rest)))
    []
    (fun c hc => by
      have hd := mem_cons_digits hc0 hcs c hc
      simp only [digit_ci hd (x := 'B') (by decide), Bool.or_self])
  rw [List.cons_append] at h1
  generalize ((c0 :: cs).reverse ++ []) = B at h1
  have h2 := execFrom_skip_starts datePattern4 _ starts_date4 [' ', '-', ' ']
    ('B' :: 'C' :: 'E' :: ' ' :: (y0 :: (ys ++ ' ' :: '-' :: ' ' :: rest))) B (by decide)
  simp only [List.cons_append, List.nil_append, List.reverse_cons, List.reverse_nil,
    List.append_assoc] at h2
  have hX := ends_spaces_digits ('E' :: 'C' :: 'B' :: ' ' :: '-' :: ' ' :: B) y0 ys ' '
    ('-' :: ' ' :: rest) hy0 hys (by decide) (by decide)
  have hne : ∀ b, (Re.seq reSpace.star (Re.seq reDigit.plus Re.wordB)).ends
      ⟨b, 'E' :: ' ' :: (y0 :: (ys ++ ' ' :: '-' :: ' ' :: rest))⟩ = [] := by
    intro b
    rw [show reSpace = Re.chr isSpace from rfl, ends_star_seq isSpace _ rejects_digits_wordB]
    have hE : isSpace 'E' = false := by decide
    have hE2 : isDigit 'E' = false := by decide
    simp [List.takeWhile_cons, List.dropWhile_cons, hE, ends_seq, reDigit, ends_plus_chr_cons,
      hE2]
  have hhead : (datePattern4.ends ⟨' ' :: '-' :: ' ' :: B,
      'B' :: 'C' :: 'E' :: ' ' :: (y0 :: (ys ++ ' ' :: '-' :: ' ' :: rest))⟩).head? =
      some ⟨ys.reverse ++ y0 :: ' ' :: 'E' :: 'C' :: 'B' :: ' ' :: '-' :: ' ' :: B,
        ' ' :: '-' :: ' ' :: rest⟩ := by
    unfold datePattern4
    generalize (Re.seq reSpace.star (Re.seq reDigit.plus Re.wordB)) = X at hX hne
    simp [ends_seq, ends_wordB, wordAt_cons, isWordChar, isLetter, isDigit, reBCE, ends_alt,
      ends_word_cons, ends_word_nil, asciiUpper, hX, hne]
  unfold matchFirst
  rw [h1, h2, execFrom_of_head _ _ _ _ hhead]
  simp only [Option.map_some']
  congr 1
  exact between_of_advances (m := 'B' :: 'C' :: 'E' :: ' ' :: y0 :: ys) (by simp)

/-- The record of `<digits> - BCE <digits> - <letters>`, at the level of character lists. -/
theorem bce_record (up : Char → Char) (c0 : Char) (cs : List Char) (y0 : Char)
    (ys : List Char) (l : Char) (ls : List Char)
    (hc0 : isDigit c0 = true) (hcs : ∀ c ∈ cs, isDigit c = true)
    (hy0 : isDigit y0 = true) (hys : ∀ c ∈ ys, isDigit c = true)
    (hl : isLetter l = true) (hls : ∀ c ∈ ls, isLetter c = true) :
    chapterOf (c0 :: (cs ++ ' ' :: '-' :: ' ' :: 'B' :: 'C' :: 'E' :: ' ' ::
        (y0 :: (ys ++ ' ' :: '-' :: ' ' :: l :: ls)))) = some (parseInt (c0 :: cs)) ∧
    findDate (c0 :: (cs ++ ' ' :: '-' :: ' ' :: 'B' :: 'C' :: 'E' :: ' ' ::
        (y0 :: (ys ++ ' ' :: '-' :: ' ' :: l :: ls)))) datePatterns =
      some ('B' :: 'C' :: 'E' :: ' ' :: y0 :: ys) ∧
    cleanedTitle up (c0 :: (cs ++ ' ' :: '-' :: ' ' :: 'B' :: 'C' :: 'E' :: ' ' ::
        (y0 :: (ys ++ ' ' :: '-' :: ' ' :: l :: ls)))) [] = l :: ls := by
  have hT : ∀ c ∈ l :: ls, isLetter c = true := by
    intro c hc
    rcases List.mem_cons.1 hc with rfl | hc
    · exact hl
    · exact hls c hc
  have hch := chapterOf_leading (c0 :: cs)
    (' ' :: '-' :: ' ' :: 'B' :: 'C' :: 'E' :: ' ' :: (y0 :: (ys ++ ' ' :: '-' :: ' ' :: l :: ls)))
    (by simp) (mem_cons_digits hc0 hcs) (by simp; decide)
  rw [List.cons_append] at hch
  have hdate : findDate (c0 :: (cs ++ ' ' :: '-' :: ' ' :: 'B' :: 'C' :: 'E' :: ' ' ::
        (y0 :: (ys ++ ' ' :: '-' :: ' ' :: l :: ls)))) datePatterns =
      some ('B' :: 'C' :: 'E' :: ' ' :: y0 :: ys) := by
    have h2 : matchFirst datePattern2 _ = none :=
      bce_suffix_none reADCE starts_ADCE_letter c0 cs y0 ys (l :: ls) hc0 hcs hy0 hys hT
    have h3 : matchFirst datePattern3 _ = none :=
      bce_suffix_none reBCE starts_BCE_letter c0 cs y0 ys (l :: ls) hc0 hcs hy0 hys hT
    simp only [datePatterns, findDate, bce_date1_none c0 cs y0 ys (l :: ls) hc0 hcs hy0 hys hT,
      h2, h3, bce_date4 c0 cs y0 ys (l :: ls) hc0 hcs hy0 hys]
  refine ⟨hch, hdate, ?_⟩
  unfold cleanedTitle
  rw [customTitle_nil, hch, hdate]
  simp only [residualTitle, Option.isSome_some, if_true]
  rw [chapterLead_digits c0 cs _ hc0 hcs (by simp; decide)]
  have hs1 : isSepChar '-' = true := by decide
  have hs2 : isSepChar ' ' = true := by decide
  have hs3 : isSepChar 'B' = false := by decide
  simp only [List.dropWhile_cons, hs1, hs2, hs3, if_true, Bool.false_eq_true, if_false,
    List.isEmpty_cons]
  rw [show 'B' :: 'C' :: 'E' :: ' ' :: y0 :: (ys ++ ' ' :: '-' :: ' ' :: l :: ls) =
    'B' :: (('C' :: 'E' :: ' ' :: y0 :: ys) ++ ' ' :: '-' :: ' ' :: l :: ls) from by simp,
    replaceStr_here, List.nil_append]
  exact removeBuiltinSeparators_dash l ls hl hls

/-- C8 (amended): for all non-empty decimal digit strings `c` and `y`, the value of `c` below
`2^53`, and every non-empty string `T` of ASCII letters,
`parseFilename('Chapter ' + c + ' - AD ' + y + ' - ' + T + '.txt')` with no custom separators
returns chapterNumber = the integer value of `c`, dateString = `'AD ' + y` (the era-prefixed
match, not the bare year) and title = `T`. -/
theorem chapter_ad_format (up : Char → Char) (c y T : String)
    (hc : c.data ≠ []) (hcd : ∀ ch ∈ c.data, isDigit ch = true)
    (hy : y.data ≠ []) (hyd : ∀ ch ∈ y.data, isDigit ch = true)
    (hT : T.data ≠ []) (hTl : ∀ ch ∈ T.data, isLetter ch = true)
    (hv : digitsValue c.data < 2 ^ 53) :
    parseFilename up ("Chapter " ++ c ++ " - AD " ++ y ++ " - " ++ T ++ ".txt") "" =
      some
        { filepath := "Chapter " ++ c ++ " - AD " ++ y ++ " - " ++ T ++ ".txt"
          filename := "Chapter " ++ c ++ " - AD " ++ y ++ " - " ++ T ++ ".txt"
          chapterNumber := some (.finite (digitsValue c.data))
          dateString := some ("AD " ++ y)
          title := T
          isValid := true } := by
  obtain ⟨cd⟩ := c
  obtain ⟨yd⟩ := y
  obtain ⟨Td⟩ := T
  simp only at hc hcd hy hyd hT hTl hv
  cases cd with
  | nil => exact absurd rfl hc
  | cons c0 cs =>
  cases yd with
  | nil => exact absurd rfl hy
  | cons y0 ys =>
  cases Td with
  | nil => exact absurd rfl hT
  | cons l ls =>
    have hc0 := hcd c0 (List.mem_cons_self _ _)
    have hcs : ∀ x ∈ cs, isDigit x = true := fun x hx => hcd x (List.mem_cons_of_mem _ hx)
    have hy0 := hyd y0 (List.mem_cons_self _ _)
    have hys : ∀ x ∈ ys, isDigit x = true := fun x hx => hyd x (List.mem_cons_of_mem _ hx)
    have hl := hTl l (List.mem_cons_self _ _)
    have hls : ∀ x ∈ ls, isLetter x = true := fun x hx => hTl x (List.mem_cons_of_mem _ hx)
    have hdata : ("Chapter " ++ String.mk (c0 :: cs) ++ " - AD " ++ String.mk (y0 :: ys) ++ " - " ++
          String.mk (l :: ls) ++ ".txt").data =
        ('C' :: 'h' :: 'a' :: 'p' :: 't' :: 'e' :: 'r' :: ' ' ::
          (c0 :: (cs ++ ' ' :: '-' :: ' ' :: 'A' :: 'D' :: ' ' ::
            (y0 :: (ys ++ ' ' :: '-' :: ' ' :: l :: ls))))) ++ '.' :: "txt".data := by
      simp [String.data_append]
    obtain ⟨h1, h2, h3⟩ := chapterAD_record up c0 cs y0 ys l ls hc0 hcs hy0 hys hl hls
    have hplain := stem_plain ('C' :: 'h' :: 'a' :: 'p' :: 't' :: 'e' :: 'r' :: ' ' ::
          (c0 :: (cs ++ ' ' :: '-' :: ' ' :: 'A' :: 'D' :: ' ' ::
            (y0 :: (ys ++ ' ' :: '-' :: ' ' :: l :: ls))))) "txt".data (by simp)
      (by
        intro x hx
        simp only [List.mem_cons, List.mem_append] at hx
        rcases hx with rfl | rfl | rfl | rfl | rfl | rfl | rfl | rfl | rfl | hx | rfl | rfl |
          rfl | rfl | rfl | rfl | rfl | hx | rfl | rfl | rfl | rfl | hx
        all_goals first
          | decide
          | exact digit_plain hc0
          | exact digit_plain hy0
          | exact digit_plain (hcs x hx)
          | exact digit_plain (hys x hx)
          | exact letter_plain hl
          | exact letter_plain (hls x hx))
      (by decide)
    rw [parseFilename_eq,
      parsedRecord_of up _ "" _ _ _ (l :: ls)
        (by rw [hdata]; exact hplain.1) (by rw [hdata]; exact hplain.2) h1 h2 h3 (by simp)]
    simp [parseInt, roundToDouble_small _ hv]
    rfl

/-- C9 (amended): for all non-empty decimal digit strings `c` and `y`, the value of `c` below
`2^53`, and every non-empty string `T` of ASCII letters,
`parseFilename(c + ' - BCE ' + y + ' - ' + T + '.md')` with no custom separators returns
chapterNumber = the integer value of `c`, dateString = `'BCE ' + y` (the `CE` inside it is
not taken as an era-prefixed date) and title = `T`. -/
theorem bce_format (up : Char → Char) (c y T : String)
    (hc : c.data ≠ []) (hcd : ∀ ch ∈ c.data, isDigit ch = true)
    (hy : y.data ≠ []) (hyd : ∀ ch ∈ y.data, isDigit ch = true)
    (hT : T.data ≠ []) (hTl : ∀ ch ∈ T.data, isLetter ch = true)
    (hv : digitsValue c.data < 2 ^ 53) :
    parseFilename up (c ++ " - BCE " ++ y ++ " - " ++ T ++ ".md") "" =
      some
        { filepath := c ++ " - BCE " ++ y ++ " - " ++ T ++ ".md"
          filename := c ++ " - BCE " ++ y ++ " - " ++ T ++ ".md"
          chapterNumber := some (.finite (digitsValue c.data))
          dateString := some ("BCE " ++ y)
          title := T
          isValid := true } := by
  obtain ⟨cd⟩ := c
  obtain ⟨yd⟩ := y
  obtain ⟨Td⟩ := T
  simp only at hc hcd hy hyd hT hTl hv
  cases cd with
  | nil => exact absurd rfl hc
  | cons c0 cs =>
  cases yd with
  | nil => exact absurd rfl hy
  | cons y0 ys =>
  cases Td with
  | nil => exact absurd rfl hT
  | cons l ls =>
    have hc0 := hcd c0 (List.mem_cons_self _ _)
    have hcs : ∀ x ∈ cs, isDigit x = true := fun x hx => hcd x (List.mem_cons_of_mem _ hx)
    have hy0 := hyd y0 (List.mem_cons_self _ _)
    have hys : ∀ x ∈ ys, isDigit x = true := fun x hx => hyd x (List.mem_cons_of_mem _ hx)
    have hl := hTl l (List.mem_cons_self _ _)
    have hls : ∀ x ∈ ls, isLetter x = true := fun x hx => hTl x (List.mem_cons_of_mem _ hx)
    have hdata : (String.mk (c0 :: cs) ++ " - BCE " ++ String.mk (y0 :: ys) ++ " - " ++
          String.mk (l :: ls) ++ ".md").data =
        (c0 :: (cs ++ ' ' :: '-' :: ' ' :: 'B' :: 'C' :: 'E' :: ' ' ::
            (y0 :: (ys ++ ' ' :: '-' :: ' ' :: l :: ls)))) ++ '.' :: "md".data := by
      simp [String.data_append]
    obtain ⟨h1, h2, h3⟩ := bce_record up c0 cs y0 ys l ls hc0 hcs hy0 hys hl hls
    have hplain := stem_plain (c0 :: (cs ++ ' ' :: '-' :: ' ' :: 'B' :: 'C' :: 'E' :: ' ' ::
            (y0 :: (ys ++ ' ' :: '-' :: ' ' :: l :: ls)))) "md".data (by simp)
      (by
        intro x hx
        simp only [List.mem_cons, List.mem_append] at hx
        rcases hx with rfl | hx | rfl | rfl | rfl | rfl | rfl | rfl | rfl | rfl | hx | rfl |
          rfl | rfl | rfl | hx
        all_goals first
          | decide
          | exact digit_plain hc0
          | exact digit_plain hy0
          | exact digit_plain (hcs x hx)
          | exact digit_plain (hys x hx)
          | exact letter_plain hl
          | exact letter_plain (hls x hx))
      (by decide)
    rw [parseFilename_eq,
      parsedRecord_of up _ "" _ _ _ (l :: ls)
        (by rw [hdata]; exact hplain.1) (by rw [hdata]; exact hplain.2) h1 h2 h3 (by simp)]
    simp [parseInt, roundToDouble_small _ hv]
    rfl

theorem bce_format_witness :
    parseFilename (fun c => c) "2 - BCE 30000 - Title.md" "" =
      some
        { filepath := "2 - BCE 30000 - Title.md"
          filename := "2 - BCE 30000 - Title.md"
          chapterNumber := some (.finite 2)
          dateString := some "BCE 30000"
          title := "Title"
          isValid := true } :=
  bce_format (fun c => c) "2" "30000" "Title" (by decide) (by decide) (by decide) (by decide)
    (by decide) (by decide) (by decide)

theorem chapter_ad_format_witness :
    parseFilename (fun c => c) "Chapter 1 - AD 1982 - Title.txt" "" =
      some
        { filepath := "Chapter 1 - AD 1982 - Title.txt"
          filename := "Chapter 1 - AD 1982 - Title.txt"
          chapterNumber := some (.finite 1)
          dateString := some "AD 1982"
          title := "Title"
          isValid := true } :=
  chapter_ad_format (fun c => c) "1" "1982" "Title" (by decide) (by decide) (by decide)
    (by decide) (by decide) (by decide) (by decide)

theorem underscore_format_rounds :
    (parseFilename (fun c => c) ("9007199254740993" ++ "_" ++ "title" ++ ".txt") "").map
        (fun r => r.chapterNumber) = some (some (.finite 9007199254740992)) ∧
    (parseFilename (fun c => c) ("9007199254740993" ++ "_" ++ "title" ++ ".txt") "").map
        (fun r => r.chapterNumber) ≠
      some (some (.finite (digitsValue "9007199254740993".data))) := by
  decide

theorem chapter_ad_format_rounds :
    (parseFilename (fun c => c)
        ("Chapter " ++ "9007199254740993" ++ " - AD " ++ "1982" ++ " - " ++ "Title" ++ ".txt")
        "").map (fun r => r.chapterNumber) = some (some (.finite 9007199254740992)) ∧
    (parseFilename (fun c => c)
        ("Chapter " ++ "9007199254740993" ++ " - AD " ++ "1982" ++ " - " ++ "Title" ++ ".txt")
        "").map (fun r => r.chapterNumber) ≠
      some (some (.finite (digitsValue "9007199254740993".data))) := by
  decide

theorem bce_format_rounds :
    (parseFilename (fun c => c)
        ("9007199254740993" ++ " - BCE " ++ "30000" ++ " - " ++ "Title" ++ ".md")
        "").map (fun r => r.chapterNumber) = some (some (.finite 9007199254740992)) ∧
    (parseFilename (fun c => c)
        ("9007199254740993" ++ " - BCE " ++ "30000" ++ " - " ++ "Title" ++ ".md")
        "").map (fun r => r.chapterNumber) ≠
      some (some (.finite (digitsValue "9007199254740993".data))) := by
  decide

/-- C6: what the code returns for `01_1972_title.txt`, a format named in the docstring of
`parseFilename`: the chapter number is 1, but no date is found (the underscore before `1972`
is a word character, so `\b` does not hold there) and the year stays in the title. -/
theorem underscore_year_not_date (up : Char → Char) :
    parseFilename up "01_1972_title.txt" "" =
      some
        { filepath := "01_1972_title.txt"
          filename := "01_1972_title.txt"
          chapterNumber := some (.finite 1)
          dateString := none
          title := "1972_title"
          isValid := true } := by
  rw [parseFilename_noconfig]
  decide

/-! ## The chapter number and the date of any path -/

theorem findDate_at (s : List Char) : ∀ (ps : List Re) (k : Nat) (p : Re) (m : List Char),
    ps[k]? = some p →
    (∀ i q, i < k → ps[i]? = some q → matchFirst q s = none) →
    matchFirst p s = some m → findDate s ps = some m := by
  intro ps
  induction ps with
  | nil => intro k p m hk; simp at hk
  | cons p0 ps ih =>
    intro k p m hk hbefore hm
    cases k with
    | zero =>
      simp only [List.getElem?_cons_zero, Option.some.injEq] at hk
      subst hk
      simp [findDate, hm]
    | succ k =>
      have h0 := hbefore 0 p0 (Nat.succ_pos k) (by simp)
      simp only [findDate, h0]
      exact ih k p m (by simpa using hk)
        (fun i q hi hq => hbefore (i + 1) q (Nat.succ_lt_succ hi) (by simpa using hq)) hm

/-- C4 (amended): `parseFilename` returns, and its chapterNumber is `parseInt` of the first
(leftmost, maximal) run of decimal digits of the basename without its extension: the double
nearest to the integer the run writes, which is that integer whenever it is below `2^53`;
it is null when the stem has no decimal digit. isValid is true exactly when chapterNumber is
not null. Digits of the extension are ignored (`notes.mp3` has no chapter number). -/
theorem chapterNumber_first_run (up : Char → Char) (filepath ignoreSeparators : String) :
    ∃ r, parseFilename up filepath ignoreSeparators = some r ∧
      r.chapterNumber = (firstDigitRun (stem filepath.data)).map parseInt ∧
      (r.isValid = true ↔ r.chapterNumber ≠ none) ∧
      ((∀ c ∈ stem filepath.data, isDigit c = false) → r.chapterNumber = none) ∧
      (∀ pre ds post, stem filepath.data = pre ++ ds ++ post →
        (∀ c ∈ pre, isDigit c = false) → ds ≠ [] → (∀ c ∈ ds, isDigit c = true) →
        (∀ c ∈ post.head?, isDigit c = false) →
        r.chapterNumber = some (roundToDouble (digitsValue ds)) ∧
        (digitsValue ds < 2 ^ 53 → r.chapterNumber = some (.finite (digitsValue ds)))) ∧
      ∃ r2, parseFilename up "notes.mp3" ignoreSeparators = some r2 ∧
        r2.chapterNumber = none := by
  have hch : (parsedRecord up filepath ignoreSeparators).chapterNumber =
      (firstDigitRun (stem filepath.data)).map parseInt := by
    show chapterOf (stem filepath.data) = _
    unfold chapterOf
    rw [matchFirst_chapterPattern]
  refine ⟨_, parseFilename_eq up filepath ignoreSeparators, hch, ?_, ?_, ?_, ?_⟩
  · show (chapterOf (stem filepath.data)).isSome = true ↔ chapterOf (stem filepath.data) ≠ none
    cases chapterOf (stem filepath.data) <;> simp
  · intro h
    rw [hch, firstDigitRun_none _ h]; rfl
  · intro pre ds post hs hpre hne hds hpost
    have h1 : (parsedRecord up filepath ignoreSeparators).chapterNumber =
        some (roundToDouble (digitsValue ds)) := by
      rw [hch, hs, firstDigitRun_append pre ds post hpre hne hds hpost]; rfl
    exact ⟨h1, fun hv => by rw [h1, roundToDouble_small _ hv]⟩
  · refine ⟨_, parseFilename_eq up "notes.mp3" ignoreSeparators, ?_⟩
    show chapterOf (stem "notes.mp3".data) = none
    decide

theorem chapterNumber_rounded :
    ∃ r, parseFilename (fun c => c) "9007199254740993.txt" "" = some r ∧
      firstDigitRun (stem "9007199254740993.txt".data) = some "9007199254740993".data ∧
      digitsValue "9007199254740993".data = 9007199254740993 ∧
      r.chapterNumber = some (.finite 9007199254740992) ∧
      r.chapterNumber ≠ some (.finite (digitsValue "9007199254740993".data)) :=
  ⟨_, parseFilename_eq _ _ _, by decide, by decide, by decide, by decide⟩

/-! ## Duplicate chapter numbers -/

theorem indexOf_append_of_mem (x : JSNumber) (pre post : List JSNumber) (h : x ∈ pre) :
    indexOf x (pre ++ post) < pre.length := by
  induction pre with
  | nil => simp at h
  | cons y ys ih =>
    by_cases hy : y = x
    · simp [indexOf, hy]
    · have hx : x ∈ ys := by
        rcases List.mem_cons.1 h with h | h
        · exact absurd h.symm hy
        · exact h
      simp only [List.cons_append, indexOf, hy, if_false, List.length_cons]
      exact Nat.succ_lt_succ (ih hx)

theorem indexOf_append_of_not_mem (x : JSNumber) (pre post : List JSNumber) (h : x ∉ pre) :
    indexOf x (pre ++ x :: post) = pre.length := by
  induction pre with
  | nil => simp [indexOf]
  | cons y ys ih =>
    have hy : y ≠ x := fun e => h (by simp [e])
    have hx : x ∉ ys := fun e => h (List.mem_cons_of_mem _ e)
    simp [indexOf, hy, ih hx]

theorem duplicatesFrom_cons (all : List JSNumber) (i : Nat) (num : JSNumber)
    (rest : List JSNumber) :
    duplicatesFrom all i (num :: rest) =
      if indexOf num all ≠ i then num :: duplicatesFrom all (i + 1) rest
      else duplicatesFrom all (i + 1) rest := rfl

/-- What line 118 keeps: the occurrences of a value that are not its first one. -/
theorem mem_duplicatesFrom (rest : List JSNumber) : ∀ (pre : List JSNumber) (v : JSNumber),
    v ∈ duplicatesFrom (pre ++ rest) pre.length rest ↔
      ∃ a b, rest = a ++ v :: b ∧ v ∈ pre ++ a := by
  induction rest with
  | nil => intro pre v; simp [duplicatesFrom]
  | cons num rest ih =>
    intro pre v
    have hall : pre ++ num :: rest = (pre ++ [num]) ++ rest := by simp
    have hlen : pre.length + 1 = (pre ++ [num]).length := by simp
    have ih2 := ih (pre ++ [num]) v
    rw [← hall, ← hlen] at ih2
    have hcond : indexOf num (pre ++ num :: rest) ≠ pre.length ↔ num ∈ pre := by
      constructor
      · intro hne
        by_contra hnot
        exact hne (indexOf_append_of_not_mem num pre rest hnot)
      · intro hm
        exact Nat.ne_of_lt (indexOf_append_of_mem num pre (num :: rest) hm)
    have hrest : (∃ a b, rest = a ++ v :: b ∧ v ∈ (pre ++ [num]) ++ a) ↔
        ∃ a b, num :: rest = (num :: a) ++ v :: b ∧ v ∈ pre ++ (num :: a) := by
      constructor
      · rintro ⟨a, b, h1, h2⟩
        exact ⟨a, b, by rw [h1]; rfl, by simpa using h2⟩
      · rintro ⟨a, b, h1, h2⟩
        exact ⟨a, b, by simpa using h1, by simpa using h2⟩
    have hsplit : (∃ a b, num :: rest = a ++ v :: b ∧ v ∈ pre ++ a) ↔
        (v = num ∧ v ∈ pre) ∨ ∃ a b, num :: rest = (num :: a) ++ v :: b ∧
          v ∈ pre ++ (num :: a) := by
      constructor
      · rintro ⟨a, b, h1, h2⟩
        cases a with
        | nil =>
          simp only [List.nil_append, List.cons.injEq] at h1
          exact Or.inl ⟨h1.1.symm, by simpa using h2⟩
        | cons x a =>
          simp only [List.cons_append, List.cons.injEq] at h1
          refine Or.inr ⟨a, b, by rw [h1.2]; rfl, ?_⟩
          rw [h1.1]; exact h2
      · rintro (⟨h1, h2⟩ | ⟨a, b, h1, h2⟩)
        · exact ⟨[], rest, by rw [h1]; rfl, by simpa using h2⟩
        · exact ⟨num :: a, b, h1, h2⟩
    rw [hsplit, ← hrest, ← ih2, duplicatesFrom_cons]
    by_cases hm : num ∈ pre
    · rw [if_pos (hcond.2 hm), List.mem_cons]
      constructor
      · rintro (h | h)
        · exact Or.inl ⟨h, h ▸ hm⟩
        · exact Or.inr h
      · rintro (⟨h, _⟩ | h)
        · exact Or.inl h
        · exact Or.inr h
    · rw [if_neg (fun h => hm (hcond.1 h))]
      constructor
      · intro h; exact Or.inr h
      · rintro (⟨h, h2⟩ | h)
        · exact absurd (h ▸ h2) hm
        · exact h

theorem two_le_count_iff (l : List JSNumber) (v : JSNumber) :
    2 ≤ l.count v ↔ ∃ a b, l = a ++ v :: b ∧ v ∈ a := by
  constructor
  · intro h
    induction l with
    | nil => simp at h
    | cons x xs ih =>
      by_cases hx : x = v
      · subst hx
        by_cases h2 : 2 ≤ xs.count x
        · obtain ⟨a, b, h3, h4⟩ := ih h2
          exact ⟨x :: a, b, by rw [h3]; rfl, List.mem_cons_of_mem _ h4⟩
        · have h1 : 0 < xs.count x := by
            simp only [List.count_cons_self] at h
            omega
          obtain ⟨a, b, h3⟩ := List.append_of_mem (List.count_pos_iff.1 h1)
          exact ⟨x :: a, b, by rw [h3]; rfl, List.mem_cons_self _ _⟩
      · rw [List.count_cons_of_ne (Ne.symm hx)] at h
        obtain ⟨a, b, h3, h4⟩ := ih h
        exact ⟨x :: a, b, by rw [h3]; rfl, List.mem_cons_of_mem _ h4⟩
  · rintro ⟨a, b, h1, h2⟩
    rw [h1, List.count_append, List.count_cons_self]
    have := List.count_pos_iff.2 h2
    omega

theorem mem_duplicates (nums : List JSNumber) (v : JSNumber) :
    v ∈ duplicatesFrom nums 0 nums ↔ 2 ≤ nums.count v := by
  have h := mem_duplicatesFrom nums [] v
  simp only [List.nil_append, List.length_nil] at h
  rw [h, two_le_count_iff]

theorem mem_setOf (l : List JSNumber) (v : JSNumber) : v ∈ setOf l ↔ v ∈ l := by
  induction l with
  | nil => simp [setOf]
  | cons x xs ih =>
    simp only [setOf, List.mem_cons, List.mem_filter, ih, decide_eq_true_eq]
    constructor
    · rintro (h | ⟨h, _⟩)
      · exact Or.inl h
      · exact Or.inr h
    · rintro (h | h)
      · exact Or.inl h
      · by_cases hv : v = x
        · exact Or.inl hv
        · exact Or.inr ⟨h, hv⟩

theorem nodup_setOf (l : List JSNumber) : (setOf l).Nodup := by
  induction l with
  | nil => exact List.nodup_nil
  | cons x xs ih =>
    simp only [setOf, List.nodup_cons, List.mem_filter, decide_eq_true_eq, not_and, not_not]
    exact ⟨fun _ => trivial, ih.filter _⟩

theorem setOf_sublist (l : List JSNumber) : (setOf l).Sublist l := by
  induction l with
  | nil => exact List.Sublist.refl _
  | cons x xs ih => exact List.Sublist.cons₂ x ((List.filter_sublist _).trans ih)

theorem duplicatesFrom_sublist (all : List JSNumber) (rest : List JSNumber) :
    ∀ i, (duplicatesFrom all i rest).Sublist rest := by
  induction rest with
  | nil => intro i; exact List.Sublist.refl _
  | cons x xs ih =>
    intro i
    rw [duplicatesFrom_cons]
    split
    · exact List.Sublist.cons₂ x (ih _)
    · exact List.Sublist.cons x (ih _)

theorem duplicateWarning_eq (parsed : List FileRecord) :
    duplicateWarning parsed =
      if setOf (duplicatesFrom (parsed.filterMap (fun p => p.chapterNumber)) 0
          (parsed.filterMap (fun p => p.chapterNumber))) = [] then []
      else
        [{ type := "duplicate_chapters"
           message := .duplicates (setOf (duplicatesFrom
             (parsed.filterMap (fun p => p.chapterNumber)) 0
             (parsed.filterMap (fun p => p.chapterNumber))))
           files := none }] := by
  simp only [duplicateWarning]
  cases h : duplicatesFrom (parsed.filterMap (fun p => p.chapterNumber)) 0
      (parsed.filterMap (fun p => p.chapterNumber)) with
  | nil => simp [setOf]
  | cons x xs => simp [setOf]

theorem duplicateWarning_filter_self (parsed : List FileRecord) :
    (duplicateWarning parsed).filter (fun w => w.type = "duplicate_chapters") =
      duplicateWarning parsed := by
  rw [duplicateWarning_eq]
  split
  · rfl
  · rw [List.filter_cons]
    simp

theorem invalidWarning_filter_dup (parsed : List FileRecord) :
    (invalidWarning parsed).filter (fun w => w.type = "duplicate_chapters") = [] := by
  rw [invalidWarning_eq]
  split
  · rw [List.filter_cons]
    simp only [List.filter_nil]
    rfl
  · rfl

/-! ## The chapter range -/

theorem JSNumber.le_refl (x : JSNumber) : x ≤ x := by
  cases x <;> simp [JSNumber.le_def, JSNumber.le]

theorem JSNumber.le_antisymm {x y : JSNumber} (h1 : x ≤ y) (h2 : y ≤ x) : x = y := by
  cases x <;> cases y <;> simp_all [JSNumber.le_def, JSNumber.le]
  omega

theorem JSNumber.le_total (x y : JSNumber) : x ≤ y ∨ y ≤ x := by
  cases x <;> cases y <;> simp [JSNumber.le_def, JSNumber.le]
  omega

theorem JSNumber.min_le_left (x y : JSNumber) : x.min y ≤ x := by
  cases x <;> cases y <;> simp [JSNumber.min, JSNumber.le_def, JSNumber.le]

theorem JSNumber.min_le_right (x y : JSNumber) : x.min y ≤ y := by
  cases x <;> cases y <;> simp [JSNumber.min, JSNumber.le_def, JSNumber.le]

theorem JSNumber.min_eq (x y : JSNumber) : x.min y = x ∨ x.min y = y := by
  cases x <;> cases y <;> simp [JSNumber.min]
  omega

theorem JSNumber.le_max_left (x y : JSNumber) : x ≤ x.max y := by
  cases x <;> cases y <;> simp [JSNumber.max, JSNumber.le_def, JSNumber.le]

theorem JSNumber.le_max_right (x y : JSNumber) : y ≤ x.max y := by
  cases x <;> cases y <;> simp [JSNumber.max, JSNumber.le_def, JSNumber.le]

theorem JSNumber.max_eq (x y : JSNumber) : x.max y = x ∨ x.max y = y := by
  cases x <;> cases y <;> simp [JSNumber.max]
  omega

theorem foldl_min_spec (vs : List JSNumber) : ∀ v,
    (vs.foldl JSNumber.min v ∈ v :: vs) ∧ ∀ w ∈ v :: vs, vs.foldl JSNumber.min v ≤ w := by
  induction vs with
  | nil => intro v; simp [JSNumber.le_refl]
  | cons x xs ih =>
    intro v
    obtain ⟨h1, h2⟩ := ih (v.min x)
    simp only [List.foldl_cons]
    constructor
    · rcases List.mem_cons.1 h1 with h | h
      · rcases JSNumber.min_eq v x with e | e
        · rw [h, e]; simp
        · rw [h, e]; simp
      · exact List.mem_cons_of_mem _ (List.mem_cons_of_mem _ h)
    · intro w hw
      have hm := h2 (v.min x) (List.mem_cons_self _ _)
      rcases List.mem_cons.1 hw with rfl | hw
      · exact JSNumber.le_trans hm (JSNumber.min_le_left _ _)
      · rcases List.mem_cons.1 hw with rfl | hw
        · exact JSNumber.le_trans hm (JSNumber.min_le_right _ _)
        · exact h2 w (List.mem_cons_of_mem _ hw)

theorem foldl_max_spec (vs : List JSNumber) : ∀ v,
    (vs.foldl JSNumber.max v ∈ v :: vs) ∧ ∀ w ∈ v :: vs, w ≤ vs.foldl JSNumber.max v := by
  induction vs with
  | nil => intro v; simp [JSNumber.le_refl]
  | cons x xs ih =>
    intro v
    obtain ⟨h1, h2⟩ := ih (v.max x)
    simp only [List.foldl_cons]
    constructor
    · rcases List.mem_cons.1 h1 with h | h
      · rcases JSNumber.max_eq v x with e | e
        · rw [h, e]; simp
        · rw [h, e]; simp
      · exact List.mem_cons_of_mem _ (List.mem_cons_of_mem _ h)
    · intro w hw
      have hm := h2 (v.max x) (List.mem_cons_self _ _)
      rcases List.mem_cons.1 hw with rfl | hw
      · exact JSNumber.le_trans (JSNumber.le_max_left _ _) hm
      · rcases List.mem_cons.1 hw with rfl | hw
        · exact JSNumber.le_trans (JSNumber.le_max_right _ _) hm
        · exact h2 w (List.mem_cons_of_mem _ hw)

/-- What lines 130-136 compute, in terms of the records. -/
theorem chapterRangeOf_spec (parsed : List FileRecord) :
    (chapterRangeOf parsed = none ↔ ∀ r ∈ parsed, r.chapterNumber = none) ∧
    ∀ rg, chapterRangeOf parsed = some rg →
      rg.min ≤ rg.max ∧
      (∃ r ∈ parsed, r.chapterNumber = some rg.min) ∧
      (∃ r ∈ parsed, r.chapterNumber = some rg.max) ∧
      ∀ r ∈ parsed, ∀ v, r.chapterNumber = some v → rg.min ≤ v ∧ v ≤ rg.max := by
  have hmem : ∀ v, v ∈ parsed.filterMap (fun p => p.chapterNumber) ↔
      ∃ r ∈ parsed, r.chapterNumber = some v := by
    intro v; simp [List.mem_filterMap]
  cases hnums : parsed.filterMap (fun p => p.chapterNumber) with
  | nil =>
    have hcr : chapterRangeOf parsed = none := by unfold chapterRangeOf; rw [hnums]
    rw [hcr]
    refine ⟨⟨fun _ r hr => ?_, fun _ => rfl⟩, fun rg h => by cases h⟩
    cases hc : r.chapterNumber with
    | none => rfl
    | some v =>
      have := (hmem v).2 ⟨r, hr, hc⟩
      rw [hnums] at this
      cases this
  | cons v vs =>
    have hv : ∃ r ∈ parsed, r.chapterNumber = some v := (hmem v).1 (by rw [hnums]; simp)
    have hcr : chapterRangeOf parsed =
        some { min := vs.foldl JSNumber.min v, max := vs.foldl JSNumber.max v } := by
      unfold chapterRangeOf; rw [hnums]
    rw [hcr]
    refine ⟨⟨fun h => Option.noConfusion h, fun h => ?_⟩, ?_⟩
    · obtain ⟨r, hr, hc⟩ := hv
      rw [h r hr] at hc; cases hc
    · intro rg hrg
      simp only [Option.some.injEq] at hrg
      subst hrg
      obtain ⟨m1, m2⟩ := foldl_min_spec vs v
      obtain ⟨x1, x2⟩ := foldl_max_spec vs v
      refine ⟨JSNumber.le_trans (m2 v (List.mem_cons_self _ _)) (x2 v (List.mem_cons_self _ _)),
        (hmem _).1 (by rw [hnums]; exact m1), (hmem _).1 (by rw [hnums]; exact x1), ?_⟩
      intro r hr w hw
      have hwm : w ∈ v :: vs := by rw [← hnums]; exact (hmem w).2 ⟨r, hr, hw⟩
      exact ⟨m2 w hwm, x2 w hwm⟩

/-- The range depends only on which chapter numbers occur. -/
theorem chapterRangeOf_congr (p1 p2 : List FileRecord)
    (h : ∀ v, (∃ r ∈ p1, r.chapterNumber = some v) ↔ (∃ r ∈ p2, r.chapterNumber = some v)) :
    chapterRangeOf p1 = chapterRangeOf p2 := by
  obtain ⟨n1, s1⟩ := chapterRangeOf_spec p1
  obtain ⟨n2, s2⟩ := chapterRangeOf_spec p2
  cases h1 : chapterRangeOf p1 with
  | none =>
    cases h2 : chapterRangeOf p2 with
    | none => rfl
    | some rg2 =>
      obtain ⟨_, ⟨r, hr, hc⟩, _⟩ := s2 rg2 h2
      obtain ⟨r', hr', hc'⟩ := (h _).2 ⟨r, hr, hc⟩
      rw [n1.1 h1 r' hr'] at hc'; cases hc'
  | some rg1 =>
    cases h2 : chapterRangeOf p2 with
    | none =>
      obtain ⟨_, ⟨r, hr, hc⟩, _⟩ := s1 rg1 h1
      obtain ⟨r', hr', hc'⟩ := (h _).1 ⟨r, hr, hc⟩
      rw [n2.1 h2 r' hr'] at hc'; cases hc'
    | some rg2 =>
      obtain ⟨_, ⟨a1, ha1, ca1⟩, ⟨b1, hb1, cb1⟩, f1⟩ := s1 rg1 h1
      obtain ⟨_, ⟨a2, ha2, ca2⟩, ⟨b2, hb2, cb2⟩, f2⟩ := s2 rg2 h2
      obtain ⟨a1', ha1', ca1'⟩ := (h _).1 ⟨a1, ha1, ca1⟩
      obtain ⟨b1', hb1', cb1'⟩ := (h _).1 ⟨b1, hb1, cb1⟩
      obtain ⟨a2', ha2', ca2'⟩ := (h _).2 ⟨a2, ha2, ca2⟩
      obtain ⟨b2', hb2', cb2'⟩ := (h _).2 ⟨b2, hb2, cb2⟩
      have hmin : rg1.min = rg2.min :=
        JSNumber.le_antisymm (f1 a2' ha2' _ ca2').1 (f2 a1' ha1' _ ca1').1
      have hmax : rg1.max = rg2.max :=
        JSNumber.le_antisymm (f2 b1' hb1' _ cb1').2 (f1 b2' hb2' _ cb2').2
      cases rg1; cases rg2
      simp only at hmin hmax
      rw [hmin, hmax]

/-- The chapter numbers of a sorted batch are in non-decreasing order. -/
theorem sorted_numbers (records : List FileRecord) :
    ((arraySort sortCompare records).filterMap (fun p => p.chapterNumber)).Pairwise
      (fun a b => a ≤ b) := by
  refine List.Pairwise.filterMap _ ?_
    (arraySort_pairwise sortCompare sortCompare_total sortCompare_trans records)
  intro r r2 h b hb b2 hb2
  exact ((sortCompare_le_iff r r2).1 h).2 b b2 hb hb2

/-- C11: the `duplicate_chapters` warnings of a batch are one warning when some chapter
number occurs on two or more records and none otherwise; the values written in its message
are, each exactly once, the chapter numbers that occur at least twice, and no other value.
Two files with chapter 3 give a message that lists 3 once. -/
theorem duplicate_chapters_warning (up : Char → Char) (filepaths : List String)
    (ignoreSeparators : String) :
    (∃ result values, parseAndSortFiles up filepaths ignoreSeparators = some result ∧
      result.warnings.filter (fun w => w.type = "duplicate_chapters") =
        (if values = [] then []
         else [{ type := "duplicate_chapters", message := .duplicates values, files := none }]) ∧
      values.Nodup ∧
      (∀ v, v ∈ values ↔
        2 ≤ (result.files.filterMap (fun r => r.chapterNumber)).count v) ∧
      (values = [] ↔
        ¬ ∃ v, 2 ≤ (result.files.filterMap (fun r => r.chapterNumber)).count v)) ∧
    ∃ result2, parseAndSortFiles up ["3_a.txt", "3_b.txt"] "" = some result2 ∧
      result2.warnings =
        [{ type := "duplicate_chapters", message := .duplicates [.finite 3], files := none }] := by
  constructor
  · have hmem : ∀ v, v ∈ setOf (duplicatesFrom
        ((arraySort sortCompare (filepaths.map
          (fun fp => parsedRecord up fp ignoreSeparators))).filterMap
            (fun p => p.chapterNumber)) 0
        ((arraySort sortCompare (filepaths.map
          (fun fp => parsedRecord up fp ignoreSeparators))).filterMap
            (fun p => p.chapterNumber))) ↔
        2 ≤ ((arraySort sortCompare (filepaths.map
          (fun fp => parsedRecord up fp ignoreSeparators))).filterMap
            (fun p => p.chapterNumber)).count v := by
      intro v
      rw [mem_setOf, mem_duplicates]
    refine ⟨_, _, parseAndSortFiles_eq up filepaths ignoreSeparators, ?_, nodup_setOf _, hmem, ?_⟩
    · simp only [List.filter_append, duplicateWarning_filter_self, invalidWarning_filter_dup,
        List.nil_append]
      exact duplicateWarning_eq _
    · constructor
      · rintro h ⟨v, hv⟩
        have := (hmem v).2 hv
        rw [h] at this
        cases this
      · intro h
        apply List.eq_nil_iff_forall_not_mem.2
        intro v hv
        exact h ⟨v, (hmem v).1 hv⟩
  · refine ⟨_, parseAndSortFiles_eq up _ "", ?_⟩
    simp only [List.map, parsedRecord_noconfig up]
    decide

/-- C12 (amended): the duplicated chapter numbers are listed in ascending numerical order,
which is the order in which they are first met in the sorted `files`, not the order of the
input: chapters 5, 5, 3, 3 in that order are listed as 3, 5. -/
theorem duplicate_chapters_order (up : Char → Char) (filepaths : List String)
    (ignoreSeparators : String) :
    (∃ result, parseAndSortFiles up filepaths ignoreSeparators = some result ∧
      ∀ w ∈ result.warnings, ∀ values, w.message = .duplicates values →
        values.Pairwise (fun a b => a ≤ b ∧ a ≠ b)) ∧
    ∃ result2, parseAndSortFiles up ["5_a.txt", "5_b.txt", "3_a.txt", "3_b.txt"] "" =
        some result2 ∧
      result2.warnings =
        [{ type := "duplicate_chapters", message := .duplicates [.finite 3, .finite 5],
           files := none }] := by
  constructor
  · refine ⟨_, parseAndSortFiles_eq up filepaths ignoreSeparators, ?_⟩
    intro w hw values hvals
    simp only [List.mem_append] at hw
    rcases hw with hw | hw
    · rw [invalidWarning_eq] at hw
      split at hw
      · rw [List.mem_singleton.1 hw] at hvals
        cases hvals
      · cases hw
    · rw [duplicateWarning_eq] at hw
      split at hw
      · cases hw
      · rw [List.mem_singleton.1 hw] at hvals
        simp only [Message.duplicates.injEq] at hvals
        rw [← hvals]
        have hsub := (setOf_sublist _).trans (duplicatesFrom_sublist
          ((arraySort sortCompare (filepaths.map
            (fun fp => parsedRecord up fp ignoreSeparators))).filterMap
              (fun p => p.chapterNumber))
          ((arraySort sortCompare (filepaths.map
            (fun fp => parsedRecord up fp ignoreSeparators))).filterMap
              (fun p => p.chapterNumber)) 0)
        exact ((sorted_numbers _).sublist hsub).and (nodup_setOf _)
  · refine ⟨_, parseAndSortFiles_eq up _ "", ?_⟩
    simp only [List.map, parsedRecord_noconfig up]
    decide

/-- Chapters 5, 5, 3, 3 in that order are listed as 3, 5, although 5 is met first in the
input. -/
theorem duplicate_chapters_input_order :
    ∃ result, parseAndSortFiles (fun c => c) ["5_a.txt", "5_b.txt", "3_a.txt", "3_b.txt"] "" =
        some result ∧
      (parseFilename (fun c => c) "5_a.txt" "").map (fun r => r.chapterNumber) =
        some (some (.finite 5)) ∧
      (parseFilename (fun c => c) "3_a.txt" "").map (fun r => r.chapterNumber) =
        some (some (.finite 3)) ∧
      result.warnings =
        [{ type := "duplicate_chapters", message := .duplicates [.finite 3, .finite 5],
           files := none }] :=
  ⟨_, parseAndSortFiles_eq _ _ _, by decide, by decide, by decide⟩

/-- C13: `chapterRange` is null exactly when no record has a chapter number; otherwise its
`min` and `max` are chapter numbers of records, `min <= max`, and every chapter number lies
between them. Two batches in which the same chapter numbers occur have the same range, so
duplicates and records without chapter number do not matter. Chapters 2, 5, 1 give
`{min: 1, max: 5}`. -/
theorem chapterRange_spec (up : Char → Char) (filepaths : List String)
    (ignoreSeparators : String) :
    (∃ result, parseAndSortFiles up filepaths ignoreSeparators = some result ∧
      (result.chapterRange = none ↔ ∀ r ∈ result.files, r.chapterNumber = none) ∧
      (∀ rg, result.chapterRange = some rg →
        rg.min ≤ rg.max ∧
        (∃ r ∈ result.files, r.chapterNumber = some rg.min) ∧
        (∃ r ∈ result.files, r.chapterNumber = some rg.max) ∧
        ∀ r ∈ result.files, ∀ v, r.chapterNumber = some v → rg.min ≤ v ∧ v ≤ rg.max) ∧
      (∀ filepaths2 result2, parseAndSortFiles up filepaths2 ignoreSeparators = some result2 →
        (∀ v, (∃ r ∈ result.files, r.chapterNumber = some v) ↔
          (∃ r ∈ result2.files, r.chapterNumber = some v)) →
        result.chapterRange = result2.chapterRange)) ∧
    ∃ result3, parseAndSortFiles up ["2_a.txt", "5_b.txt", "1_c.txt"] "" = some result3 ∧
      result3.chapterRange = some { min := .finite 1, max := .finite 5 } := by
  constructor
  · refine ⟨_, parseAndSortFiles_eq up filepaths ignoreSeparators,
      (chapterRangeOf_spec _).1, (chapterRangeOf_spec _).2, ?_⟩
    intro filepaths2 result2 h2 hsame
    rw [parseAndSortFiles_eq] at h2
    simp only [Option.some.injEq] at h2
    subst h2
    exact chapterRangeOf_congr _ _ hsame
  · refine ⟨_, parseAndSortFiles_eq up _ "", ?_⟩
    simp only [List.map, parsedRecord_noconfig up]
    decide

/-! ## The fallback title -/

/-- The extension found by `path.extname` is shorter than the component: at least one
character stands before its dot. -/
theorem extOf_length_lt (comp : List Char) (h : comp ≠ []) :
    (extOf comp).length < comp.length := by
  have hpos : 0 < comp.length := List.length_pos.2 h
  have hlen := length_takeWhile_add (fun c => c != '.') comp.reverse
  rw [List.length_reverse] at hlen
  unfold extOf
  split
  · exact hpos
  · exact hpos
  · next x y rest heq =>
    rw [heq] at hlen
    split
    · exact hpos
    · simp only [List.length_cons, List.length_reverse] at hlen ⊢
      omega

theorem stem_ne_nil (p : List Char) (h : basename p ≠ []) : stem p ≠ [] := by
  have hlt := extOf_length_lt (basename p) h
  unfold stem extname
  intro hnil
  have hl := congrArg List.length hnil
  rw [List.length_take] at hl
  simp only [List.length_nil] at hl
  omega

/-- C14: for every filepath whose basename is non-empty and every custom-separator string,
`parseFilename` returns a record whose title is a non-empty string. -/
theorem title_nonempty (up : Char → Char) (filepath ignoreSeparators : String)
    (h : basename filepath.data ≠ []) :
    ∃ r, parseFilename up filepath ignoreSeparators = some r ∧ r.title ≠ "" := by
  refine ⟨_, parseFilename_eq up filepath ignoreSeparators, ?_⟩
  show String.mk _ ≠ ""
  intro he
  have he2 := congrArg String.data he
  simp only at he2
  split at he2
  · exact stem_ne_nil _ h he2
  · next hne =>
    rw [he2] at hne
    exact hne rfl

theorem title_nonempty_witness :
    basename "1.txt".data ≠ [] ∧
    ∃ r, parseFilename (fun c => c) "1.txt" "" = some r ∧ r.title ≠ "" :=
  ⟨by decide, title_nonempty (fun c => c) "1.txt" "" (by decide)⟩

/-- C15 (amended): whenever the title is empty after chapter, date, built-in separator and
custom separator removal, `parseFilename` sets the title to the basename without its
extension (the local `filename` of line 12), not to the `filename` field of the record:
`1.txt` yields the title `1`. -/
theorem title_fallback (up : Char → Char) (filepath ignoreSeparators : String)
    (h : cleanedTitle up (stem filepath.data) ignoreSeparators.data = []) :
    ∃ r, parseFilename up filepath ignoreSeparators = some r ∧
      r.title = String.mk (stem filepath.data) ∧
      r.filename = String.mk (basename filepath.data) := by
  refine ⟨_, parseFilename_eq up filepath ignoreSeparators, ?_, rfl⟩
  show String.mk _ = _
  rw [h]
  rfl

theorem title_fallback_witness :
    cleanedTitle (fun c => c) (stem "1.txt".data) "".data = [] ∧
    ∃ r, parseFilename (fun c => c) "1.txt" "" = some r ∧
      r.title = String.mk (stem "1.txt".data) ∧
      r.filename = String.mk (basename "1.txt".data) :=
  ⟨by decide, title_fallback (fun c => c) "1.txt" "" (by decide)⟩

/-- The fallback title of `1.txt` is `1`, not the `filename` field `1.txt`. -/
theorem title_fallback_not_filename :
    cleanedTitle (fun c => c) (stem "1.txt".data) "".data = [] ∧
    ∃ r, parseFilename (fun c => c) "1.txt" "" = some r ∧
      r.title = "1" ∧ r.filename = "1.txt" ∧ r.title ≠ r.filename :=
  ⟨by decide, _, parseFilename_eq _ _ _, by decide, by decide, by decide⟩

/-! ## Case-insensitive matching of ASCII characters -/

theorem asciiUpper_toNat_lt {c : Char} (h : c.toNat < 128) : (asciiUpper c).toNat < 128 := by
  unfold asciiUpper
  split
  · rw [toNat_ofNat_small _ (by omega)]; omega
  · exact h

theorem canonicalize_ascii (up : Char → Char) {c : Char} (h : c.toNat < 128) :
    canonicalize up c = asciiUpper c := by
  unfold canonicalize
  rw [if_pos h]

theorem canonicalize_not_ascii (up : Char → Char) {c : Char} (h : ¬ c.toNat < 128) :
    ¬ (canonicalize up c).toNat < 128 := by
  unfold canonicalize
  rw [if_neg h]
  split
  · exact h
  · split
    · exact h
    · next h2 => exact h2

/-- Whether a character matches an ASCII character of a case-insensitive literal does not
depend on the upper-case table of the host. -/
theorem canonicalize_beq_ascii (up : Char → Char) {c : Char} (h : c.toNat < 128) (x : Char) :
    (canonicalize up x == canonicalize up c) =
      (decide (x.toNat < 128) && (asciiUpper x == asciiUpper c)) := by
  by_cases hx : x.toNat < 128
  · rw [canonicalize_ascii up hx, canonicalize_ascii up h]
    simp [hx]
  · have h1 := canonicalize_not_ascii up hx
    have h2 := asciiUpper_toNat_lt h
    rw [canonicalize_ascii up h]
    simp only [hx, decide_False, Bool.false_and, beq_eq_false_iff_ne, ne_eq]
    intro he
    rw [he] at h1
    exact h1 h2

theorem literalItems_ascii (up : Char → Char) (s : List Char) (hs : ∀ c ∈ s, c.toNat < 128) :
    literalItems up s = literalItems (fun c => c) s := by
  induction s with
  | nil => rfl
  | cons c cs ih =>
    have hc := hs c (List.mem_cons_self _ _)
    have hf : (fun x => canonicalize up x == canonicalize up c) =
        (fun x => canonicalize (fun c => c) x == canonicalize (fun c => c) c) := by
      funext x
      rw [canonicalize_beq_ascii up hc, canonicalize_beq_ascii (fun c => c) hc]
    simp only [literalItems, hf, ih (fun d hd => hs d (List.mem_cons_of_mem _ hd))]

theorem customPattern_ascii (up : Char → Char) (s : List Char) (hs : ∀ c ∈ s, c.toNat < 128) :
    customPattern up s = customPattern (fun c => c) s := by
  unfold customPattern
  rw [literalItems_ascii up s hs]

theorem cleanCustom_ascii (up : Char → Char) (seps : List (List Char))
    (hs : ∀ s ∈ seps, ∀ c ∈ s, c.toNat < 128) : ∀ title,
    cleanCustom up title seps = cleanCustom (fun c => c) title seps := by
  induction seps with
  | nil => intro title; rfl
  | cons s seps ih =>
    intro title
    simp only [cleanCustom]
    rw [customPattern_ascii up s (hs s (List.mem_cons_self _ _)),
      ih (fun t ht => hs t (List.mem_cons_of_mem _ ht))]

theorem mem_dropWhile {p : Char → Bool} {c : Char} {s : List Char}
    (h : c ∈ s.dropWhile p) : c ∈ s :=
  (List.dropWhile_suffix p).subset h

theorem mem_trim {c : Char} {s : List Char} (h : c ∈ trim s) : c ∈ s := by
  unfold trim at h
  exact mem_dropWhile (List.mem_reverse.1 (mem_dropWhile (List.mem_reverse.1 h)))

theorem mem_splitComma (s : List Char) : ∀ p ∈ splitComma s, ∀ c ∈ p, c ∈ s := by
  induction s with
  | nil => intro p hp c hc; simp [splitComma] at hp; rw [hp] at hc; cases hc
  | cons x xs ih =>
    intro p hp c hc
    simp only [splitComma] at hp
    cases hsp : splitComma xs with
    | nil =>
      rw [hsp] at hp
      simp only [List.mem_singleton] at hp
      rw [hp] at hc
      simp only [List.mem_singleton] at hc
      rw [hc]; exact List.mem_cons_self _ _
    | cons q qs =>
      rw [hsp] at hp
      simp only at hp
      split at hp
      · rcases List.mem_cons.1 hp with h | h
        · rw [h] at hc; cases hc
        · exact List.mem_cons_of_mem _ (ih p (by rw [hsp]; exact h) c hc)
      · rcases List.mem_cons.1 hp with h | h
        · rw [h] at hc
          rcases List.mem_cons.1 hc with h2 | h2
          · rw [h2]; exact List.mem_cons_self _ _
          · exact List.mem_cons_of_mem _ (ih q (by rw [hsp]; simp) c h2)
        · exact List.mem_cons_of_mem _
            (ih p (by rw [hsp]; exact List.mem_cons_of_mem _ h) c hc)

theorem mem_customSeparators (cfg : List Char) :
    ∀ s ∈ customSeparators cfg, ∀ c ∈ s, c ∈ cfg := by
  intro s hs c hc
  unfold customSeparators at hs
  rw [List.mem_filter, List.mem_map] at hs
  obtain ⟨⟨p, hp, rfl⟩, _⟩ := hs
  exact mem_splitComma cfg p hp c (mem_trim hc)

/-- With an ASCII configuration the record does not depend on the upper-case table. -/
theorem parsedRecord_ascii (up : Char → Char) (fp cfg : String)
    (h : ∀ c ∈ cfg.data, c.toNat < 128) :
    parsedRecord up fp cfg = parsedRecord (fun c => c) fp cfg := by
  have hct : ∀ t, customTitle up t cfg.data = customTitle (fun c => c) t cfg.data := by
    intro t
    unfold customTitle
    split
    · rfl
    · exact cleanCustom_ascii up _
        (fun s hs c hc => h c (mem_customSeparators cfg.data s hs c hc)) t
  unfold parsedRecord cleanedTitle
  simp only [hct]

/-- C18: with the custom-separator configuration `##`, `1_## My Title ##.txt` gets the title
`My Title`: the residual title `## My Title ##` loses the leading and the trailing token with
the whitespace around them. -/
theorem hash_separator_example (up : Char → Char) :
    removeBuiltinSeparators
        (residualTitle (stem "1_## My Title ##.txt".data)
          (chapterOf (stem "1_## My Title ##.txt".data))
          (findDate (stem "1_## My Title ##.txt".data) datePatterns)) =
      "## My Title ##".data ∧
    customTitle up "## My Title ##".data "##".data = "My Title".data ∧
    parseFilename up "1_## My Title ##.txt" "##" =
      some
        { filepath := "1_## My Title ##.txt"
          filename := "1_## My Title ##.txt"
          chapterNumber := some (.finite 1)
          dateString := none
          title := "My Title"
          isValid := true } := by
  refine ⟨by decide, ?_, ?_⟩
  · have : customTitle up "## My Title ##".data "##".data =
        customTitle (fun c => c) "## My Title ##".data "##".data := by
      unfold customTitle
      rw [if_neg (by decide)]
      rw [if_neg (by decide)]
      exact cleanCustom_ascii up _
        (fun s hs c hc => by
          have := mem_customSeparators "##".data s hs c hc
          simp only [List.mem_cons, List.mem_singleton] at this
          rcases this with rfl | rfl | h
          · decide
          · decide
          · cases h) _
    rw [this]
    decide
  · rw [parseFilename_eq, parsedRecord_ascii up _ _ (by decide)]
    decide

/-! ## Custom separators are literal text -/

theorem occursCI_of_suffix (up : Char → Char) (s post : List Char)
    (h : matchesCI up s post = true) : ∀ pre, occursCI up s (pre ++ post) = true := by
  intro pre
  induction pre with
  | nil =>
    cases post with
    | nil => exact h
    | cons c cs => simp only [List.nil_append, occursCI, h, Bool.true_or]
  | cons c pre ih =>
    show (matchesCI up s (c :: (pre ++ post)) || occursCI up s (pre ++ post)) = true
    rw [ih, Bool.or_true]

theorem occursCI_iff (up : Char → Char) (s : List Char) : ∀ t,
    occursCI up s t = true ↔ ∃ pre post, t = pre ++ post ∧ matchesCI up s post = true := by
  intro t
  constructor
  · induction t with
    | nil => intro h; exact ⟨[], [], rfl, h⟩
    | cons c cs ih =>
      intro h
      simp only [occursCI, Bool.or_eq_true] at h
      rcases h with h | h
      · exact ⟨[], c :: cs, rfl, h⟩
      · obtain ⟨pre, post, h1, h2⟩ := ih h
        exact ⟨c :: pre, post, by rw [h1]; rfl, h2⟩
  · rintro ⟨pre, post, rfl, h⟩
    exact occursCI_of_suffix up s post h pre

theorem literal_match (up : Char → Char) (tl : List Item) : ∀ (s : List Char) (x y : Pos),
    y ∈ (itemsRe (literalItems up s ++ tl)).ends x → matchesCI up s x.after = true := by
  intro s
  induction s with
  | nil => intro x y _; rfl
  | cons c cs ih =>
    intro x y hy
    obtain ⟨b, a⟩ := x
    cases a with
    | nil =>
      simp only [literalItems, List.cons_append, itemsRe] at hy
      split at hy <;> simp [Re.ends] at hy
    | cons d ds =>
      simp only [literalItems, List.cons_append, itemsRe] at hy
      by_cases hsc : isSyntaxChar c = true
      · simp only [hsc, if_true, Bool.false_eq_true, if_false, ends_seq, ends_chr_cons] at hy
        by_cases hd : (d == c) = true
        · simp only [hd, if_true, List.flatMap_cons, List.flatMap_nil, List.append_nil] at hy
          have := ih _ _ hy
          simp only [matchesCI, this, Bool.and_true]
          rw [beq_iff_eq] at hd
          rw [hd]
          exact beq_self_eq_true _
        · simp only [hd, Bool.false_eq_true, if_false, List.flatMap_nil,
            List.not_mem_nil] at hy
      · simp only [hsc, if_false, Bool.false_eq_true, ends_seq, ends_chr_cons] at hy
        by_cases hd : (canonicalize up d == canonicalize up c) = true
        · simp only [hd, if_true, List.flatMap_cons, List.flatMap_nil, List.append_nil] at hy
          have := ih _ _ hy
          simp only [matchesCI, this, Bool.and_true, hd]
        · simp only [hd, Bool.false_eq_true, if_false, List.flatMap_nil,
            List.not_mem_nil] at hy

/-- Every end position of `p*` is reached by consuming characters of the class `p`. -/
theorem mem_backoff (p : Char → Bool) : ∀ (a b : List Char) (z : Pos), z ∈ backoff p b a →
    ∃ m, a = m ++ z.after ∧ (∀ c ∈ m, p c = true) ∧ z.before = m.reverse ++ b := by
  intro a
  induction a with
  | nil =>
    intro b z hz
    simp only [backoff, List.mem_singleton] at hz
    exact ⟨[], by rw [hz]; rfl, by simp, by rw [hz]; rfl⟩
  | cons c cs ih =>
    intro b z hz
    simp only [backoff] at hz
    split at hz
    · next hc =>
      rcases List.mem_append.1 hz with h | h
      · obtain ⟨m, h1, h2, h3⟩ := ih _ _ h
        refine ⟨c :: m, by rw [List.cons_append, ← h1], ?_, ?_⟩
        · intro d hd
          rcases List.mem_cons.1 hd with rfl | hd
          · exact hc
          · exact h2 d hd
        · rw [h3]; simp
      · simp only [List.mem_singleton] at h
        exact ⟨[], by rw [h]; rfl, by simp, by rw [h]; rfl⟩
    · simp only [List.mem_singleton] at hz
      exact ⟨[], by rw [hz]; rfl, by simp, by rw [hz]; rfl⟩

/-- Where the matcher of a separator matches, the separator stands as literal text after
the whitespace the match begins with. -/
theorem custom_match_literal (up : Char → Char) (s : List Char) (x y : Pos)
    (hy : y ∈ (customPattern up s).ends x) :
    ∃ m post, x.after = m ++ post ∧ (∀ c ∈ m, isSpace c = true) ∧
      matchesCI up s post = true := by
  unfold customPattern at hy
  simp only [itemsRe, if_true, ends_seq, List.mem_flatMap] at hy
  obtain ⟨z, hz, hy⟩ := hy
  obtain ⟨b, a⟩ := x
  have hz2 : z ∈ backoff isSpace b a := by
    have := ends_star_chr isSpace b a
    unfold reSpace at hz
    rw [this] at hz
    exact hz
  have hlit := literal_match up _ s z y hy
  obtain ⟨m, h1, h2⟩ := mem_backoff isSpace a b z hz2
  exact ⟨m, z.after, h1, h2.1, hlit⟩

theorem execFrom_custom_none (up : Char → Char) (s t : List Char)
    (h : occursCI up s t = false) : ∀ b, execFrom (customPattern up s) b t = none := by
  intro b
  apply execFrom_none_of_nil
  intro pre post hsplit
  apply List.eq_nil_iff_forall_not_mem.2
  intro y hy
  obtain ⟨m, post2, h1, _, h3⟩ := custom_match_literal up s _ y hy
  simp only at h1
  have : occursCI up s t = true := by
    rw [hsplit, h1, ← List.append_assoc]
    exact occursCI_of_suffix up s post2 h3 _
  rw [h] at this
  cases this

theorem head_dropWhile_not (p : Char → Bool) (s : List Char) :
    ∀ c ∈ (s.dropWhile p).head?, p c = false := by
  induction s with
  | nil => intro c hc; cases hc
  | cons x xs ih =>
    intro c hc
    by_cases hx : p x = true
    · rw [List.dropWhile_cons_of_pos hx] at hc
      exact ih c hc
    · rw [List.dropWhile_cons_of_neg hx] at hc
      simp only [List.head?_cons, Option.mem_def, Option.some.injEq] at hc
      rw [← hc]
      simpa using hx

theorem getLast_dropWhile (p : Char → Bool) (s : List Char) :
    ∀ c ∈ (s.dropWhile p).getLast?, c ∈ s.getLast? := by
  intro c hc
  obtain ⟨pre, hpre⟩ := List.dropWhile_suffix p (l := s)
  cases hd : s.dropWhile p with
  | nil => rw [hd] at hc; cases hc
  | cons x xs =>
    rw [hd] at hc hpre
    rw [← hpre, List.getLast?_append_of_ne_nil _ (List.cons_ne_nil x xs)]
    exact hc

theorem trim_head (s : List Char) : ∀ c ∈ (trim s).head?, isSpace c = false := by
  intro c hc
  unfold trim at hc
  rw [List.head?_reverse] at hc
  have h1 := getLast_dropWhile isSpace _ c hc
  rw [List.getLast?_reverse] at h1
  exact head_dropWhile_not isSpace s c h1

theorem trim_last (s : List Char) : ∀ c ∈ (trim s).getLast?, isSpace c = false := by
  intro c hc
  unfold trim at hc
  rw [List.getLast?_reverse] at hc
  exact head_dropWhile_not isSpace _ c hc

theorem trim_trim (s : List Char) : trim (trim s) = trim s :=
  trim_eq_self _ (trim_head s) (trim_last s)

theorem splitComma_plain (s : List Char) (h : ',' ∉ s) : splitComma s = [s] := by
  induction s with
  | nil => rfl
  | cons c cs ih =>
    have h1 : ',' ∉ cs := fun hm => h (List.mem_cons_of_mem _ hm)
    have h2 : (c == ',') = false := by
      rw [beq_eq_false_iff_ne]
      intro hc
      exact h (by rw [hc]; exact List.mem_cons_self _ _)
    simp only [splitComma, ih h1, h2, Bool.false_eq_true, if_false]

theorem customSeparators_single (s : List Char) (hne : s ≠ []) (hcomma : ',' ∉ s)
    (htrim : trim s = s) : customSeparators s = [s] := by
  unfold customSeparators
  rw [splitComma_plain s hcomma]
  simp only [List.map, htrim]
  cases s with
  | nil => exact absurd rfl hne
  | cons c cs => rfl

theorem removeBuiltinSeparators_trimmed (t : List Char) :
    trim (removeBuiltinSeparators t) = removeBuiltinSeparators t := by
  unfold removeBuiltinSeparators
  exact trim_trim _

/-- A separator that does not occur in the title leaves the title as it is. -/
theorem customTitle_absent (up : Char → Char) (title s : List Char) (hne : s ≠ [])
    (hcomma : ',' ∉ s) (htrim : trim s = s) (htitle : trim title = title)
    (h : occursCI up s title = false) : customTitle up title s = title := by
  unfold customTitle
  rw [htrim, customSeparators_single s hne hcomma htrim]
  have : s.isEmpty = false := by cases s with
    | nil => exact absurd rfl hne
    | cons c cs => rfl
  simp only [this, Bool.false_eq_true, if_false, cleanCustom]
  rw [replaceAll_of_none _ _ _ (execFrom_custom_none up s title h []), htitle]

theorem occursCI_nil (up : Char → Char) (s : List Char) (hne : s ≠ []) :
    occursCI up s [] = false := by
  cases s with
  | nil => exact absurd rfl hne
  | cons c cs => rfl

/-- C16: custom separator tokens are matched as literal text. For a non-empty, comma-free,
trimmed token the matcher is always built (`parseFilename` returns a record), and when the
title computed without custom separators has no case-insensitive literal occurrence of the
token, the title computed with the token is the same; this holds for tokens made of
pattern-special characters too. -/
theorem custom_separator_literal (up : Char → Char) (filepath token : String)
    (hne : token.data ≠ []) (hcomma : ',' ∉ token.data)
    (htrim : trim token.data = token.data) :
    (compileRegExp up ("\\s*".data ++ escapeRegExp token.data ++ "\\s*".data)).isSome = true ∧
    ∃ r r0, parseFilename up filepath token = some r ∧
      parseFilename up filepath "" = some r0 ∧
      (occursCI up token.data r0.title.data = false → r.title = r0.title) := by
  refine ⟨by rw [compileRegExp_custom]; rfl, _, _, parseFilename_eq up filepath token,
    parseFilename_eq up filepath "", ?_⟩
  intro h
  have ht0 := removeBuiltinSeparators_trimmed
    (residualTitle (stem filepath.data) (chapterOf (stem filepath.data))
      (findDate (stem filepath.data) datePatterns))
  simp only [parsedRecord, cleanedTitle, customTitle_nil] at h ⊢
  generalize removeBuiltinSeparators
    (residualTitle (stem filepath.data) (chapterOf (stem filepath.data))
      (findDate (stem filepath.data) datePatterns)) = t0 at h ht0 ⊢
  cases t0 with
  | nil =>
    rw [customTitle_absent up [] token.data hne hcomma htrim ht0
      (occursCI_nil up token.data hne)]
  | cons c cs =>
    simp only [List.isEmpty_cons, Bool.false_eq_true, if_false] at h
    rw [customTitle_absent up (c :: cs) token.data hne hcomma htrim ht0 h]

theorem custom_separator_literal_witness :
    ((compileRegExp (fun c => c)
        ("\\s*".data ++ escapeRegExp ".*".data ++ "\\s*".data)).isSome = true ∧
      ∃ r r0, parseFilename (fun c => c) "1_My Title.txt" ".*" = some r ∧
        parseFilename (fun c => c) "1_My Title.txt" "" = some r0 ∧
        (occursCI (fun c => c) ".*".data r0.title.data = false → r.title = r0.title)) ∧
    occursCI (fun c => c) ".*".data "My Title".data = false ∧
    (parseFilename (fun c => c) "1_My Title.txt" ".*").map (fun r => r.title) =
      some "My Title" ∧
    (parseFilename (fun c => c) "1_My Title.txt" ".").map (fun r => r.title) =
      some "My Title" :=
  ⟨custom_separator_literal (fun c => c) "1_My Title.txt" ".*" (by decide) (by decide)
    (by decide), by decide, by decide, by decide⟩

/-! ## One round of a global replacement -/

theorem take_append_sub (pre post : List Char) :
    (pre ++ post).take ((pre ++ post).length - post.length) = pre := by
  rw [List.length_append, Nat.add_sub_cancel]
  exact List.take_left' rfl

/-- What `execFrom` returns, with the matched text made explicit. -/
theorem execFrom_some_split (r : Re) (b s : List Char) (st e : Pos)
    (h : execFrom r b s = some (st, e)) :
    ∃ pre m, s = pre ++ (m ++ e.after) ∧ st = ⟨pre.reverse ++ b, m ++ e.after⟩ ∧
      e.before = m.reverse ++ (pre.reverse ++ b) ∧ e ∈ r.ends st ∧
      ∀ pre2 post2, s = pre2 ++ post2 → pre2.length < pre.length →
        r.ends ⟨pre2.reverse ++ b, post2⟩ = [] := by
  obtain ⟨pre, post, h1, h2, h3, h4⟩ := execFrom_some r s b st e h
  have he : e ∈ r.ends st := List.mem_of_mem_head? h3
  obtain ⟨m, hm1, hm2⟩ := ends_advances r st e he
  rw [h2] at hm1 hm2
  simp only at hm1 hm2
  refine ⟨pre, m, by rw [h1, hm1], by rw [h2, hm1], hm2, he, h4⟩

/-- The first round of the loop of a global replacement whose match is not empty. -/
theorem replaceAllFrom_cons_match (r : Re) (repl : List Char) (n : Nat) (b s : List Char)
    (st e : Pos) (pre m : List Char) (h : execFrom r b s = some (st, e))
    (hs : s = pre ++ (m ++ e.after)) (hst : st = ⟨pre.reverse ++ b, m ++ e.after⟩)
    (hm : m ≠ []) :
    replaceAllFrom r repl (n + 1) b s =
      pre ++ repl ++ replaceAllFrom r repl n e.before e.after := by
  have hlen : ¬ e.after.length = st.after.length := by
    rw [hst]
    simp only [List.length_append]
    have := List.length_pos.2 hm
    omega
  have hsk : s.take (s.length - st.after.length) = pre := by
    rw [hst, hs]
    exact take_append_sub pre (m ++ e.after)
  simp only [replaceAllFrom, h, hlen, if_false, hsk]

/-- The first round of the loop of a global replacement whose match is empty. -/
theorem replaceAllFrom_nil_match (r : Re) (repl : List Char) (n : Nat) (b s : List Char)
    (st e : Pos) (pre : List Char) (h : execFrom r b s = some (st, e))
    (hs : s = pre ++ e.after) (hst : st = ⟨pre.reverse ++ b, e.after⟩) :
    replaceAllFrom r repl (n + 1) b s =
      pre ++ repl ++
        (match e.after with
         | [] => []
         | c :: cs => c :: replaceAllFrom r repl n (c :: e.before) cs) := by
  have hlen : e.after.length = st.after.length := by rw [hst]
  have hsk : s.take (s.length - st.after.length) = pre := by
    rw [hst, hs]
    exact take_append_sub pre e.after
  simp only [replaceAllFrom, h, hlen, if_true, hsk]
  cases e.after with
  | nil => simp
  | cons c cs => simp

/-! ## Occurrences of a token without whitespace -/

theorem asciiUpper_eq_of_not_upper {x c : Char} (hc : ¬ (65 ≤ c.toNat ∧ c.toNat ≤ 90))
    (h : asciiUpper x = c) : x = c := by
  unfold asciiUpper at h
  split at h
  · next hx =>
    exfalso
    apply hc
    rw [← h, toNat_ofNat_small _ (by omega)]
    omega
  · exact h

/-- A character that folds to the same character as an ASCII character which is not a
letter is that character. -/
theorem canonicalize_eq_plain (up : Char → Char) {x c : Char} (hc : c.toNat < 128)
    (hn : ¬ (65 ≤ c.toNat ∧ c.toNat ≤ 90)) (hl : ¬ (97 ≤ c.toNat ∧ c.toNat ≤ 122))
    (h : (canonicalize up x == canonicalize up c) = true) : x = c := by
  rw [canonicalize_beq_ascii up hc] at h
  simp only [Bool.and_eq_true, decide_eq_true_eq, beq_iff_eq] at h
  have hcu : asciiUpper c = c := by
    unfold asciiUpper
    rw [if_neg hl]
  rw [hcu] at h
  exact asciiUpper_eq_of_not_upper hn h.2

theorem syntaxChar_plain {c : Char} (h : isSyntaxChar c = true) :
    c.toNat < 128 ∧ ¬ (65 ≤ c.toNat ∧ c.toNat ≤ 90) ∧ ¬ (97 ≤ c.toNat ∧ c.toNat ≤ 122) := by
  have hall : ∀ d ∈ ".*+?^$\x7b\x7d()|[]\\".data,
      d.toNat < 128 ∧ ¬ (65 ≤ d.toNat ∧ d.toNat ≤ 90) ∧ ¬ (97 ≤ d.toNat ∧ d.toNat ≤ 122) := by
    decide
  apply hall
  unfold isSyntaxChar at h
  simpa using h

theorem matchesCI_append (up : Char → Char) : ∀ (w t zs : List Char),
    matchesCI up w t = true → matchesCI up w (t ++ zs) = true := by
  intro w
  induction w with
  | nil => intro t zs _; rfl
  | cons a w ih =>
    intro t zs h
    cases t with
    | nil => cases h
    | cons x t =>
      simp only [matchesCI, Bool.and_eq_true] at h
      show (canonicalize up x == canonicalize up a && matchesCI up w (t ++ zs)) = true
      rw [h.1, ih t zs h.2]
      rfl

theorem matchesCI_space (up : Char → Char) (a : Char) (w ys : List Char)
    (ha : isSpace a = false) : matchesCI up (a :: w) (' ' :: ys) = false := by
  simp only [matchesCI, Bool.and_eq_false_imp]
  intro h
  exfalso
  have h2 : (canonicalize up a == canonicalize up ' ') = true := by
    rw [beq_iff_eq] at h ⊢
    exact h.symm
  have := canonicalize_eq_plain up (c := ' ') (by decide) (by decide) (by decide) h2
  rw [this] at ha
  revert ha
  decide

theorem matchesCI_before_space (up : Char → Char) : ∀ (w xs ys : List Char),
    (∀ c ∈ w, isSpace c = false) → matchesCI up w (xs ++ ' ' :: ys) = true →
    matchesCI up w xs = true := by
  intro w
  induction w with
  | nil => intro xs ys _ _; rfl
  | cons a w ih =>
    intro xs ys hw h
    cases xs with
    | nil =>
      rw [List.nil_append, matchesCI_space up a w ys (hw a (List.mem_cons_self _ _))] at h
      cases h
    | cons x xs =>
      simp only [List.cons_append, matchesCI, Bool.and_eq_true] at h
      simp only [matchesCI, h.1, Bool.true_and]
      exact ih xs ys (fun c hc => hw c (List.mem_cons_of_mem _ hc)) h.2

theorem occursCI_append_left (up : Char → Char) (w xs zs : List Char)
    (h : occursCI up w xs = true) : occursCI up w (xs ++ zs) = true := by
  obtain ⟨pre, post, h1, h2⟩ := (occursCI_iff up w xs).1 h
  rw [h1, List.append_assoc]
  exact occursCI_of_suffix up w _ (matchesCI_append up w post zs h2) pre

theorem occursCI_append_right (up : Char → Char) (w xs zs : List Char)
    (h : occursCI up w zs = true) : occursCI up w (xs ++ zs) = true := by
  obtain ⟨pre, post, h1, h2⟩ := (occursCI_iff up w zs).1 h
  rw [h1, ← List.append_assoc]
  exact occursCI_of_suffix up w _ h2 _

/-- An occurrence of a token without whitespace lies on one side of a space. -/
theorem occursCI_space_split (up : Char → Char) (w : List Char)
    (hw : ∀ c ∈ w, isSpace c = false) : ∀ (xs ys : List Char),
    occursCI up w (xs ++ ' ' :: ys) = true →
    occursCI up w xs = true ∨ occursCI up w ys = true := by
  intro xs
  induction xs with
  | nil =>
    intro ys h
    simp only [List.nil_append, occursCI, Bool.or_eq_true] at h
    rcases h with h | h
    · left
      cases w with
      | nil => rfl
      | cons a w =>
        rw [matchesCI_space up a w ys (hw a (List.mem_cons_self _ _))] at h
        cases h
    · exact Or.inr h
  | cons x xs ih =>
    intro ys h
    simp only [List.cons_append, occursCI, Bool.or_eq_true] at h
    rcases h with h | h
    · left
      have := matchesCI_before_space up w (x :: xs) ys hw h
      simp only [occursCI, this, Bool.true_or]
    · rcases ih ys h with h2 | h2
      · left
        simp only [occursCI, h2, Bool.or_true]
      · exact Or.inr h2

/-- Replacing matches by a space creates no occurrence of a token without whitespace. -/
theorem replaceAllFrom_occurs (up : Char → Char) (r : Re) (w : List Char)
    (hw : ∀ c ∈ w, isSpace c = false) : ∀ (n : Nat) (b s pfx : List Char),
    occursCI up w (pfx ++ replaceAllFrom r [' '] n b s) = true →
    occursCI up w (pfx ++ s) = true := by
  intro n
  induction n with
  | zero => intro b s pfx h; exact h
  | succ n ih =>
    intro b s pfx h
    cases hex : execFrom r b s with
    | none => rw [replaceAllFrom_of_none r _ _ b s hex] at h; exact h
    | some se =>
      obtain ⟨st, e⟩ := se
      obtain ⟨pre, m, hs, hst, hbe, _, _⟩ := execFrom_some_split r b s st e hex
      by_cases hm : m = []
      · rw [hm, List.nil_append] at hs hst
        rw [replaceAllFrom_nil_match r _ n b s st e pre hex hs hst] at h
        rw [List.append_assoc, ← List.append_assoc, List.singleton_append] at h
        rcases occursCI_space_split up w hw _ _ h with h2 | h2
        · rw [hs, ← List.append_assoc]
          exact occursCI_append_left up w _ _ h2
        · rw [hs, ← List.append_assoc]
          apply occursCI_append_right
          cases hea : e.after with
          | nil => rw [hea] at h2; exact h2
          | cons c cs =>
            rw [hea] at h2
            simp only at h2
            have := ih (c :: e.before) cs [c] h2
            exact this
      · rw [replaceAllFrom_cons_match r _ n b s st e pre m hex hs hst hm] at h
        rw [List.append_assoc, ← List.append_assoc, List.singleton_append] at h
        rcases occursCI_space_split up w hw _ _ h with h2 | h2
        · rw [hs, ← List.append_assoc]
          exact occursCI_append_left up w _ _ h2
        · rw [hs, ← List.append_assoc, ← List.append_assoc]
          apply occursCI_append_right
          exact ih e.before e.after [] h2

theorem replaceAll_occurs (up : Char → Char) (r : Re) (w : List Char)
    (hw : ∀ c ∈ w, isSpace c = false) (s : List Char)
    (h : occursCI up w (replaceAll r [' '] s) = true) : occursCI up w s = true :=
  replaceAllFrom_occurs up r w hw (s.length + 1) [] s [] h

/-! ## Every occurrence of a token without whitespace is removed -/

theorem backoff_self (p : Char → Bool) : ∀ (a b : List Char), ⟨b, a⟩ ∈ backoff p b a := by
  intro a b
  cases a with
  | nil => simp [backoff]
  | cons c cs =>
    simp only [backoff]
    split <;> simp

theorem ends_spaces_tail_ne_nil (z : Pos) :
    (itemsRe [⟨reSpace, true⟩]).ends z ≠ [] := by
  obtain ⟨b, a⟩ := z
  simp only [itemsRe, if_true, ends_seq]
  intro h
  have hmem : (⟨b, a⟩ : Pos) ∈ (Re.star reSpace).ends ⟨b, a⟩ := by
    unfold reSpace
    rw [ends_star_chr]
    exact backoff_self isSpace a b
  have : (⟨b, a⟩ : Pos) ∈ ((Re.star reSpace).ends ⟨b, a⟩).flatMap Re.empty.ends :=
    List.mem_flatMap.2 ⟨_, hmem, by simp [Re.ends]⟩
  rw [h] at this
  cases this

theorem literal_ends_ne_nil (up : Char → Char) (tl : List Item)
    (htl : ∀ z, (itemsRe tl).ends z ≠ []) : ∀ (s post b : List Char),
    matchesCI up s post = true →
    (itemsRe (literalItems up s ++ tl)).ends ⟨b, post⟩ ≠ [] := by
  intro s
  induction s with
  | nil => intro post b _; exact htl _
  | cons c cs ih =>
    intro post b h
    cases post with
    | nil => cases h
    | cons d ds =>
      simp only [matchesCI, Bool.and_eq_true] at h
      have hrest := ih ds (d :: b) h.2
      simp only [literalItems, List.cons_append, itemsRe]
      by_cases hsc : isSyntaxChar c = true
      · obtain ⟨h1, h2, h3⟩ := syntaxChar_plain hsc
        have hd : (d == c) = true := by
          rw [beq_iff_eq]
          exact canonicalize_eq_plain up h1 h2 h3 h.1
        simp only [hsc, if_true, Bool.false_eq_true, if_false, ends_seq, ends_chr_cons, hd,
          List.flatMap_cons, List.flatMap_nil, List.append_nil]
        exact hrest
      · simp only [hsc, if_false, Bool.false_eq_true, ends_seq, ends_chr_cons, h.1, if_true,
          List.flatMap_cons, List.flatMap_nil, List.append_nil]
        exact hrest

/-- Where the separator stands as literal text, its matcher matches. -/
theorem custom_ends_ne_nil (up : Char → Char) (s post b : List Char)
    (h : matchesCI up s post = true) : (customPattern up s).ends ⟨b, post⟩ ≠ [] := by
  unfold customPattern
  simp only [itemsRe, if_true, ends_seq]
  intro hnil
  have hmem : (⟨b, post⟩ : Pos) ∈ (Re.star reSpace).ends ⟨b, post⟩ := by
    unfold reSpace
    rw [ends_star_chr]
    exact backoff_self isSpace post b
  have hne := literal_ends_ne_nil up [⟨reSpace, true⟩] ends_spaces_tail_ne_nil s post b h
  obtain ⟨y, hy⟩ := List.exists_mem_of_ne_nil _ hne
  have : y ∈ ((Re.star reSpace).ends ⟨b, post⟩).flatMap
      (itemsRe (literalItems up s ++ [⟨reSpace, true⟩])).ends :=
    List.mem_flatMap.2 ⟨_, hmem, hy⟩
  rw [hnil] at this
  cases this

theorem advances_length {x y : Pos} (h : Advances x y) : y.after.length ≤ x.after.length := by
  obtain ⟨m, h1, _⟩ := h
  rw [h1, List.length_append]
  omega

theorem literal_match_length (up : Char → Char) (tl : List Item) :
    ∀ (s : List Char) (x y : Pos), y ∈ (itemsRe (literalItems up s ++ tl)).ends x →
    y.after.length + s.length ≤ x.after.length := by
  intro s
  induction s with
  | nil =>
    intro x y hy
    exact advances_length (ends_advances _ x y hy)
  | cons c cs ih =>
    intro x y hy
    simp only [literalItems, List.cons_append, itemsRe] at hy
    have hy2 : ∃ p, y ∈ ((Re.chr p).ends x).flatMap
        (itemsRe (literalItems up cs ++ tl)).ends := by
      split at hy
      · exact ⟨_, hy⟩
      · exact ⟨_, hy⟩
    obtain ⟨p, hy2⟩ := hy2
    obtain ⟨z, hz, hyz⟩ := List.mem_flatMap.1 hy2
    have h1 := ih z y hyz
    obtain ⟨b, a⟩ := x
    cases a with
    | nil => simp [Re.ends] at hz
    | cons d ds =>
      rw [ends_chr_cons] at hz
      split at hz
      · simp only [List.mem_singleton] at hz
        rw [hz] at h1
        simp only [List.length_cons] at h1 ⊢
        omega
      · cases hz

theorem custom_match_nonempty (up : Char → Char) (s : List Char) (hs : s ≠ []) (x y : Pos)
    (hy : y ∈ (customPattern up s).ends x) : y.after.length < x.after.length := by
  unfold customPattern at hy
  simp only [itemsRe, if_true, ends_seq] at hy
  obtain ⟨z, hz, hyz⟩ := List.mem_flatMap.1 hy
  have h1 := advances_length (ends_advances _ x z hz)
  have h2 := literal_match_length up _ s z y hyz
  have := List.length_pos.2 hs
  omega

theorem occursCI_of_execFrom_none (up : Char → Char) (s t b : List Char)
    (h : execFrom (customPattern up s) b t = none) : occursCI up s t = false := by
  rw [Bool.eq_false_iff]
  intro hocc
  obtain ⟨pre, post, h1, h2⟩ := (occursCI_iff up s t).1 hocc
  exact custom_ends_ne_nil up s post _ h2 (execFrom_none _ t b h pre post h1)

/-- After the global replacement of the matcher of a token without whitespace, the token
does not occur any more. -/
theorem replaceAllFrom_custom_clean (up : Char → Char) (s : List Char) (hs : s ≠ [])
    (hw : ∀ c ∈ s, isSpace c = false) : ∀ (n : Nat) (b t : List Char), t.length < n →
    occursCI up s (replaceAllFrom (customPattern up s) [' '] n b t) = false := by
  intro n
  induction n with
  | zero => intro b t h; omega
  | succ n ih =>
    intro b t hlen
    cases hex : execFrom (customPattern up s) b t with
    | none =>
      rw [replaceAllFrom_of_none _ _ _ b t hex]
      exact occursCI_of_execFrom_none up s t b hex
    | some se =>
      obtain ⟨st, e⟩ := se
      obtain ⟨pre, m, ht, hst, hbe, hmem, hmin⟩ := execFrom_some_split _ b t st e hex
      have hm : m ≠ [] := by
        intro hm
        have := custom_match_nonempty up s hs st e hmem
        rw [hst, hm] at this
        simp at this
      rw [replaceAllFrom_cons_match _ _ n b t st e pre m hex ht hst hm]
      rw [Bool.eq_false_iff]
      intro hocc
      rw [List.append_assoc, List.singleton_append] at hocc
      rcases occursCI_space_split up s hw _ _ hocc with h2 | h2
      · obtain ⟨p1, p2, h3, h4⟩ := (occursCI_iff up s pre).1 h2
        have hp2 : p2 ≠ [] := by
          intro hp2
          rw [hp2] at h4
          cases s with
          | nil => exact hs rfl
          | cons a s => cases h4
        have hlt : p1.length < pre.length := by
          rw [h3, List.length_append]
          have := List.length_pos.2 hp2
          omega
        have := hmin p1 (p2 ++ (m ++ e.after)) (by rw [ht, h3, List.append_assoc]) hlt
        exact custom_ends_ne_nil up s _ _ (matchesCI_append up s p2 _ h4) this
      · have hl : e.after.length < n := by
          rw [ht] at hlen
          simp only [List.length_append] at hlen
          have := List.length_pos.2 hm
          omega
        rw [ih e.before e.after hl] at h2
        cases h2

theorem replaceAll_custom_clean (up : Char → Char) (s : List Char) (hs : s ≠ [])
    (hw : ∀ c ∈ s, isSpace c = false) (t : List Char) :
    occursCI up s (replaceAll (customPattern up s) [' '] t) = false :=
  replaceAllFrom_custom_clean up s hs hw (t.length + 1) [] t (Nat.lt_succ_self _)

theorem trim_infix (s : List Char) : ∃ a b, s = a ++ (trim s ++ b) := by
  obtain ⟨a, ha⟩ := List.dropWhile_suffix isSpace (l := s)
  obtain ⟨c, hc⟩ := List.dropWhile_suffix isSpace (l := (s.dropWhile isSpace).reverse)
  refine ⟨a, c.reverse, ?_⟩
  unfold trim
  rw [← List.reverse_append, hc, List.reverse_reverse, ha]

theorem occursCI_trim (up : Char → Char) (w s : List Char)
    (h : occursCI up w (trim s) = true) : occursCI up w s = true := by
  obtain ⟨a, b, hab⟩ := trim_infix s
  rw [hab]
  exact occursCI_append_right up w _ _ (occursCI_append_left up w _ _ h)

theorem cleanCustom_absent (up : Char → Char) (w : List Char) (hne : w ≠ [])
    (hw : ∀ c ∈ w, isSpace c = false) : ∀ (seps : List (List Char)) (t : List Char),
    (w ∈ seps ∨ occursCI up w t = false) → occursCI up w (cleanCustom up t seps) = false := by
  intro seps
  induction seps with
  | nil =>
    intro t h
    rcases h with h | h
    · cases h
    · exact h
  | cons s seps ih =>
    intro t h
    simp only [cleanCustom]
    apply ih
    by_cases hws : w = s
    · right
      rw [Bool.eq_false_iff]
      intro hocc
      have h1 := occursCI_trim up w _ hocc
      rw [← hws, replaceAll_custom_clean up w hne hw t] at h1
      cases h1
    · rcases h with h | h
      · rcases List.mem_cons.1 h with h | h
        · exact absurd h hws
        · exact Or.inl h
      · right
        rw [Bool.eq_false_iff]
        intro hocc
        have h1 := replaceAll_occurs up _ w hw t (occursCI_trim up w _ hocc)
        rw [h] at h1
        cases h1

theorem mem_customSeparators_ne_nil (cfg s : List Char) (h : s ∈ customSeparators cfg) :
    s ≠ [] := by
  unfold customSeparators at h
  have := (List.mem_filter.1 h).2
  intro hs
  rw [hs] at this
  cases this

theorem trim_eq_nil (s : List Char) (h : trim s = []) : ∀ c ∈ s, isSpace c = true := by
  unfold trim at h
  rw [List.reverse_eq_nil_iff, List.dropWhile_eq_nil_iff] at h
  have hd : s.dropWhile isSpace = [] := by
    cases hD : s.dropWhile isSpace with
    | nil => rfl
    | cons x xs =>
      exfalso
      have h1 := head_dropWhile_not isSpace s x (by rw [hD]; rfl)
      have h2 := h x (by rw [hD]; simp)
      rw [h1] at h2
      cases h2
  exact List.dropWhile_eq_nil_iff.1 hd

theorem customSeparators_blank (cfg : List Char) (h : (trim cfg).isEmpty = true) :
    customSeparators cfg = [] := by
  have ht : trim cfg = [] := List.isEmpty_iff.1 h
  have hc : ',' ∉ cfg := by
    intro hm
    have := trim_eq_nil cfg ht ',' hm
    revert this
    decide
  unfold customSeparators
  rw [splitComma_plain cfg hc]
  simp only [List.map, ht]
  rfl

/-- C17 (amended): when the cleaned title is not empty, the title contains no
case-insensitive occurrence of any custom token that has no whitespace character in it.
A token with inner whitespace can survive: replacing matches by a space can build a new
occurrence, as in title `a a b b` with token `a b`. -/
theorem custom_tokens_removed (up : Char → Char) (filepath ignoreSeparators : String)
    (hne : cleanedTitle up (stem filepath.data) ignoreSeparators.data ≠ []) :
    ∃ r, parseFilename up filepath ignoreSeparators = some r ∧
      ∀ token ∈ customSeparators ignoreSeparators.data,
        (∀ c ∈ token, isSpace c = false) → occursCI up token r.title.data = false := by
  refine ⟨_, parseFilename_eq up filepath ignoreSeparators, ?_⟩
  intro token htok hw
  have hemp : (cleanedTitle up (stem filepath.data) ignoreSeparators.data).isEmpty = false := by
    cases hct : cleanedTitle up (stem filepath.data) ignoreSeparators.data with
    | nil => exact absurd hct hne
    | cons c cs => rfl
  simp only [parsedRecord, hemp, Bool.false_eq_true, if_false]
  unfold cleanedTitle customTitle
  split
  · next hb =>
    rw [customSeparators_blank _ hb] at htok
    cases htok
  · exact cleanCustom_absent up token (mem_customSeparators_ne_nil _ _ htok) hw _ _
      (Or.inl htok)

theorem custom_tokens_removed_witness :
    cleanedTitle (fun c => c) (stem "1_My##Title##.txt".data) "##".data ≠ [] ∧
    ∃ r, parseFilename (fun c => c) "1_My##Title##.txt" "##" = some r ∧
      ∀ token ∈ customSeparators "##".data,
        (∀ c ∈ token, isSpace c = false) → occursCI (fun c => c) token r.title.data = false :=
  ⟨by decide, custom_tokens_removed (fun c => c) "1_My##Title##.txt" "##" (by decide)⟩

/-- The token `a b` still occurs in the title of `1_a a b b.txt`. -/
theorem custom_token_survives :
    customSeparators "a b".data = ["a b".data] ∧
    cleanedTitle (fun c => c) (stem "1_a a b b.txt".data) "a b".data = "a b".data ∧
    (parseFilename (fun c => c) "1_a a b b.txt" "a b").map (fun r => r.title) = some "a b" ∧
    occursCI (fun c => c) "a b".data "a b".data = true := by
  decide

/-! ## Whitespace of the title -/

theorem ends_plus_chr_nil_iff (p : Char → Bool) (b : List Char) (c : Char) (cs : List Char) :
    (Re.plus (Re.chr p)).ends ⟨b, c :: cs⟩ = [] ↔ p c = false := by
  rw [ends_plus_chr_cons]
  constructor
  · intro h
    by_cases hc : p c = true
    · rw [if_pos hc] at h
      obtain ⟨tl, htl⟩ := backoff_eq_cons p cs (c :: b)
      rw [htl] at h
      cases h
    · simpa using hc
  · intro h
    rw [h]
    rfl

theorem ends_plus_chr_head (p : Char → Bool) (b : List Char) (c : Char) (cs : List Char)
    (hc : p c = true) :
    ((Re.plus (Re.chr p)).ends ⟨b, c :: cs⟩).head? =
      some ⟨(cs.takeWhile p).reverse ++ c :: b, cs.dropWhile p⟩ := by
  rw [ends_plus_chr_cons, if_pos hc]
  obtain ⟨tl, htl⟩ := backoff_eq_cons p cs (c :: b)
  rw [htl]
  rfl

/-- The leftmost match of `p+` for a character class `p`: a maximal run of the class after
a text without any character of the class. -/
theorem execFrom_plus_chr (p : Char → Bool) (b s : List Char) (st e : Pos)
    (h : execFrom (Re.plus (Re.chr p)) b s = some (st, e)) :
    ∃ pre c cs, s = pre ++ c :: cs ∧ (∀ x ∈ pre, p x = false) ∧ p c = true ∧
      st = ⟨pre.reverse ++ b, c :: cs⟩ ∧
      e = ⟨(cs.takeWhile p).reverse ++ c :: (pre.reverse ++ b), cs.dropWhile p⟩ := by
  obtain ⟨pre, post, h1, h2, h3, h4⟩ := execFrom_some _ s b st e h
  cases post with
  | nil =>
    rw [h2] at h3
    simp [Re.plus, Re.ends] at h3
  | cons c cs =>
    have hc : p c = true := by
      by_cases hc : p c = true
      · exact hc
      · have := (ends_plus_chr_nil_iff p (pre.reverse ++ b) c cs).2 (by simpa using hc)
        rw [h2, this] at h3
        cases h3
    refine ⟨pre, c, cs, h1, ?_, hc, h2, ?_⟩
    · intro x hx
      obtain ⟨p1, p2, hp⟩ := List.append_of_mem hx
      have := h4 p1 (x :: p2 ++ c :: cs) (by rw [h1, hp]; simp) (by rw [hp]; simp)
      rw [List.cons_append] at this
      exact (ends_plus_chr_nil_iff p _ x _).1 this
    · rw [h2, ends_plus_chr_head p _ c cs hc] at h3
      exact (Option.some.inj h3).symm

theorem execFrom_plus_chr_none (p : Char → Bool) (b s : List Char)
    (h : execFrom (Re.plus (Re.chr p)) b s = none) : ∀ x ∈ s, p x = false := by
  intro x hx
  obtain ⟨p1, p2, hp⟩ := List.append_of_mem hx
  exact (ends_plus_chr_nil_iff p _ x _).1 (execFrom_none _ s b h p1 (x :: p2) hp)

/-- One round of the replacement of `p+`. -/
theorem replaceAllFrom_plus_chr (p : Char → Bool) (repl : List Char) (n : Nat)
    (b s : List Char) (st e : Pos)
    (h : execFrom (Re.plus (Re.chr p)) b s = some (st, e)) :
    ∃ pre c cs, s = pre ++ c :: cs ∧ (∀ x ∈ pre, p x = false) ∧ p c = true ∧
      e.after = cs.dropWhile p ∧
      replaceAllFrom (Re.plus (Re.chr p)) repl (n + 1) b s =
        pre ++ repl ++ replaceAllFrom (Re.plus (Re.chr p)) repl n e.before e.after := by
  obtain ⟨pre, c, cs, h1, h2, h3, h4, h5⟩ := execFrom_plus_chr p b s st e h
  refine ⟨pre, c, cs, h1, h2, h3, by rw [h5], ?_⟩
  have hsplit : c :: cs = (c :: cs.takeWhile p) ++ e.after := by
    rw [h5]
    simp [List.takeWhile_append_dropWhile]
  exact replaceAllFrom_cons_match _ repl n b s st e pre (c :: cs.takeWhile p) h
    (by rw [h1, hsplit]) (by rw [h4, hsplit]) (List.cons_ne_nil _ _)

theorem noSpaceRun_cons (c : Char) (s : List Char) :
    noSpaceRun (c :: s) =
      ((match s with
        | [] => true
        | d :: _ => !(isSpace c && isSpace d)) && noSpaceRun s) := rfl

theorem noSpaceRun_append_plain : ∀ (pre t : List Char), (∀ x ∈ pre, isSpace x = false) →
    noSpaceRun (pre ++ t) = noSpaceRun t := by
  intro pre
  induction pre with
  | nil => intro t _; rfl
  | cons x pre ih =>
    intro t h
    have hx := h x (List.mem_cons_self _ _)
    have := ih t (fun y hy => h y (List.mem_cons_of_mem _ hy))
    rw [List.cons_append, noSpaceRun_cons, this]
    cases pre ++ t with
    | nil => simp
    | cons d ds => simp [hx]

theorem noSpaceRun_plain (t : List Char) (h : ∀ x ∈ t, isSpace x = false) :
    noSpaceRun t = true := by
  have := noSpaceRun_append_plain t [] h
  rw [List.append_nil] at this
  rw [this]
  rfl

theorem noSpaceRun_tail (c : Char) (s : List Char) (h : noSpaceRun (c :: s) = true) :
    noSpaceRun s = true := by
  rw [noSpaceRun_cons, Bool.and_eq_true] at h
  exact h.2

theorem noSpaceRun_suffix : ∀ (a t : List Char), noSpaceRun (a ++ t) = true →
    noSpaceRun t = true := by
  intro a
  induction a with
  | nil => intro t h; exact h
  | cons x a ih => intro t h; exact ih t (noSpaceRun_tail x _ h)

theorem noSpaceRun_prefix : ∀ (t b : List Char), noSpaceRun (t ++ b) = true →
    noSpaceRun t = true := by
  intro t
  induction t with
  | nil => intro b _; rfl
  | cons x t ih =>
    intro b h
    rw [List.cons_append, noSpaceRun_cons, Bool.and_eq_true] at h
    rw [noSpaceRun_cons, ih b h.2, Bool.and_true]
    cases t with
    | nil => rfl
    | cons d ds => exact h.1

theorem noSpaceRun_trim (s : List Char) (h : noSpaceRun s = true) :
    noSpaceRun (trim s) = true := by
  obtain ⟨a, b, hab⟩ := trim_infix s
  rw [hab] at h
  exact noSpaceRun_prefix _ b (noSpaceRun_suffix a _ h)

/-- The replacement of the whitespace runs keeps a first character that is not whitespace. -/
theorem replaceAllFrom_spaces_head : ∀ (n : Nat) (b s : List Char),
    (∀ c ∈ s.head?, isSpace c = false) →
    ∀ d ∈ (replaceAllFrom spacesPattern [' '] n b s).head?, isSpace d = false := by
  intro n b s hs d hd
  cases n with
  | zero => exact hs d hd
  | succ n =>
    cases hex : execFrom spacesPattern b s with
    | none =>
      rw [replaceAllFrom_of_none _ _ _ b s hex] at hd
      exact hs d hd
    | some se =>
      obtain ⟨st, e⟩ := se
      obtain ⟨pre, c, cs, h1, h2, h3, _, h5⟩ :=
        replaceAllFrom_plus_chr isSpace [' '] n b s st e hex
      have h5b : replaceAllFrom spacesPattern [' '] (n + 1) b s =
          pre ++ [' '] ++ replaceAllFrom spacesPattern [' '] n e.before e.after := h5
      rw [h5b] at hd
      cases pre with
      | nil =>
        rw [h1] at hs
        have := hs c rfl
        rw [h3] at this
        cases this
      | cons x pre =>
        simp only [List.cons_append, List.head?_cons, Option.mem_def,
          Option.some.injEq] at hd
        rw [← hd]
        exact h2 x (List.mem_cons_self _ _)

/-- After the replacement of the whitespace runs no two whitespace characters are adjacent. -/
theorem replaceAllFrom_spaces_noRun : ∀ (n : Nat) (b s : List Char), s.length < n →
    noSpaceRun (replaceAllFrom spacesPattern [' '] n b s) = true := by
  intro n
  induction n with
  | zero => intro b s h; omega
  | succ n ih =>
    intro b s hlen
    cases hex : execFrom spacesPattern b s with
    | none =>
      rw [replaceAllFrom_of_none _ _ _ b s hex]
      exact noSpaceRun_plain s (execFrom_plus_chr_none isSpace b s hex)
    | some se =>
      obtain ⟨st, e⟩ := se
      obtain ⟨pre, c, cs, h1, h2, h3, h4, h5⟩ :=
        replaceAllFrom_plus_chr isSpace [' '] n b s st e hex
      have h5b : replaceAllFrom spacesPattern [' '] (n + 1) b s =
          pre ++ [' '] ++ replaceAllFrom spacesPattern [' '] n e.before e.after := h5
      rw [h5b, List.append_assoc, noSpaceRun_append_plain pre _ h2, List.singleton_append,
        noSpaceRun_cons]
      have hl : e.after.length < n := by
        rw [h4]
        have := (List.dropWhile_suffix isSpace (l := cs)).length_le
        rw [h1] at hlen
        simp only [List.length_append, List.length_cons] at hlen
        omega
      rw [ih e.before e.after hl, Bool.and_true]
      have hh := replaceAllFrom_spaces_head n e.before e.after
        (by rw [h4]; exact head_dropWhile_not isSpace cs)
      cases hr : replaceAllFrom spacesPattern [' '] n e.before e.after with
      | nil => rfl
      | cons d ds =>
        have := hh d (by rw [hr]; rfl)
        simp [this]

theorem removeBuiltinSeparators_noRun (t : List Char) :
    noSpaceRun (removeBuiltinSeparators t) = true := by
  unfold removeBuiltinSeparators
  exact noSpaceRun_trim _ (replaceAllFrom_spaces_noRun _ [] _ (Nat.lt_succ_self _))

theorem cleanCustom_trimmed (up : Char → Char) : ∀ (seps : List (List Char)) (t : List Char),
    trim t = t → trim (cleanCustom up t seps) = cleanCustom up t seps := by
  intro seps
  induction seps with
  | nil => intro t h; exact h
  | cons s seps ih =>
    intro t _
    simp only [cleanCustom]
    exact ih _ (trim_trim _)

theorem cleanedTitle_trimmed (up : Char → Char) (filename cfg : List Char) :
    trim (cleanedTitle up filename cfg) = cleanedTitle up filename cfg := by
  unfold cleanedTitle customTitle
  split
  · exact removeBuiltinSeparators_trimmed _
  · exact cleanCustom_trimmed up _ _ (removeBuiltinSeparators_trimmed _)

/-- The fallback title of ` .txt` is one space; removing the token `x` from `a x x b`
leaves two adjacent spaces. -/
theorem title_whitespace_fails :
    (parseFilename (fun c => c) " .txt" "").map (fun r => r.title) = some " " ∧
    cleanedTitle (fun c => c) (stem " .txt".data) "".data = [] ∧
    (parseFilename (fun c => c) "1_a x x b.txt" "x").map (fun r => r.title) = some "a  b" ∧
    cleanedTitle (fun c => c) (stem "1_a x x b.txt".data) "x".data = "a  b".data ∧
    noSpaceRun "a  b".data = false := by
  decide

/-! ## Normalized titles are fixed points -/

theorem normalize_eq (up : Char → Char) (title cfg : List Char) :
    normalize up title cfg = some (customTitle up (removeBuiltinSeparators title) cfg) :=
  applyCustomSeparators_eq up _ cfg

theorem execFrom_none_of_matchFirst (r : Re) (s : List Char) (h : matchFirst r s = none) :
    execFrom r [] s = none := by
  unfold matchFirst at h
  exact Option.map_eq_none'.1 h

theorem execFrom_leadingSep_none (t : List Char) (h : ∀ c ∈ t.head?, isSepChar c = false) :
    execFrom leadingSepPattern [] t = none := by
  apply execFrom_none_of_nil
  intro pre post hsplit
  unfold leadingSepPattern
  rw [ends_seq, ends_bol]
  cases pre with
  | nil =>
    simp only [List.reverse_nil, List.nil_append, List.isEmpty_nil, if_true,
      List.flatMap_cons, List.flatMap_nil, List.append_nil]
    rw [List.nil_append] at hsplit
    cases post with
    | nil => rfl
    | cons c cs =>
      rw [hsplit] at h
      exact (ends_plus_chr_nil_iff isSepChar [] c cs).2 (h c rfl)
  | cons x pre =>
    have : (((x :: pre).reverse ++ ([] : List Char)).isEmpty) = false := by
      simp
    simp only [this, Bool.false_eq_true, if_false, List.flatMap_nil]

theorem execFrom_trailingSep_none (t : List Char)
    (h : ∀ c ∈ t.getLast?, isSepChar c = false) (b : List Char) :
    execFrom trailingSepPattern b t = none := by
  apply execFrom_none_of_nil
  intro pre post hsplit
  apply List.eq_nil_iff_forall_not_mem.2
  intro y hy
  unfold trailingSepPattern at hy
  rw [ends_seq] at hy
  obtain ⟨z, hz, hyz⟩ := List.mem_flatMap.1 hy
  rw [ends_eol] at hyz
  have hza : z.after = [] := by
    cases hz2 : z.after with
    | nil => rfl
    | cons d ds =>
      rw [hz2] at hyz
      cases hyz
  cases post with
  | nil => rw [ends_plus_chr_nil] at hz; cases hz
  | cons c cs =>
    rw [ends_plus_chr_cons] at hz
    split at hz
    · next hc =>
      obtain ⟨m, h1, h2, _⟩ := mem_backoff isSepChar cs _ z hz
      rw [hza, List.append_nil] at h1
      have hlast : ∀ d ∈ (c :: m).getLast?, isSepChar d = true := by
        intro d hd
        have hmem := List.mem_of_mem_getLast? hd
        rcases List.mem_cons.1 hmem with rfl | hm
        · exact hc
        · exact h2 d hm
      rw [hsplit, h1, List.getLast?_append_of_ne_nil _ (List.cons_ne_nil c m)] at h
      cases hl : (c :: m).getLast? with
      | none => simp at hl
      | some d =>
        have e1 := h d hl
        have e2 := hlast d hl
        rw [e1] at e2
        cases e2
    · cases hz

theorem singleSpaced_cons (c : Char) (s : List Char) :
    singleSpaced (c :: s) =
      ((!isSpace c ||
        (c == ' ' &&
          (match s with
           | [] => true
           | d :: _ => !isSpace d))) && singleSpaced s) := rfl

theorem singleSpaced_suffix : ∀ (a t : List Char), singleSpaced (a ++ t) = true →
    singleSpaced t = true := by
  intro a
  induction a with
  | nil => intro t h; exact h
  | cons x a ih =>
    intro t h
    rw [List.cons_append, singleSpaced_cons, Bool.and_eq_true] at h
    exact ih t h.2

theorem singleSpaced_space (c : Char) (s : List Char) (h : singleSpaced (c :: s) = true)
    (hc : isSpace c = true) :
    c = ' ' ∧ (∀ d ∈ s.head?, isSpace d = false) ∧ singleSpaced s = true := by
  rw [singleSpaced_cons, Bool.and_eq_true] at h
  obtain ⟨h1, h2⟩ := h
  simp only [hc, Bool.not_true, Bool.false_or, Bool.and_eq_true, beq_iff_eq] at h1
  refine ⟨h1.1, ?_, h2⟩
  intro d hd
  cases s with
  | nil => cases hd
  | cons x xs =>
    simp only [List.head?_cons, Option.mem_def, Option.some.injEq] at hd
    rw [← hd]
    simpa using h1.2

theorem dropWhile_of_head (p : Char → Bool) (s : List Char)
    (h : ∀ d ∈ s.head?, p d = false) : s.dropWhile p = s := by
  cases s with
  | nil => rfl
  | cons x xs =>
    have := h x rfl
    rw [List.dropWhile_cons_of_neg (by simp [this])]

/-- The replacement of the whitespace runs changes nothing when every run is one space. -/
theorem replaceAllFrom_spaces_single : ∀ (n : Nat) (b t : List Char),
    singleSpaced t = true → replaceAllFrom spacesPattern [' '] n b t = t := by
  intro n
  induction n with
  | zero => intro b t _; rfl
  | succ n ih =>
    intro b t ht
    cases hex : execFrom spacesPattern b t with
    | none => exact replaceAllFrom_of_none _ _ _ b t hex
    | some se =>
      obtain ⟨st, e⟩ := se
      obtain ⟨pre, c, cs, h1, _, h3, h4, h5⟩ :=
        replaceAllFrom_plus_chr isSpace [' '] n b t st e hex
      have h5b : replaceAllFrom spacesPattern [' '] (n + 1) b t =
          pre ++ [' '] ++ replaceAllFrom spacesPattern [' '] n e.before e.after := h5
      rw [h1] at ht
      obtain ⟨hc, hhead, hcs⟩ := singleSpaced_space c cs (singleSpaced_suffix pre _ ht) h3
      rw [dropWhile_of_head isSpace cs hhead] at h4
      rw [h5b, h4, ih e.before cs hcs, h1, hc]
      simp

theorem cleanCustom_fixed (up : Char → Char) (t : List Char) (ht : trim t = t) :
    ∀ seps : List (List Char), (∀ s ∈ seps, occursCI up s t = false) →
    cleanCustom up t seps = t := by
  intro seps
  induction seps with
  | nil => intro _; rfl
  | cons s seps ih =>
    intro h
    simp only [cleanCustom]
    rw [replaceAll_of_none _ _ _
      (execFrom_custom_none up s t (h s (List.mem_cons_self _ _)) []), ht]
    exact ih (fun s2 hs2 => h s2 (List.mem_cons_of_mem _ hs2))

theorem sepChar_of_space {c : Char} (h : isSepChar c = false) : isSpace c = false := by
  unfold isSepChar at h
  simp only [Bool.or_eq_false_iff] at h
  exact h.1.1.1.1

/-- C20 (amended): normalization leaves unchanged every title that has no remaining
separator pattern: none of the three dash patterns matches it, it neither begins nor ends
with a separator character, each of its whitespace characters is a single space, and no
custom token occurs in it. So normalizing twice gives the same as normalizing once whenever
the first result is such a title; it is not so for every input, as `x- -a- b-y` shows. -/
theorem normalize_fixed (up : Char → Char) (t ignoreSeparators : List Char)
    (h1 : matchFirst dashLetterPattern t = none) (h2 : matchFirst herePattern t = none)
    (h3 : matchFirst dashRunPattern t = none)
    (h4 : ∀ c ∈ t.head?, isSepChar c = false) (h5 : ∀ c ∈ t.getLast?, isSepChar c = false)
    (h6 : singleSpaced t = true)
    (h7 : ∀ s ∈ customSeparators ignoreSeparators, occursCI up s t = false) :
    normalize up t ignoreSeparators = some t ∧
    ∀ r, normalize up r ignoreSeparators = some t →
      (normalize up r ignoreSeparators).bind (fun u => normalize up u ignoreSeparators) =
        normalize up r ignoreSeparators := by
  have htrim : trim t = t :=
    trim_eq_self t (fun c hc => sepChar_of_space (h4 c hc))
      (fun c hc => sepChar_of_space (h5 c hc))
  have hb : removeBuiltinSeparators t = t := by
    unfold removeBuiltinSeparators
    rw [replaceAll_of_none _ _ _ (execFrom_none_of_matchFirst _ _ h1),
      replaceAll_of_none _ _ _ (execFrom_none_of_matchFirst _ _ h2),
      replaceAll_of_none _ _ _ (execFrom_none_of_matchFirst _ _ h3),
      replaceFirst_of_none _ _ _ (execFrom_leadingSep_none t h4),
      replaceFirst_of_none _ _ _ (execFrom_trailingSep_none t h5 [])]
    unfold replaceAll
    rw [replaceAllFrom_spaces_single _ _ _ h6, htrim]
  have hfix : normalize up t ignoreSeparators = some t := by
    rw [normalize_eq, hb]
    unfold customTitle
    split
    · rfl
    · rw [cleanCustom_fixed up t htrim _ h7]
  refine ⟨hfix, ?_⟩
  intro r hr
  rw [hr, Option.some_bind, hfix]

theorem normalize_fixed_witness :
    normalize (fun c => c) "## My Title ##".data "##".data = some "My Title".data ∧
    (normalize (fun c => c) "My Title".data "##".data = some "My Title".data ∧
      ∀ r, normalize (fun c => c) r "##".data = some "My Title".data →
        (normalize (fun c => c) r "##".data).bind
            (fun u => normalize (fun c => c) u "##".data) =
          normalize (fun c => c) r "##".data) :=
  ⟨by decide, normalize_fixed (fun c => c) "My Title".data "##".data (by decide) (by decide)
    (by decide) (by decide) (by decide) (by decide) (by decide)⟩

/-- Normalizing `x- -a- b-y` gives `x- b-y`, and normalizing that gives `x y`. -/
theorem normalize_not_idempotent :
    normalize (fun c => c) "x- -a- b-y".data [] = some "x- b-y".data ∧
    normalize (fun c => c) "x- b-y".data [] = some "x y".data ∧
    (normalize (fun c => c) "x- -a- b-y".data []).bind
        (fun u => normalize (fun c => c) u []) ≠
      normalize (fun c => c) "x- -a- b-y".data [] := by
  decide

/-- The title of a record is the normalized residual title, or the stem when that is
empty. -/
theorem parseFilename_normalize (up : Char → Char) (filepath ignoreSeparators : String) :
    (parseFilename up filepath ignoreSeparators).map (fun r => r.title.data) =
      (normalize up
        (residualTitle (stem filepath.data) (chapterOf (stem filepath.data))
          (findDate (stem filepath.data) datePatterns)) ignoreSeparators.data).map
        (fun t => if t.isEmpty then stem filepath.data else t) := by
  rw [parseFilename_eq, normalize_eq]
  rfl

/-! ## Dates in a batch -/

/-- C21: `hasDates` is true exactly when some returned record has a non-null `dateString`,
whether or not it has a chapter number; the returned records are those of the input paths,
so this is also exactly when some input path parses to a record with a date. -/
theorem hasDates_iff (up : Char → Char) (filepaths : List String) (ignoreSeparators : String) :
    ∃ result, parseAndSortFiles up filepaths ignoreSeparators = some result ∧
      (result.hasDates = true ↔ ∃ r ∈ result.files, r.dateString ≠ none) ∧
      (result.hasDates = true ↔
        ∃ fp ∈ filepaths, ∃ r, parseFilename up fp ignoreSeparators = some r ∧
          r.dateString ≠ none) := by
  refine ⟨_, parseAndSortFiles_eq up filepaths ignoreSeparators, ?_, ?_⟩
  · simp only [List.any_eq_true, Option.isSome_iff_ne_none]
  · simp only [List.any_eq_true, Option.isSome_iff_ne_none]
    constructor
    · rintro ⟨r, hr, hd⟩
      have hmem := (arraySort_perm sortCompare _).mem_iff.1 hr
      obtain ⟨fp, hfp, rfl⟩ := List.mem_map.1 hmem
      exact ⟨fp, hfp, _, parseFilename_eq up fp ignoreSeparators, hd⟩
    · rintro ⟨fp, hfp, r, hr, hd⟩
      rw [parseFilename_eq] at hr
      cases hr
      exact ⟨_, (arraySort_perm sortCompare _).mem_iff.2 (List.mem_map.2 ⟨fp, hfp, rfl⟩), hd⟩

/-! ## The chapter number leads the name or stays in the title -/

theorem ends_word (w : List Char) : ∀ (b s : List Char),
    (Re.word w).ends ⟨b, s⟩ =
      if startsWithCI w s then [⟨(s.take w.length).reverse ++ b, s.drop w.length⟩] else [] := by
  induction w with
  | nil => intro b s; rw [ends_word_nil]; rfl
  | cons x xs ih =>
    intro b s
    cases s with
    | nil => rfl
    | cons c cs =>
      rw [ends_word_cons]
      by_cases hc : (asciiUpper c == asciiUpper x) = true
      · rw [if_pos hc, ih]
        simp [startsWithCI, hc]
      · simp [startsWithCI, hc]

theorem startsWithCI_letters : ∀ (w s : List Char), (∀ c ∈ w, isLetter c = true) →
    startsWithCI w s = true → ∀ c ∈ s.take w.length, isLetter c = true := by
  intro w
  induction w with
  | nil => intro s _ _ c hc; simp at hc
  | cons x xs ih =>
    intro s hw h c hc
    cases s with
    | nil => cases h
    | cons d ds =>
      simp only [startsWithCI, Bool.and_eq_true] at h
      simp only [List.length_cons, List.take_succ_cons, List.mem_cons] at hc
      rcases hc with rfl | hc
      · exact ci_letter (hw x (List.mem_cons_self _ _)) h.1
      · exact ih ds (fun y hy => hw y (List.mem_cons_of_mem _ hy)) h.2 c hc

/-- The digits and separators at the start of a text, as `\d+[\s\-_:.]*` takes them. -/
theorem ends_digits_seps_head (b : List Char) (d : Char) (ds : List Char)
    (hd : isDigit d = true) :
    ((Re.seq reDigit.plus (Re.star (Re.chr isSepChar))).ends ⟨b, d :: ds⟩).head? =
      some ⟨((ds.dropWhile isDigit).takeWhile isSepChar).reverse ++
          ((ds.takeWhile isDigit).reverse ++ d :: b),
        (ds.dropWhile isDigit).dropWhile isSepChar⟩ := by
  rw [ends_seq, show reDigit = Re.chr isDigit from rfl, ends_plus_chr_cons, if_pos hd]
  apply head?_flatMap_of_head (backoff_head _ _ _)
  rw [ends_star_chr, backoff_head]

theorem ends_digits_seps_nil (b s : List Char) (h : s.head?.any isDigit = false) :
    (Re.seq reDigit.plus (Re.star (Re.chr isSepChar))).ends ⟨b, s⟩ = [] := by
  rw [ends_seq, show reDigit = Re.chr isDigit from rfl]
  cases s with
  | nil => rfl
  | cons c cs =>
    have hc : isDigit c = false := by simpa using h
    rw [(ends_plus_chr_nil_iff isDigit b c cs).2 hc]
    rfl

theorem ends_chapter_spaces (b s : List Char) :
    (Re.seq (Re.word "chapter".data) reSpace.star).ends ⟨b, s⟩ =
      if startsWithCI "chapter".data s then
        backoff isSpace ((s.take "chapter".data.length).reverse ++ b)
          (s.drop "chapter".data.length)
      else [] := by
  rw [ends_seq, ends_word]
  split
  · simp only [List.flatMap_cons, List.flatMap_nil, List.append_nil]
    exact ends_star_chr isSpace _ _
  · rfl

/-- The chapter-removal pattern does not match a text that does not start with a chapter
number. -/
theorem chapterLead_none (s : List Char) (h : leadsWithChapter s = false) :
    execFrom chapterLeadPattern [] s = none := by
  unfold leadsWithChapter at h
  rw [Bool.or_eq_false_iff] at h
  obtain ⟨h1, h2⟩ := h
  apply execFrom_none_of_nil
  intro pre post hsplit
  unfold chapterLeadPattern
  rw [ends_seq, ends_bol]
  cases pre with
  | cons x pre =>
    have : (((x :: pre).reverse ++ ([] : List Char)).isEmpty) = false := by simp
    simp only [this, Bool.false_eq_true, if_false, List.flatMap_nil]
  | nil =>
    rw [List.nil_append] at hsplit
    rw [← hsplit]
    simp only [List.reverse_nil, List.nil_append, List.isEmpty_nil, if_true,
      List.flatMap_cons, List.flatMap_nil, List.append_nil]
    rw [ends_seq]
    apply List.eq_nil_iff_forall_not_mem.2
    intro y hy
    obtain ⟨z, hz, hyz⟩ := List.mem_flatMap.1 hy
    simp only [Re.opt, ends_alt, ends_empty, List.mem_append, List.mem_singleton] at hz
    rcases hz with hz | hz
    · rw [ends_chapter_spaces] at hz
      split at hz
      · next hci =>
        obtain ⟨m, hm1, hm2, _⟩ := mem_backoff isSpace _ _ z hz
        have hnil := ends_digits_seps_nil z.before z.after (by
          rw [hci, Bool.true_and] at h2
          rw [hm1, List.dropWhile_append_of_pos hm2] at h2
          cases hza : z.after with
          | nil => rfl
          | cons c cs =>
            rw [hza] at h2
            by_cases hsc : isSpace c = true
            · have : isDigit c = false := by
                cases hdc : isDigit c with
                | false => rfl
                | true => rw [digit_not_space hdc] at hsc; cases hsc
              simpa using this
            · rw [List.dropWhile_cons_of_neg hsc] at h2
              exact h2)
        rw [hnil] at hyz
        cases hyz
      · cases hz
    · rw [hz, ends_digits_seps_nil [] s h1] at hyz
      cases hyz

theorem split_run (p : Char → Bool) (s : List Char) :
    s = s.takeWhile p ++ s.dropWhile p := (List.takeWhile_append_dropWhile p s).symm

/-- What the chapter-removal pattern removes from a text that starts with a chapter number:
the lead-in, the first run of digits and the separator characters after it. -/
theorem chapterLead_some (s : List Char) (h : leadsWithChapter s = true) :
    ∃ lead run rest, s = lead ++ run ++ rest ∧ (∀ c ∈ lead, isDigit c = false) ∧
      run ≠ [] ∧ (∀ c ∈ run, isDigit c = true) ∧ (∀ c ∈ rest.head?, isDigit c = false) ∧
      replaceFirst chapterLeadPattern [] s = rest.dropWhile isSepChar := by
  unfold leadsWithChapter at h
  have hgen : ∀ e : Pos, (chapterLeadPattern.ends ⟨[], s⟩).head? = some e →
      replaceFirst chapterLeadPattern [] s = e.after := by
    intro e he
    unfold replaceFirst
    rw [execFrom_of_head _ _ _ _ he]
    simp
  by_cases h1 : s.head?.any isDigit = true
  · cases s with
    | nil => simp at h1
    | cons d ds =>
      have hd : isDigit d = true := by simpa using h1
      refine ⟨[], d :: ds.takeWhile isDigit, ds.dropWhile isDigit, ?_, by simp, by simp, ?_,
        head_dropWhile_not isDigit ds, ?_⟩
      · simp [List.takeWhile_append_dropWhile]
      · intro c hc
        rcases List.mem_cons.1 hc with rfl | hc
        · exact hd
        · exact (List.mem_takeWhile_imp hc)
      · have := chapterLead_digits d (ds.takeWhile isDigit) (ds.dropWhile isDigit) hd
          (fun c hc => List.mem_takeWhile_imp hc) (head_dropWhile_not isDigit ds)
        rw [List.takeWhile_append_dropWhile] at this
        exact this
  · have h1f : s.head?.any isDigit = false := by simpa using h1
    rw [h1f, Bool.false_or, Bool.and_eq_true] at h
    obtain ⟨hci, hdig⟩ := h
    cases hrest : (s.drop "chapter".data.length).dropWhile isSpace with
    | nil => rw [hrest] at hdig; simp at hdig
    | cons d ds =>
      rw [hrest] at hdig
      have hd : isDigit d = true := by simpa using hdig
      have hs : s = (s.take "chapter".data.length ++
          (s.drop "chapter".data.length).takeWhile isSpace) ++ (d :: ds) := by
        rw [List.append_assoc, ← hrest, List.takeWhile_append_dropWhile,
          List.take_append_drop]
      refine ⟨s.take "chapter".data.length ++
          (s.drop "chapter".data.length).takeWhile isSpace,
        d :: ds.takeWhile isDigit, ds.dropWhile isDigit, ?_, ?_, by simp, ?_,
        head_dropWhile_not isDigit ds, ?_⟩
      · rw [List.append_assoc, List.cons_append, List.takeWhile_append_dropWhile]
        exact hs
      · intro c hc
        rcases List.mem_append.1 hc with hc | hc
        · exact letter_not_digit
            (startsWithCI_letters "chapter".data s (by decide) hci c hc)
        · have hsp : isSpace c = true := List.mem_takeWhile_imp hc
          cases hdc : isDigit c with
          | false => rfl
          | true => rw [digit_not_space hdc] at hsp; cases hsp
      · intro c hc
        rcases List.mem_cons.1 hc with rfl | hc
        · exact hd
        · exact (List.mem_takeWhile_imp hc)
      · have key : ∃ e : Pos, (chapterLeadPattern.ends ⟨[], s⟩).head? = some e ∧
            e.after = (ds.dropWhile isDigit).dropWhile isSepChar := by
          unfold chapterLeadPattern
          rw [ends_seq, ends_bol]
          simp only [List.isEmpty_nil, if_true, List.flatMap_cons, List.flatMap_nil,
            List.append_nil]
          rw [ends_seq]
          simp only [Re.opt, ends_alt, ends_empty]
          rw [ends_chapter_spaces, if_pos hci]
          obtain ⟨tl, htl⟩ := backoff_eq_cons isSpace (s.drop "chapter".data.length)
            ((s.take "chapter".data.length).reverse ++ [])
          rw [htl, hrest]
          have := ends_digits_seps_head
            (((s.drop "chapter".data.length).takeWhile isSpace).reverse ++
              ((s.take "chapter".data.length).reverse ++ [])) d ds hd
          exact ⟨_, head?_flatMap_of_head (l := _ :: tl ++ _) rfl this, rfl⟩
        obtain ⟨e, he, hea⟩ := key
        rw [hgen e he, hea]

/-! ## The default custom separators -/

theorem mem_ends_seq {a r : Re} {x z y : Pos} (hz : z ∈ a.ends x) (hy : y ∈ r.ends z) :
    y ∈ (Re.seq a r).ends x :=
  List.mem_flatMap.2 ⟨z, hz, hy⟩

theorem mem_ends_star_self (p : Char → Bool) (x : Pos) : x ∈ (Re.star (Re.chr p)).ends x := by
  obtain ⟨b, a⟩ := x
  rw [ends_star_chr]
  exact backoff_self p a b

theorem mem_ends_chr (p : Char → Bool) (b : List Char) (c : Char) (cs : List Char)
    (h : p c = true) : (⟨c :: b, cs⟩ : Pos) ∈ (Re.chr p).ends ⟨b, c :: cs⟩ := by
  rw [ends_chr_cons, if_pos h]
  exact List.mem_singleton.2 rfl

theorem mem_ends_plus_one (p : Char → Bool) (b : List Char) (c : Char) (cs : List Char)
    (h : p c = true) : (⟨c :: b, cs⟩ : Pos) ∈ (Re.plus (Re.chr p)).ends ⟨b, c :: cs⟩ :=
  mem_ends_seq (mem_ends_chr p b c cs h) (mem_ends_star_self p _)

theorem ends_chr_lt (p : Char → Bool) (x y : Pos) (h : y ∈ (Re.chr p).ends x) :
    y.after.length < x.after.length := by
  obtain ⟨b, a⟩ := x
  cases a with
  | nil => simp [Re.ends] at h
  | cons c cs =>
    rw [ends_chr_cons] at h
    split at h
    · rw [List.mem_singleton.1 h]
      simp
    · cases h

theorem ends_seq_lt_left (a r : Re)
    (ha : ∀ x z, z ∈ a.ends x → z.after.length < x.after.length) (x y : Pos)
    (h : y ∈ (Re.seq a r).ends x) : y.after.length < x.after.length := by
  obtain ⟨z, hz, hy⟩ := List.mem_flatMap.1 h
  have h1 := ha x z hz
  have h2 := advances_length (ends_advances r z y hy)
  omega

theorem ends_seq_lt_right (a r : Re)
    (hr : ∀ z y, y ∈ r.ends z → y.after.length < z.after.length) (x y : Pos)
    (h : y ∈ (Re.seq a r).ends x) : y.after.length < x.after.length := by
  obtain ⟨z, hz, hy⟩ := List.mem_flatMap.1 h
  have h1 := hr z y hy
  have h2 := advances_length (ends_advances a x z hz)
  omega

theorem dashLetter_lt (x y : Pos) (h : y ∈ dashLetterPattern.ends x) :
    y.after.length < x.after.length :=
  ends_seq_lt_right _ _
    (ends_seq_lt_left _ _ (ends_seq_lt_left _ _ (ends_chr_lt _))) x y h

theorem dashRun_lt (x y : Pos) (h : y ∈ dashRunPattern.ends x) :
    y.after.length < x.after.length :=
  ends_seq_lt_right _ _ (ends_seq_lt_left _ _ (ends_chr_lt _)) x y h

/-- After the global replacement of a pattern by a space, a word without whitespace that
the pattern matches wherever it stands does not occur any more. -/
theorem replaceAllFrom_clean (up : Char → Char) (r : Re) (w : List Char) (hne : w ≠ [])
    (hw : ∀ c ∈ w, isSpace c = false)
    (hmatch : ∀ b post, matchesCI up w post = true → r.ends ⟨b, post⟩ ≠ [])
    (hlt : ∀ x y, y ∈ r.ends x → y.after.length < x.after.length) :
    ∀ (n : Nat) (b t : List Char), t.length < n →
    occursCI up w (replaceAllFrom r [' '] n b t) = false := by
  intro n
  induction n with
  | zero => intro b t h; omega
  | succ n ih =>
    intro b t hlen
    cases hex : execFrom r b t with
    | none =>
      rw [replaceAllFrom_of_none _ _ _ b t hex, Bool.eq_false_iff]
      intro hocc
      obtain ⟨pre, post, h1, h2⟩ := (occursCI_iff up w t).1 hocc
      exact hmatch _ post h2 (execFrom_none _ t b hex pre post h1)
    | some se =>
      obtain ⟨st, e⟩ := se
      obtain ⟨pre, m, ht, hst, hbe, hmem, hmin⟩ := execFrom_some_split _ b t st e hex
      have hm : m ≠ [] := by
        intro hm
        have := hlt st e hmem
        rw [hst, hm] at this
        simp at this
      rw [replaceAllFrom_cons_match _ _ n b t st e pre m hex ht hst hm]
      rw [Bool.eq_false_iff]
      intro hocc
      rw [List.append_assoc, List.singleton_append] at hocc
      rcases occursCI_space_split up w hw _ _ hocc with h2 | h2
      · obtain ⟨p1, p2, h3, h4⟩ := (occursCI_iff up w pre).1 h2
        have hp2 : p2 ≠ [] := by
          intro hp2
          rw [hp2] at h4
          cases w with
          | nil => exact hne rfl
          | cons a w => cases h4
        have hlt2 : p1.length < pre.length := by
          rw [h3, List.length_append]
          have := List.length_pos.2 hp2
          omega
        have := hmin p1 (p2 ++ (m ++ e.after)) (by rw [ht, h3, List.append_assoc]) hlt2
        exact hmatch _ _ (matchesCI_append up w p2 _ h4) this
      · have hl : e.after.length < n := by
          rw [ht] at hlen
          simp only [List.length_append] at hlen
          have := List.length_pos.2 hm
          omega
        rw [ih e.before e.after hl] at h2
        cases h2

theorem hyphen_of_ci (up : Char → Char) {x : Char}
    (h : (canonicalize up x == canonicalize up '-') = true) : x = '-' :=
  canonicalize_eq_plain up (by decide) (by decide) (by decide) h

theorem letter_of_ci (up : Char → Char) {x l : Char} (hl : isLetter l = true)
    (h : (canonicalize up x == canonicalize up l) = true) : isLetter x = true := by
  have hl2 : l.toNat < 128 := by
    rw [isLetter_iff] at hl
    omega
  rw [canonicalize_beq_ascii up hl2, Bool.and_eq_true] at h
  exact ci_letter hl h.2

theorem dashLetter_matches (up : Char → Char) (l : Char) (hl : isLetter l = true)
    (b post : List Char) (h : matchesCI up ['-', l, '-'] post = true) :
    dashLetterPattern.ends ⟨b, post⟩ ≠ [] := by
  cases post with
  | nil => cases h
  | cons x1 post =>
  cases post with
  | nil => simp [matchesCI] at h
  | cons x2 post =>
  cases post with
  | nil => simp [matchesCI] at h
  | cons x3 post =>
    simp only [matchesCI, Bool.and_eq_true, Bool.and_true] at h
    obtain ⟨h1, h2, h3⟩ := h
    have e1 := hyphen_of_ci up h1
    have e3 := hyphen_of_ci up h3
    have e2 := letter_of_ci up hl h2
    subst e1 e3
    have hh : (fun c : Char => c == '-') '-' = true := rfl
    have hmem : (⟨'-' :: x2 :: '-' :: b, post⟩ : Pos) ∈
        dashLetterPattern.ends ⟨b, '-' :: x2 :: '-' :: post⟩ :=
      mem_ends_seq (mem_ends_star_self isSpace _)
        (mem_ends_seq (mem_ends_plus_one _ b '-' _ hh)
          (mem_ends_seq (mem_ends_star_self isSpace _)
            (mem_ends_seq (mem_ends_chr isLetter _ x2 _ e2)
              (mem_ends_seq (mem_ends_star_self isSpace _)
                (mem_ends_seq (mem_ends_plus_one _ _ '-' _ hh)
                  (mem_ends_star_self isSpace _))))))
    exact List.ne_nil_of_mem hmem

theorem dashRun_matches (up : Char → Char) (b post : List Char)
    (h : matchesCI up ['-', '-'] post = true) : dashRunPattern.ends ⟨b, post⟩ ≠ [] := by
  cases post with
  | nil => cases h
  | cons x1 post =>
  cases post with
  | nil => simp [matchesCI] at h
  | cons x2 post =>
    simp only [matchesCI, Bool.and_eq_true, Bool.and_true] at h
    obtain ⟨h1, h2⟩ := h
    have e1 := hyphen_of_ci up h1
    have e2 := hyphen_of_ci up h2
    subst e1 e2
    have hh : (fun c : Char => c == '-') '-' = true := rfl
    have hmem : (⟨'-' :: '-' :: b, post⟩ : Pos) ∈
        dashRunPattern.ends ⟨b, '-' :: '-' :: post⟩ :=
      mem_ends_seq (mem_ends_star_self isSpace _)
        (mem_ends_seq (mem_ends_chr _ b '-' _ hh)
          (mem_ends_seq (mem_ends_chr _ _ '-' _ hh)
            (mem_ends_seq (mem_ends_star_self _ _) (mem_ends_star_self isSpace _))))
    exact List.ne_nil_of_mem hmem

/-- Removing a match at the start of the text creates no occurrence. -/
theorem replaceFirst_leadingSep_occurs (up : Char → Char) (w s : List Char)
    (h : occursCI up w (replaceFirst leadingSepPattern [] s) = true) :
    occursCI up w s = true := by
  unfold replaceFirst at h
  cases hex : execFrom leadingSepPattern [] s with
  | none => rw [hex] at h; exact h
  | some se =>
    obtain ⟨st, e⟩ := se
    rw [hex] at h
    simp only [List.append_nil] at h
    obtain ⟨pre, m, hs, hst, _, hmem, _⟩ := execFrom_some_split _ [] s st e hex
    have hpre : pre = [] := by
      unfold leadingSepPattern at hmem
      rw [ends_seq, ends_bol, hst] at hmem
      cases pre with
      | nil => rfl
      | cons x pre => simp at hmem
    rw [hst, hpre] at h
    simp only [List.reverse_nil, List.nil_append] at h
    rw [hs]
    exact occursCI_append_right up w _ _ (occursCI_append_right up w _ _ h)

/-- Removing a match at the end of the text creates no occurrence. -/
theorem replaceFirst_trailingSep_occurs (up : Char → Char) (w s : List Char)
    (h : occursCI up w (replaceFirst trailingSepPattern [] s) = true) :
    occursCI up w s = true := by
  unfold replaceFirst at h
  cases hex : execFrom trailingSepPattern [] s with
  | none => rw [hex] at h; exact h
  | some se =>
    obtain ⟨st, e⟩ := se
    rw [hex] at h
    simp only [List.append_nil] at h
    obtain ⟨pre, m, hs, hst, _, hmem, _⟩ := execFrom_some_split _ [] s st e hex
    have hea : e.after = [] := by
      unfold trailingSepPattern at hmem
      rw [ends_seq] at hmem
      obtain ⟨z, _, hez⟩ := List.mem_flatMap.1 hmem
      rw [ends_eol] at hez
      split at hez
      · next hz =>
        rw [List.mem_singleton.1 hez]
        exact List.isEmpty_iff.1 hz
      · cases hez
    rw [hst, hea] at h
    simp only [List.reverse_append, List.reverse_nil, List.nil_append, List.reverse_reverse,
      List.append_nil] at h
    rw [hs]
    exact occursCI_append_left up w _ _ h

/-- After the built-in separator removal a title has no two adjacent hyphens. -/
theorem removeBuiltinSeparators_no_dashRun (up : Char → Char) (title : List Char) :
    occursCI up ['-', '-'] (removeBuiltinSeparators title) = false := by
  have hw : ∀ c ∈ ['-', '-'], isSpace c = false := by decide
  rw [Bool.eq_false_iff]
  intro h
  unfold removeBuiltinSeparators at h
  have h1 := replaceFirst_leadingSep_occurs up _ _
    (replaceFirst_trailingSep_occurs up _ _
      (replaceAll_occurs up _ _ hw _ (occursCI_trim up _ _ h)))
  unfold replaceAll at h1
  rw [replaceAllFrom_clean up dashRunPattern _ (by decide) hw (dashRun_matches up)
    dashRun_lt _ [] _ (Nat.lt_succ_self _)] at h1
  cases h1

/-- After the built-in separator removal a title has no hyphen, letter, hyphen in a row. -/
theorem removeBuiltinSeparators_no_dashLetter (up : Char → Char) (title : List Char)
    (l : Char) (hl : isLetter l = true) :
    occursCI up ['-', l, '-'] (removeBuiltinSeparators title) = false := by
  have hw : ∀ c ∈ ['-', l, '-'], isSpace c = false := by
    intro c hc
    simp only [List.mem_cons, List.mem_singleton, List.not_mem_nil, or_false] at hc
    rcases hc with rfl | rfl | rfl
    · decide
    · exact letter_not_space hl
    · decide
  rw [Bool.eq_false_iff]
  intro h
  unfold removeBuiltinSeparators at h
  have h1 := replaceAll_occurs up _ _ hw _
    (replaceAll_occurs up _ _ hw _
      (replaceFirst_leadingSep_occurs up _ _
        (replaceFirst_trailingSep_occurs up _ _
          (replaceAll_occurs up _ _ hw _ (occursCI_trim up _ _ h)))))
  unfold replaceAll at h1
  rw [replaceAllFrom_clean up dashLetterPattern _ (by simp) hw
    (dashLetter_matches up l hl) dashLetter_lt _ [] _ (Nat.lt_succ_self _)] at h1
  cases h1

theorem matchesCI_of_append (up : Char → Char) : ∀ (w1 w2 t : List Char),
    matchesCI up (w1 ++ w2) t = true → matchesCI up w1 t = true := by
  intro w1
  induction w1 with
  | nil => intro _ _ _; rfl
  | cons a w1 ih =>
    intro w2 t h
    cases t with
    | nil => cases h
    | cons x t =>
      simp only [List.cons_append, matchesCI, Bool.and_eq_true] at h
      simp only [matchesCI, h.1, ih w2 t h.2, Bool.and_self]

theorem occursCI_of_append (up : Char → Char) (w1 w2 t : List Char)
    (h : occursCI up (w1 ++ w2) t = true) : occursCI up w1 t = true := by
  obtain ⟨pre, post, h1, h2⟩ := (occursCI_iff up _ t).1 h
  rw [h1]
  exact occursCI_of_suffix up w1 post (matchesCI_of_append up w1 w2 post h2) pre

/-- The default custom separators do not occur in a title after the built-in separator
removal. -/
theorem default_tokens_absent (up : Char → Char) (title : List Char) :
    ∀ s ∈ customSeparators defaultIgnoreSeparators.data,
      occursCI up s (removeBuiltinSeparators title) = false := by
  have hsep : customSeparators defaultIgnoreSeparators.data =
      ["-d-".data, "--".data, "-- HERE --".data, "--c--".data] := by decide
  have hrun := removeBuiltinSeparators_no_dashRun up title
  have hrun2 : ∀ w2, occursCI up (['-', '-'] ++ w2) (removeBuiltinSeparators title) = false := by
    intro w2
    rw [Bool.eq_false_iff]
    intro h
    rw [occursCI_of_append up _ w2 _ h] at hrun
    cases hrun
  intro s hs
  rw [hsep] at hs
  simp only [List.mem_cons, List.mem_singleton, List.not_mem_nil, or_false] at hs
  rcases hs with rfl | rfl | rfl | rfl
  · exact removeBuiltinSeparators_no_dashLetter up title 'd' (by decide)
  · exact hrun
  · exact hrun2 " HERE --".data
  · exact hrun2 "c--".data

/-- C22: the default custom-separator configuration of the application changes nothing:
for every filepath `parseFilename` returns the same record with it as with no custom
separators, because after the built-in steps a title contains neither two adjacent hyphens
nor a hyphen, a letter and a hyphen in a row, so none of the four default tokens occurs. -/
theorem default_separators_redundant (up : Char → Char) (filepath : String) :
    parseFilename up filepath defaultIgnoreSeparators = parseFilename up filepath "" ∧
    (∃ r, parseFilename up filepath "" = some r) ∧
    customSeparators defaultIgnoreSeparators.data =
      ["-d-".data, "--".data, "-- HERE --".data, "--c--".data] ∧
    ∀ title,
      occursCI up ['-', '-'] (removeBuiltinSeparators title) = false ∧
      (∀ l, isLetter l = true →
        occursCI up ['-', l, '-'] (removeBuiltinSeparators title) = false) ∧
      customTitle up (removeBuiltinSeparators title) defaultIgnoreSeparators.data =
        removeBuiltinSeparators title := by
  have hct : ∀ title,
      customTitle up (removeBuiltinSeparators title) defaultIgnoreSeparators.data =
        removeBuiltinSeparators title := by
    intro title
    unfold customTitle
    rw [if_neg (by decide)]
    exact cleanCustom_fixed up _ (removeBuiltinSeparators_trimmed title) _
      (default_tokens_absent up title)
  refine ⟨?_, ⟨_, parseFilename_eq up filepath ""⟩, by decide, ?_⟩
  · rw [parseFilename_eq, parseFilename_eq]
    unfold parsedRecord cleanedTitle
    rw [hct]
    rfl
  · intro title
    exact ⟨removeBuiltinSeparators_no_dashRun up title,
      fun l hl => removeBuiltinSeparators_no_dashLetter up title l hl, hct title⟩

/-! ## Whitespace of the title when no custom token occurs -/

/-- Custom separators that do not occur in the title leave it as the built-in steps made
it. -/
theorem cleanedTitle_absent (up : Char → Char) (filename cfg : List Char)
    (h : ∀ token ∈ customSeparators cfg, occursCI up token (cleanedTitle up filename []) = false) :
    cleanedTitle up filename cfg = cleanedTitle up filename [] := by
  unfold cleanedTitle at h ⊢
  rw [customTitle_nil] at h ⊢
  unfold customTitle
  split
  · rfl
  · exact cleanCustom_fixed up _ (removeBuiltinSeparators_trimmed _) _ h

theorem cleanedTitle_default (up : Char → Char) (filename : List Char) :
    cleanedTitle up filename defaultIgnoreSeparators.data = cleanedTitle up filename [] :=
  cleanedTitle_absent up filename _ (by
    unfold cleanedTitle
    rw [customTitle_nil]
    exact default_tokens_absent up _)

theorem cleanedTitle_noRun (up : Char → Char) (filename : List Char) :
    noSpaceRun (cleanedTitle up filename []) = true := by
  unfold cleanedTitle
  rw [customTitle_nil]
  exact removeBuiltinSeparators_noRun _

/-- C19 (amended): when the cleaned title is not empty, the title neither begins nor ends
with a whitespace character. When moreover no custom separator token occurs in the title
computed without custom separators, the title is that title and no two whitespace characters
of it are adjacent; this is so when no token is configured and for the default configuration
of the application. The fallback title and a title from which a custom token was removed
need not be normalized. -/
theorem title_whitespace (up : Char → Char) (filepath ignoreSeparators : String)
    (hne : cleanedTitle up (stem filepath.data) ignoreSeparators.data ≠ []) :
    ∃ r, parseFilename up filepath ignoreSeparators = some r ∧
      (∀ c ∈ r.title.data.head?, isSpace c = false) ∧
      (∀ c ∈ r.title.data.getLast?, isSpace c = false) ∧
      ((∀ token ∈ customSeparators ignoreSeparators.data,
          occursCI up token (cleanedTitle up (stem filepath.data) []) = false) →
        r.title.data = cleanedTitle up (stem filepath.data) [] ∧
        noSpaceRun r.title.data = true) ∧
      (customSeparators ignoreSeparators.data = [] → noSpaceRun r.title.data = true) ∧
      (ignoreSeparators = defaultIgnoreSeparators → noSpaceRun r.title.data = true) := by
  refine ⟨_, parseFilename_eq up filepath ignoreSeparators, ?_⟩
  have hemp : (cleanedTitle up (stem filepath.data) ignoreSeparators.data).isEmpty = false := by
    cases hct : cleanedTitle up (stem filepath.data) ignoreSeparators.data with
    | nil => exact absurd hct hne
    | cons c cs => rfl
  simp only [parsedRecord, hemp, Bool.false_eq_true, if_false]
  have ht := cleanedTitle_trimmed up (stem filepath.data) ignoreSeparators.data
  have habs : (∀ token ∈ customSeparators ignoreSeparators.data,
      occursCI up token (cleanedTitle up (stem filepath.data) []) = false) →
      cleanedTitle up (stem filepath.data) ignoreSeparators.data =
          cleanedTitle up (stem filepath.data) [] ∧
        noSpaceRun (cleanedTitle up (stem filepath.data) ignoreSeparators.data) = true := by
    intro h
    have := cleanedTitle_absent up (stem filepath.data) ignoreSeparators.data h
    exact ⟨this, by rw [this]; exact cleanedTitle_noRun up _⟩
  refine ⟨?_, ?_, habs, ?_, ?_⟩
  · rw [← ht]; exact trim_head _
  · rw [← ht]; exact trim_last _
  · intro hsep
    refine (habs ?_).2
    rw [hsep]
    intro token htok
    cases htok
  · intro hdef
    refine (habs ?_).2
    rw [hdef]
    have := default_tokens_absent up
      (residualTitle (stem filepath.data) (chapterOf (stem filepath.data))
        (findDate (stem filepath.data) datePatterns))
    unfold cleanedTitle
    rw [customTitle_nil]
    exact this

theorem title_whitespace_witness :
    cleanedTitle (fun c => c) (stem "1_My   Title .txt".data) "##".data ≠ [] ∧
    (∀ token ∈ customSeparators "##".data,
      occursCI (fun c => c) token
        (cleanedTitle (fun c => c) (stem "1_My   Title .txt".data) []) = false) ∧
    ∃ r, parseFilename (fun c => c) "1_My   Title .txt" "##" = some r ∧
      (∀ c ∈ r.title.data.head?, isSpace c = false) ∧
      (∀ c ∈ r.title.data.getLast?, isSpace c = false) ∧
      ((∀ token ∈ customSeparators "##".data,
          occursCI (fun c => c) token
            (cleanedTitle (fun c => c) (stem "1_My   Title .txt".data) []) = false) →
        r.title.data = cleanedTitle (fun c => c) (stem "1_My   Title .txt".data) [] ∧
        noSpaceRun r.title.data = true) ∧
      (customSeparators "##".data = [] → noSpaceRun r.title.data = true) ∧
      (("##" : String) = defaultIgnoreSeparators → noSpaceRun r.title.data = true) :=
  ⟨by decide, by decide,
    title_whitespace (fun c => c) "1_My   Title .txt" "##" (by decide)⟩

/-! ## The chapter removal and the record -/

theorem leadsWithChapter_of_none (s : List Char) (h : chapterOf s = none) :
    leadsWithChapter s = false := by
  cases hl : leadsWithChapter s with
  | false => rfl
  | true =>
    obtain ⟨lead, run, rest, h1, h2, h3, h4, h5, _⟩ := chapterLead_some s hl
    have : chapterOf s = some (parseInt run) := by
      unfold chapterOf
      rw [matchFirst_chapterPattern]
      conv => lhs; rw [h1]
      rw [firstDigitRun_append lead run rest h2 h3 h4 h5]
      rfl
    rw [h] at this
    cases this

/-- The text from which the title is built (lines 37-48): the stem after the
chapter-removal pattern, with the first occurrence of the date string taken out. -/
theorem residualTitle_eq (s : List Char) (date : Option (List Char)) :
    residualTitle s (chapterOf s) date =
      (match date with
       | some d =>
         if d.isEmpty then replaceFirst chapterLeadPattern [] s
         else replaceStr d [] (replaceFirst chapterLeadPattern [] s)
       | none => replaceFirst chapterLeadPattern [] s) := by
  have hstep : (if (chapterOf s).isSome then replaceFirst chapterLeadPattern [] s else s) =
      replaceFirst chapterLeadPattern [] s := by
    cases hc : chapterOf s with
    | some n => rfl
    | none =>
      simp only [Option.isSome_none, Bool.false_eq_true, if_false]
      exact (replaceFirst_of_none _ _ _
        (chapterLead_none s (leadsWithChapter_of_none s hc))).symm
  unfold residualTitle
  cases date with
  | none => exact hstep
  | some d => simp only [hstep]

/-- C23 (amended): the chapter number is stripped from the title only when it leads the
filename. When the stem does not start with an optional `chapter`, optional whitespace and a
digit, the chapter-removal pattern matches nowhere: the text after that step is the whole
stem, which holds the digits of the chapter number, and the title is built from the stem
with only the first occurrence of the date string taken out (`Part 3 - Intro.txt` has
chapter number 3 and title `Part 3 - Intro`). When the stem starts that way, the step
removes the lead-in, the first run of digits, which is the run parsed as chapter number, and
the separator characters after it. The digits of a chapter number that does not lead are
still removed when they are the date string. -/
theorem chapter_removal_leading (up : Char → Char) (filepath ignoreSeparators : String) :
    (∃ r, parseFilename up filepath ignoreSeparators = some r ∧
      r.chapterNumber = (matchFirst chapterPattern (stem filepath.data)).map parseInt ∧
      r.title.data =
        (if (customTitle up (removeBuiltinSeparators
              (residualTitle (stem filepath.data) r.chapterNumber
                (findDate (stem filepath.data) datePatterns))) ignoreSeparators.data).isEmpty
         then stem filepath.data
         else customTitle up (removeBuiltinSeparators
              (residualTitle (stem filepath.data) r.chapterNumber
                (findDate (stem filepath.data) datePatterns))) ignoreSeparators.data) ∧
      (leadsWithChapter (stem filepath.data) = false →
        matchFirst chapterLeadPattern (stem filepath.data) = none ∧
        replaceFirst chapterLeadPattern [] (stem filepath.data) = stem filepath.data ∧
        (∀ run, matchFirst chapterPattern (stem filepath.data) = some run →
          run ≠ [] ∧ ∃ pre post,
            replaceFirst chapterLeadPattern [] (stem filepath.data) = pre ++ run ++ post) ∧
        residualTitle (stem filepath.data) r.chapterNumber
            (findDate (stem filepath.data) datePatterns) =
          (match findDate (stem filepath.data) datePatterns with
           | some d => if d.isEmpty then stem filepath.data
             else replaceStr d [] (stem filepath.data)
           | none => stem filepath.data)) ∧
      (leadsWithChapter (stem filepath.data) = true →
        ∃ lead run rest, stem filepath.data = lead ++ run ++ rest ∧
          (∀ c ∈ lead, isDigit c = false) ∧ run ≠ [] ∧ (∀ c ∈ run, isDigit c = true) ∧
          (∀ c ∈ rest.head?, isDigit c = false) ∧
          matchFirst chapterPattern (stem filepath.data) = some run ∧
          r.chapterNumber = some (parseInt run) ∧
          replaceFirst chapterLeadPattern [] (stem filepath.data) =
            rest.dropWhile isSepChar ∧
          residualTitle (stem filepath.data) r.chapterNumber
              (findDate (stem filepath.data) datePatterns) =
            (match findDate (stem filepath.data) datePatterns with
             | some d => if d.isEmpty then rest.dropWhile isSepChar
               else replaceStr d [] (rest.dropWhile isSepChar)
             | none => rest.dropWhile isSepChar))) ∧
    leadsWithChapter (stem "Part 3 - Intro.txt".data) = false ∧
    parseFilename up "Part 3 - Intro.txt" "" =
      some
        { filepath := "Part 3 - Intro.txt"
          filename := "Part 3 - Intro.txt"
          chapterNumber := some (.finite 3)
          dateString := none
          title := "Part 3 - Intro"
          isValid := true } ∧
    leadsWithChapter (stem "Chapter 12 - Title.txt".data) = true ∧
    parseFilename up "Chapter 12 - Title.txt" "" =
      some
        { filepath := "Chapter 12 - Title.txt"
          filename := "Chapter 12 - Title.txt"
          chapterNumber := some (.finite 12)
          dateString := none
          title := "Title"
          isValid := true } := by
  refine ⟨⟨_, parseFilename_eq up filepath ignoreSeparators, rfl, rfl, ?_, ?_⟩, by decide,
    by rw [parseFilename_noconfig]; decide, by decide,
    by rw [parseFilename_noconfig]; decide⟩
  · intro h
    have hnone := chapterLead_none _ h
    have hrep := replaceFirst_of_none chapterLeadPattern [] _ hnone
    refine ⟨by unfold matchFirst; rw [hnone]; rfl, hrep, ?_, ?_⟩
    · intro run hrun
      obtain ⟨pre, post, h1, h2, _⟩ := matchFirst_some _ _ _ hrun
      refine ⟨?_, pre, post, by rw [hrep]; exact h1⟩
      intro hr
      rw [hr] at h2
      have he : (⟨pre.reverse, post⟩ : Pos) ∈
          chapterPattern.ends ⟨pre.reverse, [] ++ post⟩ := List.mem_of_mem_head? h2
      have hlt := ends_seq_lt_left _ _ (ends_chr_lt isDigit) _ _ he
      simp at hlt
    · show residualTitle (stem filepath.data) (chapterOf (stem filepath.data)) _ = _
      rw [residualTitle_eq, hrep]
  · intro h
    obtain ⟨lead, run, rest, h1, h2, h3, h4, h5, h6⟩ := chapterLead_some _ h
    have hrun : matchFirst chapterPattern (stem filepath.data) = some run := by
      rw [matchFirst_chapterPattern]
      conv => lhs; rw [h1]
      exact firstDigitRun_append lead run rest h2 h3 h4 h5
    refine ⟨lead, run, rest, h1, h2, h3, h4, h5, hrun, ?_, h6, ?_⟩
    · show chapterOf (stem filepath.data) = _
      unfold chapterOf
      rw [hrun]
      rfl
    · show residualTitle (stem filepath.data) (chapterOf (stem filepath.data)) _ = _
      rw [residualTitle_eq, h6]

theorem chapter_removal_leading_witness :
    ∃ r, parseFilename (fun c => c) "chapter 7 - AD 1982 intro.txt" "" = some r ∧
      r.chapterNumber = some (.finite 7) ∧ r.dateString = some "AD 1982" ∧
      r.title = "intro" ∧
      leadsWithChapter (stem "chapter 7 - AD 1982 intro.txt".data) = true ∧
      replaceFirst chapterLeadPattern [] (stem "chapter 7 - AD 1982 intro.txt".data) =
        "AD 1982 intro".data ∧
      residualTitle (stem "chapter 7 - AD 1982 intro.txt".data) r.chapterNumber
          (findDate (stem "chapter 7 - AD 1982 intro.txt".data) datePatterns) =
        " intro".data := by
  obtain ⟨⟨r, hr, h1, _, _, _⟩, _⟩ :=
    chapter_removal_leading (fun c => c) "chapter 7 - AD 1982 intro.txt" ""
  refine ⟨r, hr, ?_⟩
  rw [parseFilename_eq] at hr
  cases hr
  decide

/-- The chapter number of `Part 1982 - Intro.txt` does not lead the name, and its digits are
still taken out of the title, as the date string. -/
theorem chapter_digits_removed_as_date :
    leadsWithChapter (stem "Part 1982 - Intro.txt".data) = false ∧
    parseFilename (fun c => c) "Part 1982 - Intro.txt" "" =
      some
        { filepath := "Part 1982 - Intro.txt"
          filename := "Part 1982 - Intro.txt"
          chapterNumber := some (.finite 1982)
          dateString := some "1982"
          title := "Part - Intro"
          isValid := true } ∧
    residualTitle (stem "Part 1982 - Intro.txt".data)
        (chapterOf (stem "Part 1982 - Intro.txt".data))
        (findDate (stem "Part 1982 - Intro.txt".data) datePatterns) =
      "Part  - Intro".data ∧
    ∀ c ∈ "Part  - Intro".data, isDigit c = false := by
  decide

/-! ## Era-tagged years between word boundaries -/

theorem startsWithCI_of_map : ∀ (w era rest : List Char),
    era.map asciiUpper = w.map asciiUpper →
    startsWithCI w (era ++ rest) = true ∧ (era ++ rest).take w.length = era ∧
      (era ++ rest).drop w.length = rest := by
  intro w
  induction w with
  | nil =>
    intro era rest h
    cases era with
    | nil => exact ⟨rfl, rfl, rfl⟩
    | cons a era => cases h
  | cons x w ih =>
    intro era rest h
    cases era with
    | nil => cases h
    | cons a era =>
      simp only [List.map_cons, List.cons.injEq] at h
      obtain ⟨h1, h2, h3⟩ := ih era rest h.2
      refine ⟨?_, ?_, ?_⟩
      · show (asciiUpper a == asciiUpper x && startsWithCI w (era ++ rest)) = true
        rw [h.1, h1, beq_self_eq_true]
        rfl
      · simp only [List.cons_append, List.length_cons, List.take_succ_cons, h2]
      · simp only [List.cons_append, List.length_cons, List.drop_succ_cons, h3]

theorem mem_ends_word (w era : List Char) (h : era.map asciiUpper = w.map asciiUpper)
    (b rest : List Char) :
    (⟨era.reverse ++ b, rest⟩ : Pos) ∈ (Re.word w).ends ⟨b, era ++ rest⟩ := by
  obtain ⟨h1, h2, h3⟩ := startsWithCI_of_map w era rest h
  rw [ends_word, if_pos h1, h2, h3]
  exact List.mem_singleton.2 rfl

theorem mem_ends_alt_left {a r : Re} {x y : Pos} (h : y ∈ a.ends x) :
    y ∈ (Re.alt a r).ends x := by
  rw [ends_alt]
  exact List.mem_append_left _ h

theorem mem_ends_alt_right {a r : Re} {x y : Pos} (h : y ∈ r.ends x) :
    y ∈ (Re.alt a r).ends x := by
  rw [ends_alt]
  exact List.mem_append_right _ h

theorem mem_backoff_run (p : Char → Bool) : ∀ (m b rest : List Char),
    (∀ c ∈ m, p c = true) → (⟨m.reverse ++ b, rest⟩ : Pos) ∈ backoff p b (m ++ rest) := by
  intro m
  induction m with
  | nil => intro b rest _; exact backoff_self p rest b
  | cons c m ih =>
    intro b rest h
    have hc := h c (List.mem_cons_self _ _)
    have := ih (c :: b) rest (fun d hd => h d (List.mem_cons_of_mem _ hd))
    simp only [List.cons_append, backoff, hc, if_true, List.reverse_cons, List.append_assoc,
      List.singleton_append]
    exact List.mem_append_left _ this

theorem mem_ends_star_run (p : Char → Bool) (m b rest : List Char)
    (h : ∀ c ∈ m, p c = true) :
    (⟨m.reverse ++ b, rest⟩ : Pos) ∈ (Re.star (Re.chr p)).ends ⟨b, m ++ rest⟩ := by
  rw [ends_star_chr]
  exact mem_backoff_run p m b rest h

theorem mem_ends_plus_run (p : Char → Bool) (m b rest : List Char) (hne : m ≠ [])
    (h : ∀ c ∈ m, p c = true) :
    (⟨m.reverse ++ b, rest⟩ : Pos) ∈ (Re.plus (Re.chr p)).ends ⟨b, m ++ rest⟩ := by
  cases m with
  | nil => exact absurd rfl hne
  | cons c m =>
    have h1 := mem_ends_chr p b c (m ++ rest) (h c (List.mem_cons_self _ _))
    have h2 := mem_ends_star_run p m (c :: b) rest
      (fun d hd => h d (List.mem_cons_of_mem _ hd))
    have := mem_ends_seq (r := Re.star (Re.chr p)) h1 h2
    simpa using this

theorem mem_ends_wordB (x : Pos) (h : (wordAt x.before != wordAt x.after) = true) :
    x ∈ Re.wordB.ends x := by
  rw [ends_wordB, if_pos h]
  exact List.mem_singleton.2 rfl

theorem wordAt_run (l b : List Char) (hne : l ≠ []) (h : ∀ c ∈ l, isWordChar c = true) :
    wordAt (l ++ b) = true := by
  cases l with
  | nil => exact absurd rfl hne
  | cons c l => exact h c (List.mem_cons_self _ _)

theorem wordAt_reverse_run (l b : List Char) (hne : l ≠ [])
    (h : ∀ c ∈ l, isWordChar c = true) : wordAt (l.reverse ++ b) = true :=
  wordAt_run l.reverse b (by simpa using hne) (fun c hc => h c (List.mem_reverse.1 hc))

/-- The characters of an era word are ASCII letters. -/
theorem eraWord_letters (era : List Char) (h : isEraWord era = true) :
    era ≠ [] ∧ ∀ c ∈ era, isLetter c = true := by
  unfold isEraWord at h
  constructor
  · intro he
    rw [he] at h
    revert h
    decide
  · intro c hc
    have hmem : asciiUpper c ∈ era.map asciiUpper := List.mem_map.2 ⟨c, hc, rfl⟩
    have hall : ∀ w ∈ ["AD".data, "CE".data, "BCE".data, "BC".data], ∀ l ∈ w,
        isLetter l = true ∧ asciiUpper l = l := by decide
    have hw : era.map asciiUpper ∈ ["AD".data, "CE".data, "BCE".data, "BC".data] := by
      simpa using h
    obtain ⟨hl, hu⟩ := hall _ hw _ hmem
    exact ci_letter hl (by rw [hu]; exact beq_self_eq_true _)

theorem mem_ends_era (era : List Char) (h : isEraWord era = true) (b rest : List Char) :
    (⟨era.reverse ++ b, rest⟩ : Pos) ∈ reADCE.ends ⟨b, era ++ rest⟩ ∨
    (⟨era.reverse ++ b, rest⟩ : Pos) ∈ reBCE.ends ⟨b, era ++ rest⟩ := by
  unfold isEraWord at h
  have hw : era.map asciiUpper ∈ ["AD".data, "CE".data, "BCE".data, "BC".data] := by
    simpa using h
  simp only [List.mem_cons, List.mem_singleton, List.not_mem_nil, or_false] at hw
  rcases hw with hw | hw | hw | hw
  · exact Or.inl (mem_ends_alt_left (mem_ends_word "AD".data era hw b rest))
  · exact Or.inl (mem_ends_alt_right (mem_ends_word "CE".data era hw b rest))
  · exact Or.inr (mem_ends_alt_left (mem_ends_word "BCE".data era hw b rest))
  · exact Or.inr (mem_ends_alt_right (mem_ends_word "BC".data era hw b rest))

/-- An era word, whitespace and digits between two word boundaries are matched by
`\b(era)\s*(\d+)\b`. -/
theorem era_first_matches (re : Re) (era sp ds post b : List Char)
    (hmem : (⟨era.reverse ++ b, sp ++ (ds ++ post)⟩ : Pos) ∈
      re.ends ⟨b, era ++ (sp ++ (ds ++ post))⟩)
    (hera : era ≠ [] ∧ ∀ c ∈ era, isLetter c = true)
    (hsp : ∀ c ∈ sp, isSpace c = true) (hne : ds ≠ []) (hds : ∀ c ∈ ds, isDigit c = true)
    (hb : wordAt b = false) (hpost : wordAt post = false) :
    (Re.seq .wordB (.seq re (.seq reSpace.star (.seq reDigit.plus .wordB)))).ends
      ⟨b, era ++ (sp ++ (ds ++ post))⟩ ≠ [] := by
  have h1 : (⟨b, era ++ (sp ++ (ds ++ post))⟩ : Pos) ∈
      Re.wordB.ends ⟨b, era ++ (sp ++ (ds ++ post))⟩ :=
    mem_ends_wordB _ (by
      simp only [hb, wordAt_run era _ hera.1 (fun c hc => letter_word (hera.2 c hc))]
      rfl)
  have h3 := mem_ends_star_run isSpace sp (era.reverse ++ b) (ds ++ post) hsp
  have h4 := mem_ends_plus_run isDigit ds (sp.reverse ++ (era.reverse ++ b)) post hne hds
  have h5 : (⟨ds.reverse ++ (sp.reverse ++ (era.reverse ++ b)), post⟩ : Pos) ∈
      Re.wordB.ends ⟨ds.reverse ++ (sp.reverse ++ (era.reverse ++ b)), post⟩ :=
    mem_ends_wordB _ (by
      simp only [hpost, wordAt_reverse_run ds _ hne (fun c hc => digit_word (hds c hc))]
      rfl)
  exact List.ne_nil_of_mem
    (mem_ends_seq h1 (mem_ends_seq hmem (mem_ends_seq h3 (mem_ends_seq h4 h5))))

/-- Digits, whitespace and an era word between two word boundaries are matched by
`\b(\d+)\s*(era)\b`. -/
theorem era_last_matches (re : Re) (era sp ds post b : List Char)
    (hmem : (⟨era.reverse ++ (sp.reverse ++ (ds.reverse ++ b)), post⟩ : Pos) ∈
      re.ends ⟨sp.reverse ++ (ds.reverse ++ b), era ++ post⟩)
    (hera : era ≠ [] ∧ ∀ c ∈ era, isLetter c = true)
    (hsp : ∀ c ∈ sp, isSpace c = true) (hne : ds ≠ []) (hds : ∀ c ∈ ds, isDigit c = true)
    (hb : wordAt b = false) (hpost : wordAt post = false) :
    (Re.seq .wordB (.seq reDigit.plus (.seq reSpace.star (.seq re .wordB)))).ends
      ⟨b, ds ++ (sp ++ (era ++ post))⟩ ≠ [] := by
  have h1 : (⟨b, ds ++ (sp ++ (era ++ post))⟩ : Pos) ∈
      Re.wordB.ends ⟨b, ds ++ (sp ++ (era ++ post))⟩ :=
    mem_ends_wordB _ (by
      simp only [hb, wordAt_run ds _ hne (fun c hc => digit_word (hds c hc))]
      rfl)
  have h2 := mem_ends_plus_run isDigit ds b (sp ++ (era ++ post)) hne hds
  have h3 := mem_ends_star_run isSpace sp (ds.reverse ++ b) (era ++ post) hsp
  have h5 : (⟨era.reverse ++ (sp.reverse ++ (ds.reverse ++ b)), post⟩ : Pos) ∈
      Re.wordB.ends ⟨era.reverse ++ (sp.reverse ++ (ds.reverse ++ b)), post⟩ :=
    mem_ends_wordB _ (by
      simp only [hpost,
        wordAt_reverse_run era _ hera.1 (fun c hc => letter_word (hera.2 c hc))]
      rfl)
  exact List.ne_nil_of_mem
    (mem_ends_seq h1 (mem_ends_seq h2 (mem_ends_seq h3 (mem_ends_seq hmem h5))))

theorem matchFirst_of_ends (r : Re) (s pre post : List Char) (hs : s = pre ++ post)
    (h : r.ends ⟨pre.reverse, post⟩ ≠ []) : ∃ m, matchFirst r s = some m := by
  cases hm : matchFirst r s with
  | some m => exact ⟨m, rfl⟩
  | none => exact absurd (matchFirst_none r s hm pre post hs) h

theorem findDate_of_mem (s : List Char) : ∀ (ps : List Re) (p : Re), p ∈ ps →
    (∃ m, matchFirst p s = some m) → ∃ m, findDate s ps = some m := by
  intro ps
  induction ps with
  | nil => intro p hp; cases hp
  | cons q ps ih =>
    intro p hp hm
    cases hq : matchFirst q s with
    | some m => exact ⟨m, by simp only [findDate, hq]⟩
    | none =>
      simp only [findDate, hq]
      rcases List.mem_cons.1 hp with rfl | hp
      · obtain ⟨m, hm⟩ := hm
        rw [hq] at hm
        cases hm
      · exact ih p hp hm

/-- A stem that holds an era word and a run of digits, in either order, with only
whitespace between them and a word boundary on both sides, is matched by one of the four
era patterns. -/
theorem findDate_era (s pre era sp ds post : List Char) (hera : isEraWord era = true)
    (hsp : ∀ c ∈ sp, isSpace c = true) (hne : ds ≠ []) (hds : ∀ c ∈ ds, isDigit c = true)
    (hpre : wordAt pre.reverse = false) (hpost : wordAt post = false)
    (hs : s = pre ++ (era ++ (sp ++ (ds ++ post))) ∨ s = pre ++ (ds ++ (sp ++ (era ++ post)))) :
    ∃ m, findDate s [datePattern1, datePattern2, datePattern3, datePattern4] = some m := by
  have hl := eraWord_letters era hera
  rcases hs with hs | hs
  · rcases mem_ends_era era hera pre.reverse (sp ++ (ds ++ post)) with hm | hm
    · exact findDate_of_mem s _ datePattern1 (by simp)
        (matchFirst_of_ends _ s pre _ hs
          (era_first_matches reADCE era sp ds post _ hm hl hsp hne hds hpre hpost))
    · exact findDate_of_mem s _ datePattern4 (by simp)
        (matchFirst_of_ends _ s pre _ hs
          (era_first_matches reBCE era sp ds post _ hm hl hsp hne hds hpre hpost))
  · rcases mem_ends_era era hera (sp.reverse ++ (ds.reverse ++ pre.reverse)) post with hm | hm
    · exact findDate_of_mem s _ datePattern2 (by simp)
        (matchFirst_of_ends _ s pre _ hs
          (era_last_matches reADCE era sp ds post _ hm hl hsp hne hds hpre hpost))
    · exact findDate_of_mem s _ datePattern3 (by simp)
        (matchFirst_of_ends _ s pre _ hs
          (era_last_matches reBCE era sp ds post _ hm hl hsp hne hds hpre hpost))

/-- C5 (amended): dateString is the match of the first pattern of `datePatterns`, in list
order, that matches the stem, and null when none matches; a match is a leftmost one (no
earlier start matches, and it is the matcher's first end there). Hence whenever one of the
four era patterns matches the stem, dateString is the match of the first of them and not a
bare year, also when a bare year stands earlier: `1 - 1999 - AD 1982.txt` gives `AD 1982`.
An era pattern matches whenever the stem holds an era word and a run of digits, in either
order, with only whitespace between them and a word boundary on both sides. It does not
match an era word glued to an underscore or to another word character. -/
theorem date_priority (up : Char → Char) (filepath ignoreSeparators : String) :
    ∃ r, parseFilename up filepath ignoreSeparators = some r ∧
      (∀ (k : Nat) (p : Re) (m : List Char), datePatterns[k]? = some p →
        (∀ i q, i < k → datePatterns[i]? = some q →
          matchFirst q (stem filepath.data) = none) →
        matchFirst p (stem filepath.data) = some m →
        r.dateString = some (String.mk m)) ∧
      ((∀ p ∈ datePatterns, matchFirst p (stem filepath.data) = none) →
        r.dateString = none) ∧
      (∀ (p : Re) (m : List Char), matchFirst p (stem filepath.data) = some m →
        ∃ pre post, stem filepath.data = pre ++ m ++ post ∧
          (p.ends ⟨pre.reverse, m ++ post⟩).head? = some ⟨m.reverse ++ pre.reverse, post⟩ ∧
          ∀ pre2 post2, stem filepath.data = pre2 ++ post2 → pre2.length < pre.length →
            p.ends ⟨pre2.reverse, post2⟩ = []) ∧
      (∀ m, findDate (stem filepath.data)
          [datePattern1, datePattern2, datePattern3, datePattern4] = some m →
        r.dateString = some (String.mk m)) ∧
      (∀ pre era sp ds post, isEraWord era = true → (∀ c ∈ sp, isSpace c = true) →
        ds ≠ [] → (∀ c ∈ ds, isDigit c = true) →
        wordAt pre.reverse = false → wordAt post = false →
        (stem filepath.data = pre ++ (era ++ (sp ++ (ds ++ post))) ∨
          stem filepath.data = pre ++ (ds ++ (sp ++ (era ++ post)))) →
        ∃ m, findDate (stem filepath.data)
            [datePattern1, datePattern2, datePattern3, datePattern4] = some m ∧
          r.dateString = some (String.mk m)) ∧
      ∃ r2, parseFilename up "1 - 1999 - AD 1982.txt" ignoreSeparators = some r2 ∧
        r2.dateString = some "AD 1982" := by
  have hd : (parsedRecord up filepath ignoreSeparators).dateString =
      (findDate (stem filepath.data) datePatterns).map String.mk := rfl
  refine ⟨_, parseFilename_eq up filepath ignoreSeparators, ?_, ?_, ?_, ?_, ?_, ?_⟩
  · intro k p m hk hbefore hm
    rw [hd, findDate_at _ datePatterns k p m hk hbefore hm]; rfl
  · intro h
    rw [hd, findDate_none _ _ h]; rfl
  · intro p m hm
    exact matchFirst_some p _ m hm
  · intro m hm
    rw [hd, findDate_eraFirst _ m hm]; rfl
  · intro pre era sp ds post hera hsp hne hds hpre hpost hs
    obtain ⟨m, hm⟩ := findDate_era _ pre era sp ds post hera hsp hne hds hpre hpost hs
    exact ⟨m, hm, by rw [hd, findDate_eraFirst _ m hm]; rfl⟩
  · refine ⟨_, parseFilename_eq up "1 - 1999 - AD 1982.txt" ignoreSeparators, ?_⟩
    show (findDate (stem "1 - 1999 - AD 1982.txt".data) datePatterns).map String.mk = _
    decide

/-- In `1_AD 1982.txt` the era word follows an underscore, a word character: no era pattern
matches and the date is the bare year. -/
theorem era_tag_after_underscore :
    parseFilename (fun c => c) "1_AD 1982.txt" "" =
      some
        { filepath := "1_AD 1982.txt"
          filename := "1_AD 1982.txt"
          chapterNumber := some (.finite 1)
          dateString := some "1982"
          title := "AD"
          isValid := true } ∧
    findDate (stem "1_AD 1982.txt".data)
      [datePattern1, datePattern2, datePattern3, datePattern4] = none ∧
    stem "1_AD 1982.txt".data = "1_".data ++ ("AD".data ++ (" ".data ++ ("1982".data ++ []))) ∧
    isEraWord "AD".data = true ∧ wordAt "1_".data.reverse = true := by
  decide

end FileParser
